import Mathlib

/-!
The CDX parser of gocdx (`parse.go`, `model.go`).

A shallow embedding of `Parse`, `parseHeader` and `parseRecord` together with the
standard-library routines they call (`strings.Fields`, `time.Parse` for the layout
`20060102150405`, `strconv.Atoi`, `strconv.ParseInt`).

Conventions.
* A Go `string` is its sequence of bytes; a byte is a natural number below 256.
* `len(s)` is `List.length`, `s[i]` is the `i`-th byte.
* A Go `map[byte]int` is an association list with pairwise distinct keys; the order in
  which `range` visits a map is not fixed by the language, so every loop over a map takes
  the visiting order as an explicit argument.
* `int` is 64 bits wide (`intSize`).
-/

set_option autoImplicit false

namespace Gocdx

deriving instance DecidableEq for Except

/-- A Go string: its bytes. -/
abbrev GoString := List Nat

/-! ## unicode/utf8 -/

/-- The constant `utf8.RuneError`. -/
def RuneError : Nat := 0xFFFD

/-- The function `utf8.EncodeRune`: the UTF-8 bytes of a code point. -/
def EncodeRune (r : Nat) : GoString :=
  if r < 0x80 then [r]
  else if r < 0x800 then [0xC0 + r / 64, 0x80 + r % 64]
  else if 0xD800 ≤ r ∧ r ≤ 0xDFFF ∨ 0x10FFFF < r then [0xEF, 0xBF, 0xBD]
  else if r < 0x10000 then [0xE0 + r / 4096, 0x80 + r / 64 % 64, 0x80 + r % 64]
  else [0xF0 + r / 262144, 0x80 + r / 4096 % 64, 0x80 + r / 64 % 64, 0x80 + r % 64]

/-- The bytes of a string literal. -/
def str (s : String) : GoString :=
  s.toList.flatMap (fun c => EncodeRune c.toNat)

/-- The table `first` together with `acceptRanges` of package utf8: for a leading byte,
the length of the sequence and the interval allowed for the second byte; `none` for a
byte that cannot start a multi-byte sequence. -/
def firstInfo (b : Nat) : Option (Nat × Nat × Nat) :=
  if 0xC2 ≤ b ∧ b ≤ 0xDF then some (2, 0x80, 0xBF)
  else if b = 0xE0 then some (3, 0xA0, 0xBF)
  else if 0xE1 ≤ b ∧ b ≤ 0xEC then some (3, 0x80, 0xBF)
  else if b = 0xED then some (3, 0x80, 0x9F)
  else if 0xEE ≤ b ∧ b ≤ 0xEF then some (3, 0x80, 0xBF)
  else if b = 0xF0 then some (4, 0x90, 0xBF)
  else if 0xF1 ≤ b ∧ b ≤ 0xF3 then some (4, 0x80, 0xBF)
  else if b = 0xF4 then some (4, 0x80, 0x8F)
  else none

/-- Whether `b` is a continuation byte (`locb <= b <= hicb`). -/
def isCont (b : Nat) : Bool := 0x80 ≤ b && b ≤ 0xBF

/-- The function `utf8.DecodeRuneInString`: the first rune of `s` and its width in bytes.
An invalid or truncated sequence decodes to `(RuneError, 1)`, the empty string to
`(RuneError, 0)`. -/
def DecodeRuneInString (s : GoString) : Nat × Nat :=
  match s with
  | [] => (RuneError, 0)
  | s0 :: rest =>
    if s0 < 0x80 then (s0, 1)
    else
      match firstInfo s0 with
      | none => (RuneError, 1)
      | some (sz, lo, hi) =>
        if rest.length + 1 < sz then (RuneError, 1)
        else
          match rest with
          | [] => (RuneError, 1)
          | s1 :: rest1 =>
            if s1 < lo ∨ hi < s1 then (RuneError, 1)
            else if sz ≤ 2 then ((s0 % 32) * 64 + s1 % 64, 2)
            else
              match rest1 with
              | [] => (RuneError, 1)
              | s2 :: rest2 =>
                if !isCont s2 then (RuneError, 1)
                else if sz ≤ 3 then ((s0 % 16) * 4096 + (s1 % 64) * 64 + s2 % 64, 3)
                else
                  match rest2 with
                  | [] => (RuneError, 1)
                  | s3 :: _ =>
                    if !isCont s3 then (RuneError, 1)
                    else ((s0 % 8) * 262144 + (s1 % 64) * 4096 + (s2 % 64) * 64 + s3 % 64, 4)

/-! ## unicode -/

/-- The function `unicode.IsSpace`: the Latin-1 cases and the table `White_Space`. -/
def IsSpace (r : Nat) : Bool :=
  if r ≤ 0xFF then
    r = 0x09 || r = 0x0A || r = 0x0B || r = 0x0C || r = 0x0D || r = 0x20 || r = 0x85 || r = 0xA0
  else
    r = 0x1680 || (0x2000 ≤ r && r ≤ 0x200A) || r = 0x2028 || r = 0x2029 || r = 0x202F
      || r = 0x205F || r = 0x3000

/-! ## strings -/

/-- The loop of `strings.FieldsFunc(s, unicode.IsSpace)`. `skip` counts the bytes that
still belong to the rune decoded last, `drop` tells whether that rune was a space, and
`cur` holds the bytes of the field being read (empty when no field is open). -/
def fieldsLoop : GoString → Nat → Bool → GoString → List GoString
  | [], _, _, cur => if cur = [] then [] else [cur]
  | b :: rest, skip + 1, drop, cur =>
    if drop then fieldsLoop rest skip drop cur
    else fieldsLoop rest skip drop (cur ++ [b])
  | b :: rest, 0, _, cur =>
    let rw := DecodeRuneInString (b :: rest)
    if IsSpace rw.1 then
      if cur = [] then fieldsLoop rest (rw.2 - 1) true []
      else cur :: fieldsLoop rest (rw.2 - 1) true []
    else fieldsLoop rest (rw.2 - 1) false (cur ++ [b])

/-- The function `strings.Fields`: the maximal runs of non-space runes of `s`. (For an
all-ASCII string Go takes a fast path over the table `asciiSpace`, which holds the six
ASCII members of `unicode.IsSpace` and so yields the same fields.) -/
def Fields (s : GoString) : List GoString :=
  fieldsLoop s 0 false []

/-- The loop `for _, r := range s`: the runes of `s` as Go decodes them; `skip` counts
the bytes that still belong to the rune decoded last. -/
def runesLoop : GoString → Nat → List Nat
  | [], _ => []
  | _ :: rest, skip + 1 => runesLoop rest skip
  | b :: rest, 0 =>
    let rw := DecodeRuneInString (b :: rest)
    rw.1 :: runesLoop rest (rw.2 - 1)

/-- The runes of a string. -/
def runes (s : GoString) : List Nat := runesLoop s 0

/-! ## model.go -/

/-- The type `FieldIndex` (`map[byte]int`): the entries of the map. -/
abbrev FieldIndex := List (Nat × Nat)

namespace FieldIndex

/-- The keys of a map are pairwise distinct. -/
def Valid (fi : FieldIndex) : Prop := (fi.map Prod.fst).Nodup

instance (fi : FieldIndex) : Decidable (Valid fi) := by
  unfold Valid; infer_instance

/-- Map lookup `fi[key]` with the comma-ok form. -/
def get? (fi : FieldIndex) (key : Nat) : Option Nat :=
  match fi with
  | [] => none
  | (k, v) :: rest => if k = key then some v else get? rest key

/-- Map assignment `fi[key] = v`. -/
def set (fi : FieldIndex) (key v : Nat) : FieldIndex :=
  match fi with
  | [] => [(key, v)]
  | (k, w) :: rest => if k = key then (key, v) :: rest else (k, w) :: set rest key v

/-- The builtin `len(fi)`. -/
def len (fi : FieldIndex) : Nat := fi.length

/-- An order in which `range fi` may visit the entries of `fi`. -/
def IsRange (fi : FieldIndex) (order : List (Nat × Nat)) : Prop := order.Perm fi

end FieldIndex

/-! ## strconv -/

/-- The sentinel errors `strconv.ErrSyntax` and `strconv.ErrRange`. -/
inductive NumErrKind where
  | ErrSyntax
  | ErrRange
  deriving DecidableEq, Repr

/-- The type `strconv.NumError`. -/
structure NumError where
  Func : GoString
  Num : GoString
  Err : NumErrKind
  deriving DecidableEq, Repr

/-- Conversion to `int64` (two's complement wrap-around). -/
def toInt64 (x : Int) : Int := (x + 2 ^ 63) % 2 ^ 64 - 2 ^ 63

/-- The helper `lower` of strconv: `c | ('x' - 'X')`. -/
def lower (c : Nat) : Nat := Nat.lor c 32

/-- The digit loop of `strconv.ParseUint(s, 10, 64)`; `s0` is the whole argument and `n`
the `uint64` accumulator. The result `Except.error` carries the returned `*NumError`. -/
def parseUintLoop (s0 : GoString) : GoString → Nat → Except NumError Nat
  | [], n => .ok n
  | c :: rest, n =>
    let d : Option Nat :=
      if 48 ≤ c ∧ c ≤ 57 then some (c - 48)
      else if 97 ≤ lower c ∧ lower c ≤ 122 then some (lower c - 97 + 10)
      else none
    match d with
    | none => .error ⟨str "ParseUint", s0, .ErrSyntax⟩
    | some d =>
      if d ≥ 10 then .error ⟨str "ParseUint", s0, .ErrSyntax⟩
      else if n ≥ (2 ^ 64 - 1) / 10 + 1 then .error ⟨str "ParseUint", s0, .ErrRange⟩
      else
        let n10 := n * 10 % 2 ^ 64
        let n1 := (n10 + d) % 2 ^ 64
        if n1 < n10 ∨ n1 > 2 ^ 64 - 1 then .error ⟨str "ParseUint", s0, .ErrRange⟩
        else parseUintLoop s0 rest n1

/-- The call `strconv.ParseUint(s, 10, 64)`. -/
def ParseUint (s : GoString) : Except NumError Nat :=
  if s = [] then .error ⟨str "ParseUint", s, .ErrSyntax⟩
  else parseUintLoop s s 0

/-- The part of `strconv.ParseInt(s0, 10, 64)` after the sign has been picked off: `s` is
the rest of the argument `s0` and `neg` tells whether the sign was `-`. -/
def parseIntSigned (s0 s : GoString) (neg : Bool) : Except NumError Int :=
  let cutoff : Nat := 2 ^ 63
  let checked : Except NumError Nat :=
    match ParseUint s with
    | .ok un => .ok un
    | .error e =>
      if e.Err ≠ .ErrRange then .error ⟨str "ParseInt", s0, e.Err⟩ else .ok (2 ^ 64 - 1)
  match checked with
  | .error e => .error e
  | .ok un =>
    if !neg ∧ un ≥ cutoff then .error ⟨str "ParseInt", s0, .ErrRange⟩
    else if neg ∧ un > cutoff then .error ⟨str "ParseInt", s0, .ErrRange⟩
    else
      let n := toInt64 un
      .ok (if neg then toInt64 (-n) else n)

/-- The call `strconv.ParseInt(s, 10, 64)` (also `ParseInt(s, 10, 0)` where `int` has
64 bits). -/
def ParseInt (s0 : GoString) : Except NumError Int :=
  match s0 with
  | [] => .error ⟨str "ParseInt", s0, .ErrSyntax⟩
  | c :: rest =>
    let neg : Bool := c ≠ 43 ∧ c = 45
    let s : GoString := if c = 43 then rest else if c = 45 then rest else s0
    parseIntSigned s0 s neg

/-- The width of `int` in bits. -/
def intSize : Nat := 64

/-- The digit loop of the fast path of `strconv.Atoi`; `ch -= '0'` is byte arithmetic. -/
def atoiFastLoop (s0 : GoString) : GoString → Int → Except NumError Int
  | [], n => .ok n
  | ch :: rest, n =>
    let ch := (ch + 256 - 48) % 256
    if ch > 9 then .error ⟨str "Atoi", s0, .ErrSyntax⟩
    else atoiFastLoop s0 rest (n * 10 + ch)

/-- The function `strconv.Atoi`. On the fast path the argument has fewer than 19 bytes, so
the accumulator stays below `10 ^ 18` and never overflows. -/
def Atoi (s0 : GoString) : Except NumError Int :=
  let sLen := s0.length
  if intSize = 32 ∧ (0 < sLen ∧ sLen < 10) ∨ intSize = 64 ∧ (0 < sLen ∧ sLen < 19) then
    match s0 with
    | [] => .error ⟨str "Atoi", s0, .ErrSyntax⟩
    | c :: rest =>
      let signed : Bool := c = 45 ∨ c = 43
      let s := if signed then rest else s0
      if signed ∧ s.length < 1 then .error ⟨str "Atoi", s0, .ErrSyntax⟩
      else
        match atoiFastLoop s0 s 0 with
        | .error e => .error e
        | .ok n => .ok (if c = 45 then -n else n)
  else
    match ParseInt s0 with
    | .error e => .error { e with Func := str "Atoi" }
    | .ok i64 => .ok i64

/-! ## time -/

/-- A value of `time.Time` in the location UTC, given by its calendar fields and the
nanoseconds within the second. -/
structure Time where
  year : Int
  month : Nat
  day : Nat
  hour : Nat
  min : Nat
  sec : Nat
  nsec : Nat
  deriving DecidableEq, Repr

/-- The zero value `time.Time{}`: January 1, year 1, 00:00:00 UTC. -/
def Time.zero : Time := ⟨1, 1, 1, 0, 0, 0, 0⟩

instance : Inhabited Time := ⟨Time.zero⟩

/-- The call `time.Date(year, month, day, hour, min, sec, nsec, time.UTC)`. `time.Parse`
calls it only with a month in 1..12, a day of that month, an hour below 24, minutes and
seconds below 60 and nanoseconds below `10 ^ 9`, on which `Date` does not normalise. -/
def Date (year : Int) (month day hour min sec nsec : Nat) : Time :=
  ⟨year, month, day, hour, min, sec, nsec⟩

/-- What a `time.ParseError` reports. -/
inductive ParseDiag where
  /-- The layout element named could not be read from the value. -/
  | cannotParse (layoutElem : GoString)
  /-- The message `": <what> out of range"`. -/
  | outOfRange (what : GoString)
  /-- The message `": extra text: ..."` with the unread rest of the value. -/
  | extraText (rest : GoString)
  /-- The message `": day out of range"`. -/
  | dayOutOfRange
  deriving DecidableEq, Repr

/-- The type `time.ParseError`; `Value` is the whole string handed to `time.Parse`. -/
structure ParseError where
  Layout : GoString
  Value : GoString
  Diag : ParseDiag
  deriving DecidableEq, Repr

/-- The helper `isDigit(s, i)` of package time. -/
def isDigit (s : GoString) (i : Nat) : Bool :=
  match s.get? i with
  | none => false
  | some c => 48 ≤ c && c ≤ 57

/-- The helper `commaOrPeriod` of package time (Go 1.17 and later; before, only the
period started a fractional second). -/
def commaOrPeriod (b : Nat) : Bool := b = 46 || b = 44

/-- The helper `getnum(s, fixed)` of package time: a one- or two-digit number, two digits
being required when `fixed`; `none` is `errBad`. -/
def getnum (s : GoString) (fixed : Bool) : Option (Nat × GoString) :=
  if !isDigit s 0 then none
  else if !isDigit s 1 then
    if fixed then none else some (s.headD 0 - 48, s.drop 1)
  else some ((s.headD 0 - 48) * 10 + (s.getD 1 0 - 48), s.drop 2)

/-- The helper `leadingInt` of package time; `none` is `errLeadingInt`. -/
def leadingInt : GoString → Nat → Option (Nat × GoString)
  | [], x => some (x, [])
  | c :: rest, x =>
    if c < 48 ∨ c > 57 then some (x, c :: rest)
    else if x > 2 ^ 63 / 10 then none
    else
      let x1 := x * 10 + c - 48
      if x1 > 2 ^ 63 then none else leadingInt rest x1

/-- The helper `atoi` of package time; `none` is `errAtoi`. -/
def atoi (s : GoString) : Option Int :=
  let signed : Bool := match s with
    | [] => false
    | c :: _ => c = 45 || c = 43
  let neg : Bool := signed && s.head? = some 45
  let s := if signed then s.drop 1 else s
  match leadingInt s 0 with
  | none => none
  | some (q, rem) =>
    if rem.length > 0 then none
    else
      let x := toInt64 q
      some (if neg then toInt64 (-x) else x)

/-- The helper `isLeap` of package time. -/
def isLeap (year : Int) : Bool :=
  year % 4 = 0 && (year % 100 ≠ 0 || year % 400 = 0)

/-- The table `daysBefore` of package time. -/
def daysBefore : List Nat := [0, 31, 59, 90, 120, 151, 181, 212, 243, 273, 304, 334, 365]

/-- The helper `daysIn(m, year)` of package time. -/
def daysIn (m : Nat) (year : Int) : Nat :=
  if m = 2 ∧ isLeap year then 29
  else daysBefore.getD m 0 - daysBefore.getD (m - 1) 0

/-- The helper `parseNanoseconds(value, nbytes)` of package time, at a `value` that
starts with a comma or period followed by `nbytes - 1` digits; `none` is an error. -/
def parseNanoseconds (value : GoString) (nbytes : Nat) : Option Nat :=
  if !commaOrPeriod (value.headD 0) then none
  else
    let nb := if nbytes > 10 then 10 else nbytes
    let v := if nbytes > 10 then value.take 10 else value
    match atoi ((v.take nb).drop 1) with
    | none => none
    | some ns =>
      if ns < 0 then none
      else some (ns.toNat * 10 ^ (10 - nb))

/-- The layout of the `b` column. -/
def timestampLayout : GoString := str "20060102150405"

/-- The number of leading bytes of `value`, from index `n` on, that are digits: the loop
`for ; n < len(value) && isDigit(value, n); n++ {}`. -/
def digitRun : GoString → Nat
  | [] => 0
  | c :: rest => if 48 ≤ c ∧ c ≤ 57 then digitRun rest + 1 else 0

/-- The special case of `time.Parse` after the seconds (`stdZeroSecond`): a fractional
second in the value although the layout has none. It yields the nanoseconds and the rest
of the value; `none` is an error of `parseNanoseconds`. -/
def fracSecond (value : GoString) : Option (Nat × GoString) :=
  if value.length ≥ 2 ∧ commaOrPeriod (value.headD 0) ∧ isDigit value 1 then
    let n := 2 + digitRun (value.drop 2)
    match parseNanoseconds value n with
    | none => none
    | some nsec => some (nsec, value.drop n)
  else some (0, value)

/-- The call `time.Parse("20060102150405", value)`. The layout splits into the chunks
`2006` (stdLongYear), `01` (stdZeroMonth), `02` (stdZeroDay), `15` (stdHour), `04`
(stdZeroMinute) and `05` (stdZeroSecond) with empty prefixes; they are read in this order,
each failure returning at once. After the seconds a fractional second in the value is
accepted although the layout has none; then no text may remain, and the day is checked
against the month. The location is UTC. -/
def parseTime (avalue : GoString) : Except ParseError Time :=
  let fail (d : ParseDiag) : Except ParseError Time := .error ⟨timestampLayout, avalue, d⟩
  let value := avalue
  -- stdLongYear
  if value.length < 4 ∨ !isDigit value 0 then fail (.cannotParse (str "2006")) else
  match atoi (value.take 4) with
  | none => fail (.cannotParse (str "2006"))
  | some year =>
  let value := value.drop 4
  -- stdZeroMonth
  match getnum value true with
  | none => fail (.cannotParse (str "01"))
  | some (month, value) =>
  if month ≤ 0 ∨ 12 < month then fail (.outOfRange (str "month")) else
  -- stdZeroDay
  match getnum value true with
  | none => fail (.cannotParse (str "02"))
  | some (day, value) =>
  -- stdHour
  match getnum value false with
  | none => fail (.cannotParse (str "15"))
  | some (hour, value) =>
  if 24 ≤ hour then fail (.outOfRange (str "hour")) else
  -- stdZeroMinute
  match getnum value true with
  | none => fail (.cannotParse (str "04"))
  | some (min, value) =>
  if 60 ≤ min then fail (.outOfRange (str "minute")) else
  -- stdZeroSecond
  match getnum value true with
  | none => fail (.cannotParse (str "05"))
  | some (sec, value) =>
  if 60 ≤ sec then fail (.outOfRange (str "second")) else
  match fracSecond value with
  | none => fail (.cannotParse (str "05"))
  | some (nsec, value) =>
  -- end of the layout
  if value.length ≠ 0 then fail (.extraText value) else
  if day < 1 ∨ day > daysIn month year then fail .dayOutOfRange else
  .ok (Date year month day hour min sec nsec)

/-! ## model.go: Record -/

/-- The struct `Record`; every field starts at the zero value of its Go type (`""`, the
zero `time.Time`, `0`), so that `{}` is `Record{}`. -/
structure Record where
  MassagedURL : GoString := []
  Timestamp : Time := Time.zero
  OriginalURL : GoString := []
  MIMEType : GoString := []
  StatusCode : Int := 0
  NewStyleChecksum : GoString := []
  Redirect : GoString := []
  MetaTags : GoString := []
  CompressedRecordSize : Int := 0
  CompressedArcOffset : Int := 0
  Filename : GoString := []
  CanonizedURL : GoString := []
  NewsGroup : GoString := []
  RulespaceCategory : GoString := []
  CompressedDatOffset : Int := 0
  CanonizedFrame : GoString := []
  LanguageDescription : GoString := []
  CanonizedHost : GoString := []
  CanonizedImage : GoString := []
  CanonizedJumpPoint : GoString := []
  FBISChangedThing : GoString := []
  CanonizedLink : GoString := []
  CanonizedPath : GoString := []
  LanguageString : GoString := []
  CanonizedRedirect : GoString := []
  Uniqueness : GoString := []
  CanonizedURLOtherHref : GoString := []
  CanonizedURLOtherSrc : GoString := []
  CanonizedURLScript : GoString := []
  OldStyleChecksum : GoString := []
  UncompressedDatOffset : Int := 0
  IP : GoString := []
  Frame : GoString := []
  OriginalHost : GoString := []
  Image : GoString := []
  OriginalJumpPoint : GoString := []
  Link : GoString := []
  ArcDocumentLength : Int := 0
  Port : Int := 0
  OriginalPath : GoString := []
  Title : GoString := []
  UncompressedArcOffset : Int := 0
  URLOtherHref : GoString := []
  URLOtherSrc : GoString := []
  URLScript : GoString := []
  deriving DecidableEq, Repr

/-- The names of the fields of `Record`, in the order of declaration. -/
inductive Attribute where
  | MassagedURL
  | Timestamp
  | OriginalURL
  | MIMEType
  | StatusCode
  | NewStyleChecksum
  | Redirect
  | MetaTags
  | CompressedRecordSize
  | CompressedArcOffset
  | Filename
  | CanonizedURL
  | NewsGroup
  | RulespaceCategory
  | CompressedDatOffset
  | CanonizedFrame
  | LanguageDescription
  | CanonizedHost
  | CanonizedImage
  | CanonizedJumpPoint
  | FBISChangedThing
  | CanonizedLink
  | CanonizedPath
  | LanguageString
  | CanonizedRedirect
  | Uniqueness
  | CanonizedURLOtherHref
  | CanonizedURLOtherSrc
  | CanonizedURLScript
  | OldStyleChecksum
  | UncompressedDatOffset
  | IP
  | Frame
  | OriginalHost
  | Image
  | OriginalJumpPoint
  | Link
  | ArcDocumentLength
  | Port
  | OriginalPath
  | Title
  | UncompressedArcOffset
  | URLOtherHref
  | URLOtherSrc
  | URLScript
  deriving DecidableEq, Repr, Fintype

/-- All attributes, in the order of declaration. -/
def Attribute.all : List Attribute :=
  [.MassagedURL,
   .Timestamp,
   .OriginalURL,
   .MIMEType,
   .StatusCode,
   .NewStyleChecksum,
   .Redirect,
   .MetaTags,
   .CompressedRecordSize,
   .CompressedArcOffset,
   .Filename,
   .CanonizedURL,
   .NewsGroup,
   .RulespaceCategory,
   .CompressedDatOffset,
   .CanonizedFrame,
   .LanguageDescription,
   .CanonizedHost,
   .CanonizedImage,
   .CanonizedJumpPoint,
   .FBISChangedThing,
   .CanonizedLink,
   .CanonizedPath,
   .LanguageString,
   .CanonizedRedirect,
   .Uniqueness,
   .CanonizedURLOtherHref,
   .CanonizedURLOtherSrc,
   .CanonizedURLScript,
   .OldStyleChecksum,
   .UncompressedDatOffset,
   .IP,
   .Frame,
   .OriginalHost,
   .Image,
   .OriginalJumpPoint,
   .Link,
   .ArcDocumentLength,
   .Port,
   .OriginalPath,
   .Title,
   .UncompressedArcOffset,
   .URLOtherHref,
   .URLOtherSrc,
   .URLScript]

/-- The first eleven fields of `Record` are the default fields, the others are declared
under the comment `Optional fields`. -/
def Attribute.isOptional (a : Attribute) : Bool :=
  match a with
  | .MassagedURL => false
  | .Timestamp => false
  | .OriginalURL => false
  | .MIMEType => false
  | .StatusCode => false
  | .NewStyleChecksum => false
  | .Redirect => false
  | .MetaTags => false
  | .CompressedRecordSize => false
  | .CompressedArcOffset => false
  | .Filename => false
  | _ => true

/-- The field code whose case in the switch of `parseRecord` assigns the attribute;
`none` for an attribute that no case assigns. -/
def Attribute.code (a : Attribute) : Option Nat :=
  match a with
  | .MassagedURL => some 78 -- 'N'
  | .Timestamp => some 98 -- 'b'
  | .OriginalURL => some 97 -- 'a'
  | .MIMEType => some 109 -- 'm'
  | .StatusCode => some 115 -- 's'
  | .NewStyleChecksum => some 107 -- 'k'
  | .Redirect => some 114 -- 'r'
  | .MetaTags => some 77 -- 'M'
  | .CompressedRecordSize => some 83 -- 'S'
  | .CompressedArcOffset => some 86 -- 'V'
  | .Filename => some 103 -- 'g'
  | .IP => some 101 -- 'e'
  | .OriginalHost => some 104 -- 'h'
  | _ => none

/-- The attribute `a` of `r` holds the zero value of its type. -/
def Record.IsZeroAt (r : Record) (a : Attribute) : Prop :=
  match a with
  | .MassagedURL => r.MassagedURL = []
  | .Timestamp => r.Timestamp = Time.zero
  | .OriginalURL => r.OriginalURL = []
  | .MIMEType => r.MIMEType = []
  | .StatusCode => r.StatusCode = 0
  | .NewStyleChecksum => r.NewStyleChecksum = []
  | .Redirect => r.Redirect = []
  | .MetaTags => r.MetaTags = []
  | .CompressedRecordSize => r.CompressedRecordSize = 0
  | .CompressedArcOffset => r.CompressedArcOffset = 0
  | .Filename => r.Filename = []
  | .CanonizedURL => r.CanonizedURL = []
  | .NewsGroup => r.NewsGroup = []
  | .RulespaceCategory => r.RulespaceCategory = []
  | .CompressedDatOffset => r.CompressedDatOffset = 0
  | .CanonizedFrame => r.CanonizedFrame = []
  | .LanguageDescription => r.LanguageDescription = []
  | .CanonizedHost => r.CanonizedHost = []
  | .CanonizedImage => r.CanonizedImage = []
  | .CanonizedJumpPoint => r.CanonizedJumpPoint = []
  | .FBISChangedThing => r.FBISChangedThing = []
  | .CanonizedLink => r.CanonizedLink = []
  | .CanonizedPath => r.CanonizedPath = []
  | .LanguageString => r.LanguageString = []
  | .CanonizedRedirect => r.CanonizedRedirect = []
  | .Uniqueness => r.Uniqueness = []
  | .CanonizedURLOtherHref => r.CanonizedURLOtherHref = []
  | .CanonizedURLOtherSrc => r.CanonizedURLOtherSrc = []
  | .CanonizedURLScript => r.CanonizedURLScript = []
  | .OldStyleChecksum => r.OldStyleChecksum = []
  | .UncompressedDatOffset => r.UncompressedDatOffset = 0
  | .IP => r.IP = []
  | .Frame => r.Frame = []
  | .OriginalHost => r.OriginalHost = []
  | .Image => r.Image = []
  | .OriginalJumpPoint => r.OriginalJumpPoint = []
  | .Link => r.Link = []
  | .ArcDocumentLength => r.ArcDocumentLength = 0
  | .Port => r.Port = 0
  | .OriginalPath => r.OriginalPath = []
  | .Title => r.Title = []
  | .UncompressedArcOffset => r.UncompressedArcOffset = 0
  | .URLOtherHref => r.URLOtherHref = []
  | .URLOtherSrc => r.URLOtherSrc = []
  | .URLScript => r.URLScript = []

instance (r : Record) (a : Attribute) : Decidable (r.IsZeroAt a) := by
  cases a <;> (unfold Record.IsZeroAt; infer_instance)

/-- The value of one attribute of a `Record`: a string, a time or an integer. -/
inductive Value where
  | str (s : GoString)
  | time (t : Time)
  | int (n : Int)
  deriving DecidableEq, Repr

/-- The value of the attribute `a` of `r`. -/
def Record.get (r : Record) (a : Attribute) : Value :=
  match a with
  | .MassagedURL => .str r.MassagedURL
  | .Timestamp => .time r.Timestamp
  | .OriginalURL => .str r.OriginalURL
  | .MIMEType => .str r.MIMEType
  | .StatusCode => .int r.StatusCode
  | .NewStyleChecksum => .str r.NewStyleChecksum
  | .Redirect => .str r.Redirect
  | .MetaTags => .str r.MetaTags
  | .CompressedRecordSize => .int r.CompressedRecordSize
  | .CompressedArcOffset => .int r.CompressedArcOffset
  | .Filename => .str r.Filename
  | .CanonizedURL => .str r.CanonizedURL
  | .NewsGroup => .str r.NewsGroup
  | .RulespaceCategory => .str r.RulespaceCategory
  | .CompressedDatOffset => .int r.CompressedDatOffset
  | .CanonizedFrame => .str r.CanonizedFrame
  | .LanguageDescription => .str r.LanguageDescription
  | .CanonizedHost => .str r.CanonizedHost
  | .CanonizedImage => .str r.CanonizedImage
  | .CanonizedJumpPoint => .str r.CanonizedJumpPoint
  | .FBISChangedThing => .str r.FBISChangedThing
  | .CanonizedLink => .str r.CanonizedLink
  | .CanonizedPath => .str r.CanonizedPath
  | .LanguageString => .str r.LanguageString
  | .CanonizedRedirect => .str r.CanonizedRedirect
  | .Uniqueness => .str r.Uniqueness
  | .CanonizedURLOtherHref => .str r.CanonizedURLOtherHref
  | .CanonizedURLOtherSrc => .str r.CanonizedURLOtherSrc
  | .CanonizedURLScript => .str r.CanonizedURLScript
  | .OldStyleChecksum => .str r.OldStyleChecksum
  | .UncompressedDatOffset => .int r.UncompressedDatOffset
  | .IP => .str r.IP
  | .Frame => .str r.Frame
  | .OriginalHost => .str r.OriginalHost
  | .Image => .str r.Image
  | .OriginalJumpPoint => .str r.OriginalJumpPoint
  | .Link => .str r.Link
  | .ArcDocumentLength => .int r.ArcDocumentLength
  | .Port => .int r.Port
  | .OriginalPath => .str r.OriginalPath
  | .Title => .str r.Title
  | .UncompressedArcOffset => .int r.UncompressedArcOffset
  | .URLOtherHref => .str r.URLOtherHref
  | .URLOtherSrc => .str r.URLOtherSrc
  | .URLScript => .str r.URLScript

/-! ## parse.go -/

/-- The errors returned by `Parse`, `parseHeader` and `parseRecord`, one constructor for
each `errors.New` and `fmt.Errorf` of parse.go; a wrapped error (`%w`) is the argument. -/
inductive Error where
  /-- The error `"empty CDX file"`. -/
  | emptyFile
  /-- The error `"empty header line in CDX file"`. -/
  | emptyHeaderLine
  /-- The error `"invalid CDX header"`. -/
  | invalidHeader
  /-- The error `"invalid field specifier in header: %s"`. -/
  | invalidFieldSpecifier (field : GoString)
  /-- The error `"insufficient fields in CDX record"`. -/
  | insufficientFields
  /-- The error `"invalid timestamp: %w"`. -/
  | invalidTimestamp (err : ParseError)
  /-- The error `"invalid status code: %w"`. -/
  | invalidStatusCode (err : NumError)
  /-- The error `"invalid compressed record size: %w"`. -/
  | invalidCompressedRecordSize (err : NumError)
  /-- The error `"invalid compressed arc offset: %w"`. -/
  | invalidCompressedArcOffset (err : NumError)
  /-- The error `"error reading input: %w"`. -/
  | readingInput (err : GoString)
  /-- The error `"no records found in CDX file"`. -/
  | noRecords
  deriving DecidableEq, Repr

/-- The loop `for i, field := range fields[1:]` of `parseHeader`. -/
def parseHeaderLoop : List GoString → Nat → FieldIndex → Except Error FieldIndex
  | [], _, fi => .ok fi
  | field :: rest, i, fi =>
    if field.length ≠ 1 then .error (.invalidFieldSpecifier field)
    else parseHeaderLoop rest (i + 1) (fi.set (field.headD 0) i)

/-- The function `parseHeader`. -/
def parseHeader (header : GoString) : Except Error FieldIndex :=
  let fields := Fields header
  if fields.length < 2 ∨ fields.head? ≠ some (str "CDX") then .error .invalidHeader
  else parseHeaderLoop (fields.drop 1) 0 []

/-- The body of the switch of `parseRecord`: the effect of one `key` on `record`. -/
def assignField (key : Nat) (value : GoString) (record : Record) : Except Error Record :=
  if key = 78 then -- 'N'
    .ok { record with MassagedURL := value }
  else if key = 98 then -- 'b'
    match parseTime value with
    | .error err => .error (.invalidTimestamp err)
    | .ok t => .ok { record with Timestamp := t }
  else if key = 97 then -- 'a'
    .ok { record with OriginalURL := value }
  else if key = 109 then -- 'm'
    .ok { record with MIMEType := value }
  else if key = 115 then -- 's'
    match Atoi value with
    | .error err => .error (.invalidStatusCode err)
    | .ok n => .ok { record with StatusCode := n }
  else if key = 107 then -- 'k'
    .ok { record with NewStyleChecksum := value }
  else if key = 114 then -- 'r'
    .ok { record with Redirect := value }
  else if key = 77 then -- 'M'
    .ok { record with MetaTags := value }
  else if key = 83 then -- 'S'
    match ParseInt value with
    | .error err => .error (.invalidCompressedRecordSize err)
    | .ok n => .ok { record with CompressedRecordSize := n }
  else if key = 86 then -- 'V'
    match ParseInt value with
    | .error err => .error (.invalidCompressedArcOffset err)
    | .ok n => .ok { record with CompressedArcOffset := n }
  else if key = 103 then -- 'g'
    .ok { record with Filename := value }
  else if key = 101 then -- 'e'
    .ok { record with IP := value }
  else if key = 104 then -- 'h'
    .ok { record with OriginalHost := value }
  else .ok record

/-- The loop `for key, index := range fi` of `parseRecord`, over the entries of `fi` in
the order in which `range` visits them. -/
def parseRecordLoop (fields : List GoString) : List (Nat × Nat) → Record → Except Error Record
  | [], record => .ok record
  | (key, index) :: rest, record =>
    if index ≥ fields.length then parseRecordLoop fields rest record
    else
      match assignField key (fields.getD index []) record with
      | .error err => .error err
      | .ok record => parseRecordLoop fields rest record

/-- The function `parseRecord`; `order` is the order in which `range fi` visits the map. -/
def parseRecord (line : GoString) (fi : FieldIndex) (order : List (Nat × Nat)) :
    Except Error Record :=
  let fields := Fields line
  if fields.length < fi.len then .error .insufficientFields
  else parseRecordLoop fields order {}

/-- A `bufio.Scanner` over the input: the lines that successive calls of `Scan` yield
(`Text()`), and the value of `Err()` once `Scan` has returned false. -/
structure Scanner where
  lines : List GoString
  err : Option GoString
  deriving DecidableEq, Repr

/-- The loop `for scanner.Scan()` of `Parse`; `orders i` is the order in which the map
is visited while the `i`-th of the remaining lines is decoded. -/
def parseLines (fi : FieldIndex) :
    List GoString → (Nat → List (Nat × Nat)) → List Record → Except Error (List Record)
  | [], _, records => .ok records
  | line :: rest, orders, records =>
    match parseRecord line fi (orders 0) with
    | .error err => .error err
    | .ok record => parseLines fi rest (fun i => orders (i + 1)) (records ++ [record])

/-- The function `Parse`. The result `Except.error err` stands for `return nil, err`. -/
def Parse (scanner : Scanner) (orders : Nat → List (Nat × Nat)) :
    Except Error (List Record) :=
  match scanner.lines with
  | [] => .error .emptyFile
  | header :: rest =>
    if header = [] then .error .emptyHeaderLine
    else
      match parseHeader header with
      | .error err => .error err
      | .ok fieldIndex =>
        match parseLines fieldIndex rest orders [] with
        | .error err => .error err
        | .ok records =>
          match scanner.err with
          | some err => .error (.readingInput err)
          | none =>
            if records.length = 0 then .error .noRecords
            else .ok records


/-- The type coercion that the switch of `parseRecord` applies to the token of the column
`key`: the timestamp for `b`, the integer for `s`, `S` and `V`, and the token itself for
every other code; or the error that the case of `key` returns. -/
def coerce (key : Nat) (value : GoString) : Except Error Value :=
  if key = 98 then -- 'b'
    match parseTime value with
    | .error err => .error (.invalidTimestamp err)
    | .ok t => .ok (.time t)
  else if key = 115 then -- 's'
    match Atoi value with
    | .error err => .error (.invalidStatusCode err)
    | .ok n => .ok (.int n)
  else if key = 83 then -- 'S'
    match ParseInt value with
    | .error err => .error (.invalidCompressedRecordSize err)
    | .ok n => .ok (.int n)
  else if key = 86 then -- 'V'
    match ParseInt value with
    | .error err => .error (.invalidCompressedArcOffset err)
    | .ok n => .ok (.int n)
  else .ok (.str value)

/-! ## Decimal literals, as the specification words them -/

namespace Spec

/-- The value of a string of decimal digits. -/
def decimalValue (ds : GoString) : Nat :=
  ds.foldl (fun n c => n * 10 + (c - 48)) 0

/-- One or more ASCII decimal digits. -/
def IsDigits (ds : GoString) : Prop :=
  ds ≠ [] ∧ ∀ c ∈ ds, 48 ≤ c ∧ c ≤ 57

instance (ds : GoString) : Decidable (IsDigits ds) := by
  unfold IsDigits; infer_instance

/-- The token without its optional single sign `+` or `-`. -/
def unsignedPart (tok : GoString) : GoString :=
  match tok with
  | 43 :: rest => rest
  | 45 :: rest => rest
  | _ => tok

/-- The token starts with the sign `-`. -/
def isNegative (tok : GoString) : Bool :=
  match tok with
  | 45 :: _ => true
  | _ => false

/-- An optional single sign followed by one or more ASCII decimal digits. -/
def IsSignedDecimal (tok : GoString) : Prop := IsDigits (unsignedPart tok)

instance (tok : GoString) : Decidable (IsSignedDecimal tok) := by
  unfold IsSignedDecimal; infer_instance

/-- The integer that a signed decimal literal denotes. -/
def intValue (tok : GoString) : Int :=
  if isNegative tok then -(decimalValue (unsignedPart tok) : Int)
  else (decimalValue (unsignedPart tok) : Int)

/-- A signed decimal literal whose value is a 64-bit signed integer. -/
def IsInt64Literal (tok : GoString) : Prop :=
  IsSignedDecimal tok ∧ -(2 : Int) ^ 63 ≤ intValue tok ∧ intValue tok ≤ 2 ^ 63 - 1

instance (tok : GoString) : Decidable (IsInt64Literal tok) := by
  unfold IsInt64Literal; infer_instance

end Spec

/-! ## Compact timestamps, as the specification words them -/

namespace Spec

/-- Leap years of the Gregorian calendar. -/
def isLeapYear (y : Nat) : Bool :=
  y % 4 = 0 && (y % 100 ≠ 0 || y % 400 = 0)

/-- The number of days of month `m` of year `y`. -/
def daysInMonth (y m : Nat) : Nat :=
  if m = 2 then (if isLeapYear y then 29 else 28)
  else if m = 4 ∨ m = 6 ∨ m = 9 ∨ m = 11 then 30
  else 31

/-- The field `YYYY` of `YYYYMMDDhhmmss`. -/
def year (tok : GoString) : Nat := decimalValue (tok.take 4)

/-- The field `MM` of `YYYYMMDDhhmmss`. -/
def month (tok : GoString) : Nat := decimalValue ((tok.drop 4).take 2)

/-- The field `DD` of `YYYYMMDDhhmmss`. -/
def day (tok : GoString) : Nat := decimalValue ((tok.drop 6).take 2)

/-- The field `hh` of `YYYYMMDDhhmmss`. -/
def hour (tok : GoString) : Nat := decimalValue ((tok.drop 8).take 2)

/-- The field `mm` of `YYYYMMDDhhmmss`. -/
def minute (tok : GoString) : Nat := decimalValue ((tok.drop 10).take 2)

/-- The field `ss` of `YYYYMMDDhhmmss`. -/
def second (tok : GoString) : Nat := decimalValue ((tok.drop 12).take 2)

/-- Exactly 14 ASCII decimal digits `YYYYMMDDhhmmss` that denote a valid calendar date and
time of day. -/
def IsCompactTimestamp (tok : GoString) : Prop :=
  tok.length = 14 ∧ (∀ c ∈ tok, 48 ≤ c ∧ c ≤ 57) ∧
  1 ≤ month tok ∧ month tok ≤ 12 ∧
  1 ≤ day tok ∧ day tok ≤ daysInMonth (year tok) (month tok) ∧
  hour tok ≤ 23 ∧ minute tok ≤ 59 ∧ second tok ≤ 59

instance (tok : GoString) : Decidable (IsCompactTimestamp tok) := by
  unfold IsCompactTimestamp; infer_instance

/-- The instant in UTC that a compact timestamp denotes, with a zero sub-second part. -/
def instant (tok : GoString) : Time :=
  ⟨year tok, month tok, day tok, hour tok, minute tok, second tok, 0⟩

/-- A fractional-second suffix: a period or a comma followed by one or more digits. -/
def IsFraction (suffix : GoString) : Prop :=
  match suffix with
  | [] => False
  | sep :: ds => (sep = 46 ∨ sep = 44) ∧ IsDigits ds

instance (suffix : GoString) : Decidable (IsFraction suffix) := by
  unfold IsFraction; split <;> infer_instance

/-- The nanoseconds that the digits of a fraction denote: the first nine digits, padded
with zeros on the right. -/
def nanos (ds : GoString) : Nat :=
  decimalValue (ds.take 9) * 10 ^ (9 - (ds.take 9).length)

end Spec

/-! ## Lines and their tokens, as the specification words them -/

namespace Spec

/-- A run of spaces and tabs. -/
def IsBlankRun (ws : GoString) : Prop := ∀ b ∈ ws, b = 32 ∨ b = 9

instance (ws : GoString) : Decidable (IsBlankRun ws) := by
  unfold IsBlankRun; infer_instance

/-- A non-empty token without whitespace: none of its runes is a space. -/
def IsToken (t : GoString) : Prop := t ≠ [] ∧ ∀ r ∈ runes t, IsSpace r = false

instance (t : GoString) : Decidable (IsToken t) := by
  unfold IsToken; infer_instance

/-- An empty or whitespace-only line: every rune is a space. -/
def IsBlankLine (line : GoString) : Prop := ∀ r ∈ runes line, IsSpace r = true

instance (line : GoString) : Decidable (IsBlankLine line) := by
  unfold IsBlankLine; infer_instance

/-- The line made of the given tokens, each followed by its run of whitespace. -/
def joinTokens : List (GoString × GoString) → GoString
  | [] => []
  | (t, ws) :: rest => t ++ ws ++ joinTokens rest

/-- The line made of the given tokens joined with single spaces. -/
def joinSpaces : List GoString → GoString
  | [] => []
  | [t] => t
  | t :: rest => t ++ 32 :: joinSpaces rest

end Spec
/-! ## Lemmas on maps -/

theorem FieldIndex.get?_set (fi : FieldIndex) (key v k : Nat) :
    (fi.set key v).get? k = if key = k then some v else fi.get? k := by
  induction fi with
  | nil => simp [FieldIndex.set, FieldIndex.get?]
  | cons p rest ih =>
    obtain ⟨a, b⟩ := p
    by_cases h : a = key
    · subst h
      by_cases hk : a = k <;> simp [FieldIndex.set, FieldIndex.get?, hk]
    · by_cases hk : a = k
      · subst hk
        simp [FieldIndex.set, FieldIndex.get?, h, Ne.symm h]
      · simp [FieldIndex.set, FieldIndex.get?, h, hk, ih]

theorem FieldIndex.keys_set (fi : FieldIndex) (key v : Nat) :
    (fi.set key v).map Prod.fst = if key ∈ fi.map Prod.fst then fi.map Prod.fst
      else fi.map Prod.fst ++ [key] := by
  induction fi with
  | nil => simp [FieldIndex.set]
  | cons p rest ih =>
    obtain ⟨a, b⟩ := p
    by_cases h : a = key
    · subst h
      simp [FieldIndex.set]
    · have h2 : ¬ key = a := fun e => h e.symm
      simp only [FieldIndex.set, h, if_false, List.map_cons, ih, List.mem_cons, h2, false_or]
      split <;> simp

theorem FieldIndex.valid_set (fi : FieldIndex) (key v : Nat) (h : fi.Valid) :
    (fi.set key v).Valid := by
  unfold FieldIndex.Valid at *
  rw [FieldIndex.keys_set]
  split
  · exact h
  · rename_i hk
    rw [List.nodup_append]
    refine ⟨h, List.nodup_singleton _, ?_⟩
    intro a ha hb
    simp at hb
    subst hb
    exact hk ha

theorem FieldIndex.get?_isSome (fi : FieldIndex) (k : Nat) :
    (fi.get? k).isSome ↔ k ∈ fi.map Prod.fst := by
  induction fi with
  | nil => simp [FieldIndex.get?]
  | cons p rest ih =>
    obtain ⟨a, b⟩ := p
    by_cases h : a = k
    · simp [FieldIndex.get?, h]
    · have h2 : ¬ k = a := fun e => h e.symm
      simp [FieldIndex.get?, h, h2, ih]

theorem FieldIndex.get?_eq_some (fi : FieldIndex) (h : fi.Valid) (k v : Nat) :
    fi.get? k = some v ↔ (k, v) ∈ fi := by
  induction fi with
  | nil => simp [FieldIndex.get?]
  | cons p rest ih =>
    obtain ⟨a, b⟩ := p
    unfold FieldIndex.Valid at h
    simp only [List.map_cons, List.nodup_cons] at h
    by_cases hk : a = k
    · subst hk
      simp only [FieldIndex.get?, if_true, Option.some.injEq, List.mem_cons, Prod.mk.injEq,
        true_and]
      constructor
      · intro e; exact Or.inl e.symm
      · rintro (e | e)
        · exact e.symm
        · exact absurd (List.mem_map_of_mem Prod.fst e) h.1
    · have h2 : ¬ k = a := fun e => hk e.symm
      simp [FieldIndex.get?, hk, h2, ih h.2]

/-! ## parseHeader -/

theorem parseHeaderLoop_ok_iff (toks : List GoString) (i : Nat) (fi0 : FieldIndex) :
    (∃ fi, parseHeaderLoop toks i fi0 = .ok fi) ↔ ∀ t ∈ toks, t.length = 1 := by
  induction toks generalizing i fi0 with
  | nil => simp [parseHeaderLoop]
  | cons t rest ih =>
    by_cases h : t.length = 1
    · simp [parseHeaderLoop, h, ih]
    · simp [parseHeaderLoop, h]

theorem parseHeaderLoop_valid (toks : List GoString) (i : Nat) (fi0 fi : FieldIndex)
    (hv : fi0.Valid) (h : parseHeaderLoop toks i fi0 = .ok fi) : fi.Valid := by
  induction toks generalizing i fi0 with
  | nil => simp [parseHeaderLoop] at h; subst h; exact hv
  | cons t rest ih =>
    by_cases ht : t.length = 1
    · simp only [parseHeaderLoop, ht, ne_eq, not_true_eq_false, if_false] at h
      exact ih _ _ (FieldIndex.valid_set _ _ _ hv) h
    · simp [parseHeaderLoop, ht] at h

/-- The entry of `k` after the loop: the position of the last token `[k]`, or the entry
before the loop when no token is `[k]`. -/
theorem parseHeaderLoop_get? (toks : List GoString) (i : Nat) (fi0 fi : FieldIndex)
    (h : parseHeaderLoop toks i fi0 = .ok fi) (k v : Nat) :
    fi.get? k = some v ↔
      (∃ j, toks.get? j = some [k] ∧ v = i + j ∧ ∀ j2, j < j2 → toks.get? j2 ≠ some [k])
      ∨ ([k] ∉ toks ∧ fi0.get? k = some v) := by
  induction toks generalizing i fi0 with
  | nil => simp [parseHeaderLoop] at h; subst h; simp
  | cons t rest ih =>
    by_cases ht : t.length = 1
    · simp only [parseHeaderLoop, ht, ne_eq, not_true_eq_false, if_false] at h
      obtain ⟨c, rfl⟩ := List.length_eq_one.mp ht
      rw [ih _ _ h, FieldIndex.get?_set]
      simp only [List.headD_cons]
      constructor
      · rintro (⟨j, hj, rfl, hlast⟩ | ⟨hn, hg⟩)
        · refine Or.inl ⟨j + 1, by simpa using hj, by omega, ?_⟩
          intro j2 hj2
          obtain ⟨j3, rfl⟩ : ∃ j3, j2 = j3 + 1 := ⟨j2 - 1, by omega⟩
          simpa using hlast j3 (by omega)
        · by_cases hck : c = k
          · subst hck
            simp only [if_true, Option.some.injEq] at hg
            refine Or.inl ⟨0, by simp, by omega, ?_⟩
            intro j2 hj2 hj2e
            obtain ⟨j3, rfl⟩ : ∃ j3, j2 = j3 + 1 := ⟨j2 - 1, by omega⟩
            simp only [List.get?_cons_succ] at hj2e
            exact hn (List.get?_mem hj2e)
          · simp only [hck, if_false] at hg
            refine Or.inr ⟨?_, hg⟩
            simp only [List.mem_cons, List.cons.injEq, and_true, not_or]
            exact ⟨fun e => hck e.symm, hn⟩
      · rintro (⟨j, hj, rfl, hlast⟩ | ⟨hn, hg⟩)
        · cases j with
          | zero =>
            simp only [List.get?_cons_zero, Option.some.injEq, List.cons.injEq, and_true] at hj
            subst hj
            refine Or.inr ⟨?_, by simp⟩
            intro hmem
            obtain ⟨n, hn⟩ := List.get?_of_mem hmem
            exact hlast (n + 1) (by omega) (by simpa using hn)
          | succ j =>
            refine Or.inl ⟨j, by simpa using hj, by omega, ?_⟩
            intro j2 hj2
            simpa using hlast (j2 + 1) (by omega)
        · simp only [List.mem_cons, List.cons.injEq, and_true, not_or] at hn
          have : ¬ c = k := fun e => hn.1 e.symm
          exact Or.inr ⟨hn.2, by simp [this, hg]⟩
    · simp [parseHeaderLoop, ht] at h

theorem parseHeader_ok (header : GoString) (fi : FieldIndex)
    (h : parseHeader header = .ok fi) :
    2 ≤ (Fields header).length ∧ (Fields header).head? = some (str "CDX") ∧
      parseHeaderLoop ((Fields header).drop 1) 0 [] = .ok fi := by
  unfold parseHeader at h
  simp only at h
  split at h
  · simp at h
  · rename_i hc
    simp only [not_or, not_lt, ne_eq, not_not] at hc
    exact ⟨hc.1, hc.2, h⟩


/-- The FieldIndex of an accepted header: distinct keys, the codes of the header, each at
the position of its last occurrence. -/
theorem parseHeader_spec (header : GoString) (fi : FieldIndex)
    (h : parseHeader header = .ok fi) :
    fi.Valid ∧
    (∀ k, k ∈ fi.map Prod.fst ↔ [k] ∈ (Fields header).drop 1) ∧
    (∀ k i, fi.get? k = some i ↔
      (((Fields header).drop 1).get? i = some [k] ∧
        ∀ j, i < j → ((Fields header).drop 1).get? j ≠ some [k])) := by
  obtain ⟨_, _, hl⟩ := parseHeader_ok header fi h
  have hget := parseHeaderLoop_get? _ _ _ _ hl
  have key : ∀ k i, fi.get? k = some i ↔
      (((Fields header).drop 1).get? i = some [k] ∧
        ∀ j, i < j → ((Fields header).drop 1).get? j ≠ some [k]) := by
    intro k i
    rw [hget]
    constructor
    · rintro (⟨j, hj, rfl, hlast⟩ | ⟨_, hg⟩)
      · rw [Nat.zero_add]; exact ⟨hj, hlast⟩
      · simp [FieldIndex.get?] at hg
    · rintro ⟨hi, hlast⟩
      exact Or.inl ⟨i, hi, by omega, hlast⟩
  refine ⟨parseHeaderLoop_valid _ _ _ _ (by simp [FieldIndex.Valid]) hl, ?_, key⟩
  intro k
  rw [← FieldIndex.get?_isSome, Option.isSome_iff_exists]
  constructor
  · rintro ⟨i, hi⟩
    exact List.get?_mem ((key k i).mp hi).1
  · intro hmem
    by_contra hne
    have hnone : ∀ v, fi.get? k ≠ some v := fun v hv => hne ⟨v, hv⟩
    have := hget k
    -- some occurrence is the last one
    have hex : ∃ j, ((Fields header).drop 1).get? j = some [k] := List.get?_of_mem hmem
    have hfin : ∀ j, ((Fields header).drop 1).get? j = some [k] →
        j < ((Fields header).drop 1).length := by
      intro j hj
      by_contra hlt
      rw [List.get?_eq_none.mpr (by omega)] at hj
      exact absurd hj (by simp)
    have hdec : ∀ n j, ((Fields header).drop 1).get? j = some [k] →
        ((Fields header).drop 1).length ≤ j + n → False := by
      intro n
      induction n with
      | zero => intro j hj hle; have := hfin j hj; omega
      | succ n ih =>
        intro j hj hle
        by_cases hl2 : ∃ j2, j < j2 ∧ ((Fields header).drop 1).get? j2 = some [k]
        · obtain ⟨j2, hlt, hj2⟩ := hl2
          exact ih j2 hj2 (by omega)
        · refine hnone (0 + j) ((this (0 + j)).mpr (Or.inl ⟨j, hj, rfl, ?_⟩))
          intro j2 hlt hj2
          exact hl2 ⟨j2, hlt, hj2⟩
    obtain ⟨j, hj⟩ := hex
    exact hdec _ j hj (Nat.le_add_left _ _)

/-- C2: when `parseHeader` accepts a header, the keys of the returned FieldIndex are
pairwise distinct and are exactly the codes among the tokens after the `CDX` marker, and
each code is mapped to the zero-based position, among those tokens, of its last
occurrence. -/
theorem parseHeader_index (header : GoString) (fi : FieldIndex)
    (h : parseHeader header = .ok fi) :
    fi.Valid ∧
    (∀ k, k ∈ fi.map Prod.fst ↔ [k] ∈ (Fields header).drop 1) ∧
    (∀ k i, fi.get? k = some i ↔
      (((Fields header).drop 1).get? i = some [k] ∧
        ∀ j, i < j → ((Fields header).drop 1).get? j ≠ some [k])) :=
  parseHeader_spec header fi h

/-- Witness of C2 at the header `CDX N b N`, where the code `N` occurs twice. -/
theorem parseHeader_index_witness :
    (FieldIndex.Valid [(78, 2), (98, 1)]) ∧
    (∀ k, k ∈ ([(78, 2), (98, 1)] : FieldIndex).map Prod.fst ↔
      [k] ∈ (Fields (str "CDX N b N")).drop 1) ∧
    (∀ k i, FieldIndex.get? [(78, 2), (98, 1)] k = some i ↔
      (((Fields (str "CDX N b N")).drop 1).get? i = some [k] ∧
        ∀ j, i < j → ((Fields (str "CDX N b N")).drop 1).get? j ≠ some [k])) :=
  parseHeader_index (str "CDX N b N") [(78, 2), (98, 1)] (by decide)

/-- C3: `parseHeader` fails exactly when the line has fewer than two whitespace-separated
tokens, or its first token is not `CDX`, or some token after the first is not exactly one
byte long (`len(field) != 1`); in every other case it returns a FieldIndex. -/
theorem parseHeader_fails_iff (header : GoString) :
    ((∃ e, parseHeader header = .error e) ↔
      ((Fields header).length < 2 ∨ (Fields header).head? ≠ some (str "CDX") ∨
        ∃ t ∈ (Fields header).drop 1, t.length ≠ 1)) ∧
    ((∃ fi, parseHeader header = .ok fi) ↔
      ¬ ((Fields header).length < 2 ∨ (Fields header).head? ≠ some (str "CDX") ∨
        ∃ t ∈ (Fields header).drop 1, t.length ≠ 1)) := by
  have hok : (∃ fi, parseHeader header = .ok fi) ↔
      ¬ ((Fields header).length < 2 ∨ (Fields header).head? ≠ some (str "CDX") ∨
        ∃ t ∈ (Fields header).drop 1, t.length ≠ 1) := by
    constructor
    · rintro ⟨fi, h⟩
      obtain ⟨h1, h2, h3⟩ := parseHeader_ok header fi h
      have h4 := (parseHeaderLoop_ok_iff _ _ _).mp ⟨fi, h3⟩
      rintro (h5 | h5 | ⟨t, ht, h5⟩)
      · omega
      · exact h5 h2
      · exact h5 (h4 t ht)
    · intro hn
      simp only [not_or, not_lt, ne_eq, not_not, not_exists, not_and] at hn
      obtain ⟨h1, h2, h3⟩ := hn
      obtain ⟨fi, hfi⟩ := (parseHeaderLoop_ok_iff ((Fields header).drop 1) 0 []).mpr h3
      refine ⟨fi, ?_⟩
      unfold parseHeader
      simp only
      rw [if_neg]
      · exact hfi
      · simp only [not_or, not_lt, ne_eq, not_not]
        exact ⟨h1, h2⟩
  refine ⟨?_, hok⟩
  rw [← not_iff_not, ← hok]
  cases hp : parseHeader header with
  | error e => simp
  | ok fi => simp

/-! ## parseRecord -/

theorem assignField_other (key : Nat) (value : GoString) (r : Record)
    (h : ∀ a : Attribute, a.code ≠ some key) :
    assignField key value r = .ok r := by
  have h1 := h .MassagedURL
  have h2 := h .Timestamp
  have h3 := h .OriginalURL
  have h4 := h .MIMEType
  have h5 := h .StatusCode
  have h6 := h .NewStyleChecksum
  have h7 := h .Redirect
  have h8 := h .MetaTags
  have h9 := h .CompressedRecordSize
  have h10 := h .CompressedArcOffset
  have h11 := h .Filename
  have h12 := h .IP
  have h13 := h .OriginalHost
  simp only [Attribute.code, ne_eq, Option.some.injEq] at h1 h2 h3 h4 h5 h6 h7 h8 h9 h10 h11 h12 h13
  simp only [assignField, Ne.symm h1, Ne.symm h2, Ne.symm h3, Ne.symm h4, Ne.symm h5, Ne.symm h6,
    Ne.symm h7, Ne.symm h8, Ne.symm h9, Ne.symm h10, Ne.symm h11, Ne.symm h12, Ne.symm h13,
    if_false]

theorem coerce_other (key : Nat) (value : GoString)
    (h : ∀ a : Attribute, a.code ≠ some key) :
    coerce key value = .ok (.str value) := by
  have h2 := h .Timestamp
  have h5 := h .StatusCode
  have h9 := h .CompressedRecordSize
  have h10 := h .CompressedArcOffset
  simp only [Attribute.code, ne_eq, Option.some.injEq] at h2 h5 h9 h10
  simp only [coerce, Ne.symm h2, Ne.symm h5, Ne.symm h9, Ne.symm h10, if_false]

theorem assignField_error_iff (key : Nat) (value : GoString) (r : Record) (e : Error) :
    assignField key value r = .error e ↔ coerce key value = .error e := by
  by_cases hk : ∃ b : Attribute, b.code = some key
  · obtain ⟨b, hb⟩ := hk
    cases b <;> simp only [Attribute.code, Option.some.injEq, reduceCtorEq] at hb <;> subst hb <;>
      simp only [assignField, coerce, Nat.reduceEqDiff, if_true, if_false, reduceCtorEq] <;>
      split <;> simp only [reduceCtorEq, Except.error.injEq]
  · have hk2 : ∀ a : Attribute, a.code ≠ some key := fun a ha => hk ⟨a, ha⟩
    rw [assignField_other key value r hk2, coerce_other key value hk2]
    simp only [reduceCtorEq]

theorem assignField_frame (key : Nat) (value : GoString) (r r2 : Record) (a : Attribute)
    (h : assignField key value r = .ok r2) (ha : a.code ≠ some key) :
    r2.get a = r.get a := by
  by_cases hk : ∃ b : Attribute, b.code = some key
  · obtain ⟨b, hb⟩ := hk
    cases b <;> simp only [Attribute.code, Option.some.injEq, reduceCtorEq] at hb <;> subst hb <;>
      simp only [assignField, Nat.reduceEqDiff, if_true, if_false] at h <;>
      first
        | (simp only [Except.ok.injEq] at h; subst h
           cases a <;> first | rfl | exact absurd rfl ha)
        | (split at h
           · exact absurd h (by simp only [reduceCtorEq, not_false_eq_true])
           · simp only [Except.ok.injEq] at h; subst h
             cases a <;> first | rfl | exact absurd rfl ha)
  · have hk2 : ∀ a : Attribute, a.code ≠ some key := fun a ha => hk ⟨a, ha⟩
    rw [assignField_other key value r hk2] at h
    simp only [Except.ok.injEq] at h
    rw [h]

theorem assignField_value (key : Nat) (value : GoString) (r r2 : Record) (a : Attribute)
    (h : assignField key value r = .ok r2) (ha : a.code = some key) :
    coerce key value = .ok (r2.get a) := by
  cases a <;> simp only [Attribute.code, Option.some.injEq, reduceCtorEq] at ha <;> subst ha <;>
    simp only [assignField, coerce, Nat.reduceEqDiff, if_true, if_false] at h ⊢ <;>
    first
      | (simp only [Except.ok.injEq] at h; subst h; rfl)
      | (split at h
         · exact absurd h (by simp only [reduceCtorEq, not_false_eq_true])
         · simp only [Except.ok.injEq] at h; subst h; rfl)

theorem assignField_ok_iff (key : Nat) (value : GoString) (r : Record) :
    (∃ r2, assignField key value r = .ok r2) ↔ ∃ v, coerce key value = .ok v := by
  cases h : assignField key value r with
  | error e =>
    have := (assignField_error_iff key value r e).mp h
    simp [this]
  | ok r2 =>
    cases hc : coerce key value with
    | error e =>
      have := (assignField_error_iff key value r e).mpr hc
      rw [h] at this
      exact absurd this (by simp)
    | ok v => simp

/-- The loop succeeds exactly when every visited entry whose column lies within the line
has a token that its case accepts. -/
theorem parseRecordLoop_ok_iff (fields : List GoString) (order : List (Nat × Nat))
    (r0 : Record) :
    (∃ r, parseRecordLoop fields order r0 = .ok r) ↔
      ∀ p ∈ order, p.2 < fields.length → ∃ v, coerce p.1 (fields.getD p.2 []) = .ok v := by
  induction order generalizing r0 with
  | nil => simp [parseRecordLoop]
  | cons p rest ih =>
    obtain ⟨k, i⟩ := p
    by_cases hi : i ≥ fields.length
    · simp only [parseRecordLoop, hi, if_true, ih, List.mem_cons, forall_eq_or_imp]
      constructor
      · intro h; exact ⟨fun hlt => absurd hlt (by omega), h⟩
      · intro h; exact h.2
    · simp only [parseRecordLoop, hi, if_false, List.mem_cons, forall_eq_or_imp]
      cases ha : assignField k (fields.getD i []) r0 with
      | error e =>
        have hc := (assignField_error_iff _ _ _ _).mp ha
        simp only [reduceCtorEq, exists_false, false_iff, not_and]
        intro h
        obtain ⟨v, hv⟩ := h (by omega)
        rw [hc] at hv
        exact absurd hv (by simp)
      | ok r1 =>
        have hc := (assignField_ok_iff k (fields.getD i []) r0).mp ⟨r1, ha⟩
        simp only [ih]
        constructor
        · intro h; exact ⟨fun _ => hc, h⟩
        · intro h; exact h.2

/-- An error of the loop is the error of the case of some visited entry whose column lies
within the line. -/
theorem parseRecordLoop_error (fields : List GoString) (order : List (Nat × Nat))
    (r0 : Record) (e : Error) (h : parseRecordLoop fields order r0 = .error e) :
    ∃ p ∈ order, p.2 < fields.length ∧ coerce p.1 (fields.getD p.2 []) = .error e := by
  induction order generalizing r0 with
  | nil => simp [parseRecordLoop] at h
  | cons p rest ih =>
    obtain ⟨k, i⟩ := p
    by_cases hi : i ≥ fields.length
    · simp only [parseRecordLoop, hi, if_true] at h
      obtain ⟨p, hp, h2⟩ := ih r0 h
      exact ⟨p, List.mem_cons_of_mem _ hp, h2⟩
    · simp only [parseRecordLoop, hi, if_false] at h
      cases ha : assignField k (fields.getD i []) r0 with
      | error e2 =>
        rw [ha] at h
        simp only [Except.error.injEq] at h
        subst h
        exact ⟨(k, i), List.mem_cons_self _ _, by simp only; omega,
          (assignField_error_iff _ _ _ _).mp ha⟩
      | ok r1 =>
        rw [ha] at h
        obtain ⟨p, hp, h2⟩ := ih r1 h
        exact ⟨p, List.mem_cons_of_mem _ hp, h2⟩

/-- The loop leaves alone every attribute whose code is not among the visited keys with
a column within the line. -/
theorem parseRecordLoop_frame (fields : List GoString) (order : List (Nat × Nat))
    (r0 r : Record) (a : Attribute) (h : parseRecordLoop fields order r0 = .ok r)
    (ha : ∀ p ∈ order, p.2 < fields.length → a.code ≠ some p.1) :
    r.get a = r0.get a := by
  induction order generalizing r0 with
  | nil => simp only [parseRecordLoop, Except.ok.injEq] at h; rw [h]
  | cons p rest ih =>
    obtain ⟨k, i⟩ := p
    have harest : ∀ p ∈ rest, p.2 < fields.length → a.code ≠ some p.1 :=
      fun p hp => ha p (List.mem_cons_of_mem _ hp)
    by_cases hi : i ≥ fields.length
    · simp only [parseRecordLoop, hi, if_true] at h
      exact ih r0 h harest
    · simp only [parseRecordLoop, hi, if_false] at h
      cases hx : assignField k (fields.getD i []) r0 with
      | error e2 => rw [hx] at h; exact absurd h (by simp)
      | ok r1 =>
        rw [hx] at h
        rw [ih r1 h harest]
        exact assignField_frame _ _ _ _ _ hx
          (ha (k, i) (List.mem_cons_self _ _) (by simp only; omega))

/-- After the loop the attribute of a visited key with a column within the line holds the
coerced token of that column, provided no other visited entry has the same key. -/
theorem parseRecordLoop_value (fields : List GoString) (order : List (Nat × Nat))
    (r0 r : Record) (a : Attribute) (k i : Nat)
    (h : parseRecordLoop fields order r0 = .ok r)
    (hnd : (order.map Prod.fst).Nodup) (hmem : (k, i) ∈ order) (hi : i < fields.length)
    (ha : a.code = some k) :
    coerce k (fields.getD i []) = .ok (r.get a) := by
  induction order generalizing r0 with
  | nil => simp at hmem
  | cons p rest ih =>
    obtain ⟨k2, i2⟩ := p
    simp only [List.map_cons, List.nodup_cons] at hnd
    simp only [List.mem_cons, Prod.mk.injEq] at hmem
    rcases hmem with ⟨rfl, rfl⟩ | hmem
    · have hi2 : ¬ i ≥ fields.length := by omega
      simp only [parseRecordLoop, hi2, if_false] at h
      cases hx : assignField k (fields.getD i []) r0 with
      | error e2 => rw [hx] at h; exact absurd h (by simp)
      | ok r1 =>
        rw [hx] at h
        have hfr := parseRecordLoop_frame fields rest r1 r a h (by
          intro p hp _ hc
          rw [ha] at hc
          simp only [Option.some.injEq] at hc
          exact hnd.1 (hc ▸ List.mem_map_of_mem Prod.fst hp))
        rw [hfr]
        exact assignField_value _ _ _ _ _ hx ha
    · by_cases hi2 : i2 ≥ fields.length
      · simp only [parseRecordLoop, hi2, if_true] at h
        exact ih r0 h hnd.2 hmem
      · simp only [parseRecordLoop, hi2, if_false] at h
        cases hx : assignField k2 (fields.getD i2 []) r0 with
        | error e2 => rw [hx] at h; exact absurd h (by simp)
        | ok r1 =>
          rw [hx] at h
          exact ih r1 h hnd.2 hmem

theorem parseRecord_eq (line : GoString) (fi : FieldIndex) (order : List (Nat × Nat)) :
    parseRecord line fi order =
      if (Fields line).length < fi.length then .error .insufficientFields
      else parseRecordLoop (Fields line) order {} := rfl

theorem coerce_ne_insufficient (key : Nat) (value : GoString) :
    coerce key value ≠ .error .insufficientFields := by
  unfold coerce
  repeat' split
  all_goals simp only [ne_eq, reduceCtorEq, not_false_eq_true, Except.error.injEq]

theorem IsRange_mem (fi : FieldIndex) (order : List (Nat × Nat)) (hv : fi.Valid)
    (ho : fi.IsRange order) (k i : Nat) : (k, i) ∈ order ↔ fi.get? k = some i := by
  rw [FieldIndex.get?_eq_some fi hv]
  exact ho.mem_iff

theorem IsRange_nodup (fi : FieldIndex) (order : List (Nat × Nat)) (hv : fi.Valid)
    (ho : fi.IsRange order) : (order.map Prod.fst).Nodup :=
  (List.Perm.nodup_iff (ho.map Prod.fst)).mpr hv

theorem parseHeaderLoop_length (toks : List GoString) (i : Nat) (fi0 fi : FieldIndex)
    (h : parseHeaderLoop toks i fi0 = .ok fi) (hnd : toks.Nodup)
    (hnew : ∀ c, [c] ∈ toks → c ∉ fi0.map Prod.fst) :
    fi.length = fi0.length + toks.length := by
  induction toks generalizing i fi0 with
  | nil => simp only [parseHeaderLoop, Except.ok.injEq] at h; subst h; simp
  | cons t rest ih =>
    by_cases ht : t.length = 1
    · simp only [parseHeaderLoop, ht, ne_eq, not_true_eq_false, if_false] at h
      obtain ⟨c, rfl⟩ := List.length_eq_one.mp ht
      simp only [List.headD_cons] at h
      simp only [List.nodup_cons] at hnd
      have hc : c ∉ fi0.map Prod.fst := hnew c (List.mem_cons_self _ _)
      have hkeys := FieldIndex.keys_set fi0 c i
      rw [if_neg hc] at hkeys
      have hlen : (fi0.set c i).length = fi0.length + 1 := by
        have := congrArg List.length hkeys
        simpa using this
      rw [ih (i + 1) (fi0.set c i) h hnd.2 ?_, hlen]
      · simp only [List.length_cons]; omega
      · intro c2 hc2
        rw [hkeys]
        simp only [List.mem_append, List.mem_singleton, not_or]
        refine ⟨hnew c2 (List.mem_cons_of_mem _ hc2), ?_⟩
        rintro rfl
        exact hnd.1 hc2
    · simp [parseHeaderLoop, ht] at h

/-- For a header with pairwise distinct codes the FieldIndex has one entry for each code
token, at the position of that token. -/
theorem parseHeader_nodup (header : GoString) (fi : FieldIndex)
    (h : parseHeader header = .ok fi) (hd : ((Fields header).drop 1).Nodup) :
    fi.length = ((Fields header).drop 1).length ∧
    ∀ k i, fi.get? k = some i ↔ ((Fields header).drop 1).get? i = some [k] := by
  obtain ⟨_, _, hl⟩ := parseHeader_ok header fi h
  refine ⟨by simpa using parseHeaderLoop_length _ _ _ _ hl hd (by simp), ?_⟩
  intro k i
  rw [(parseHeader_spec header fi h).2.2 k i]
  constructor
  · exact fun h => h.1
  · intro hi
    refine ⟨hi, ?_⟩
    intro j hij hj
    have h1 := List.get?_eq_some.mp hi
    have h2 := List.get?_eq_some.mp hj
    obtain ⟨hi1, hi2⟩ := h1
    obtain ⟨hj1, hj2⟩ := h2
    have := (List.Nodup.get_inj_iff hd (i := ⟨i, hi1⟩) (j := ⟨j, hj1⟩)).mp (by rw [hi2, hj2])
    simp only [Fin.mk.injEq] at this
    omega

/-- C1: for a header that `parseHeader` accepts and whose codes are pairwise distinct, and
a data line with at least as many tokens as the header has codes whose tokens in the
columns `b`, `s`, `S`, `V` (when declared) parse, `parseRecord` succeeds for every order
in which the map is visited, and each of the 13 recognized attributes whose code is
declared comes from the token at the header position of that code: a string attribute is
the token itself (so the placeholder `-` is stored as `-`), the timestamp and the integer
attributes are the parsed value of the token. -/
theorem parseRecord_decodes (header line : GoString) (fi : FieldIndex)
    (order : List (Nat × Nat))
    (hh : parseHeader header = .ok fi)
    (hd : ((Fields header).drop 1).Nodup)
    (hn : ((Fields header).drop 1).length ≤ (Fields line).length)
    (hb : ∀ i tok, ((Fields header).drop 1).get? i = some [98] →
      (Fields line).get? i = some tok → ∃ t, parseTime tok = .ok t)
    (hs : ∀ i tok, ((Fields header).drop 1).get? i = some [115] →
      (Fields line).get? i = some tok → ∃ n, Atoi tok = .ok n)
    (hS : ∀ i tok, ((Fields header).drop 1).get? i = some [83] →
      (Fields line).get? i = some tok → ∃ n, ParseInt tok = .ok n)
    (hV : ∀ i tok, ((Fields header).drop 1).get? i = some [86] →
      (Fields line).get? i = some tok → ∃ n, ParseInt tok = .ok n)
    (ho : fi.IsRange order) :
    ∃ rec, parseRecord line fi order = .ok rec ∧
      ∀ i, ∃ tok, (((Fields header).drop 1).get? i ≠ none → (Fields line).get? i = some tok) ∧
        (((Fields header).drop 1).get? i = some [78] → rec.MassagedURL = tok) ∧
        (((Fields header).drop 1).get? i = some [98] → parseTime tok = .ok rec.Timestamp) ∧
        (((Fields header).drop 1).get? i = some [97] → rec.OriginalURL = tok) ∧
        (((Fields header).drop 1).get? i = some [109] → rec.MIMEType = tok) ∧
        (((Fields header).drop 1).get? i = some [115] → Atoi tok = .ok rec.StatusCode) ∧
        (((Fields header).drop 1).get? i = some [107] → rec.NewStyleChecksum = tok) ∧
        (((Fields header).drop 1).get? i = some [114] → rec.Redirect = tok) ∧
        (((Fields header).drop 1).get? i = some [77] → rec.MetaTags = tok) ∧
        (((Fields header).drop 1).get? i = some [83] →
          ParseInt tok = .ok rec.CompressedRecordSize) ∧
        (((Fields header).drop 1).get? i = some [86] →
          ParseInt tok = .ok rec.CompressedArcOffset) ∧
        (((Fields header).drop 1).get? i = some [103] → rec.Filename = tok) ∧
        (((Fields header).drop 1).get? i = some [101] → rec.IP = tok) ∧
        (((Fields header).drop 1).get? i = some [104] → rec.OriginalHost = tok) := by
  have hv : fi.Valid := (parseHeader_spec header fi hh).1
  obtain ⟨hlen, hget⟩ := parseHeader_nodup header fi hh hd
  have hmem : ∀ k i, (k, i) ∈ order ↔ ((Fields header).drop 1).get? i = some [k] := by
    intro k i; rw [IsRange_mem fi order hv ho, hget]
  have hrange : ∀ k i, ((Fields header).drop 1).get? i = some [k] →
      i < (Fields line).length := by
    intro k i h
    have := (List.get?_eq_some.mp h).1
    omega
  have htok : ∀ i, i < (Fields line).length →
      (Fields line).get? i = some ((Fields line).getD i []) := by
    intro i hi
    rw [List.getD_eq_getElem?_getD, List.get?_eq_getElem?, List.getElem?_eq_getElem hi]
    rfl
  have hloop : ∃ r, parseRecordLoop (Fields line) order {} = .ok r := by
    rw [parseRecordLoop_ok_iff]
    rintro ⟨k, i⟩ hp hi
    simp only at hi ⊢
    have hc := (hmem k i).mp hp
    by_cases h98 : k = 98
    · subst h98
      obtain ⟨t, ht⟩ := hb i _ hc (htok i hi)
      exact ⟨.time t, by simp only [coerce, if_true, ht]⟩
    by_cases h115 : k = 115
    · subst h115
      obtain ⟨t, ht⟩ := hs i _ hc (htok i hi)
      exact ⟨.int t, by simp only [coerce, Nat.reduceEqDiff, if_true, if_false, ht]⟩
    by_cases h83 : k = 83
    · subst h83
      obtain ⟨t, ht⟩ := hS i _ hc (htok i hi)
      exact ⟨.int t, by simp only [coerce, Nat.reduceEqDiff, if_true, if_false, ht]⟩
    by_cases h86 : k = 86
    · subst h86
      obtain ⟨t, ht⟩ := hV i _ hc (htok i hi)
      exact ⟨.int t, by simp only [coerce, Nat.reduceEqDiff, if_true, if_false, ht]⟩
    exact ⟨.str ((Fields line).getD i []), by simp only [coerce, h98, h115, h83, h86, if_false]⟩
  obtain ⟨rec, hrec⟩ := hloop
  refine ⟨rec, ?_, ?_⟩
  · rw [parseRecord_eq, if_neg (by omega)]
    exact hrec
  · intro i
    refine ⟨(Fields line).getD i [], ?_⟩
    have hval : ∀ (a : Attribute) (k : Nat), a.code = some k →
        ((Fields header).drop 1).get? i = some [k] →
        coerce k ((Fields line).getD i []) = .ok (rec.get a) := by
      intro a k ha hc
      exact parseRecordLoop_value _ _ _ _ a k i hrec (IsRange_nodup fi order hv ho)
        ((hmem k i).mpr hc) (hrange k i hc) ha
    refine ⟨?_, ?_, ?_, ?_, ?_, ?_, ?_, ?_, ?_, ?_, ?_, ?_, ?_, ?_⟩
    · intro hne
      apply htok
      by_contra hge
      exact hne (List.get?_eq_none.mpr (by omega))
    · intro hc
      have := hval .MassagedURL 78 rfl hc
      simp only [coerce, Nat.reduceEqDiff, if_false, Record.get, Except.ok.injEq,
        Value.str.injEq] at this
      exact this.symm
    · intro hc
      have := hval .Timestamp 98 rfl hc
      simp only [coerce, if_true, Record.get] at this
      split at this
      · exact absurd this (by simp)
      · rename_i t ht
        simp only [Except.ok.injEq, Value.time.injEq] at this
        rw [ht, this]
    · intro hc
      have := hval .OriginalURL 97 rfl hc
      simp only [coerce, Nat.reduceEqDiff, if_false, Record.get, Except.ok.injEq,
        Value.str.injEq] at this
      exact this.symm
    · intro hc
      have := hval .MIMEType 109 rfl hc
      simp only [coerce, Nat.reduceEqDiff, if_false, Record.get, Except.ok.injEq,
        Value.str.injEq] at this
      exact this.symm
    · intro hc
      have := hval .StatusCode 115 rfl hc
      simp only [coerce, Nat.reduceEqDiff, if_true, if_false, Record.get] at this
      split at this
      · exact absurd this (by simp)
      · rename_i t ht
        simp only [Except.ok.injEq, Value.int.injEq] at this
        rw [ht, this]
    · intro hc
      have := hval .NewStyleChecksum 107 rfl hc
      simp only [coerce, Nat.reduceEqDiff, if_false, Record.get, Except.ok.injEq,
        Value.str.injEq] at this
      exact this.symm
    · intro hc
      have := hval .Redirect 114 rfl hc
      simp only [coerce, Nat.reduceEqDiff, if_false, Record.get, Except.ok.injEq,
        Value.str.injEq] at this
      exact this.symm
    · intro hc
      have := hval .MetaTags 77 rfl hc
      simp only [coerce, Nat.reduceEqDiff, if_false, Record.get, Except.ok.injEq,
        Value.str.injEq] at this
      exact this.symm
    · intro hc
      have := hval .CompressedRecordSize 83 rfl hc
      simp only [coerce, Nat.reduceEqDiff, if_true, if_false, Record.get] at this
      split at this
      · exact absurd this (by simp)
      · rename_i t ht
        simp only [Except.ok.injEq, Value.int.injEq] at this
        rw [ht, this]
    · intro hc
      have := hval .CompressedArcOffset 86 rfl hc
      simp only [coerce, Nat.reduceEqDiff, if_true, if_false, Record.get] at this
      split at this
      · exact absurd this (by simp)
      · rename_i t ht
        simp only [Except.ok.injEq, Value.int.injEq] at this
        rw [ht, this]
    · intro hc
      have := hval .Filename 103 rfl hc
      simp only [coerce, Nat.reduceEqDiff, if_false, Record.get, Except.ok.injEq,
        Value.str.injEq] at this
      exact this.symm
    · intro hc
      have := hval .IP 101 rfl hc
      simp only [coerce, Nat.reduceEqDiff, if_false, Record.get, Except.ok.injEq,
        Value.str.injEq] at this
      exact this.symm
    · intro hc
      have := hval .OriginalHost 104 rfl hc
      simp only [coerce, Nat.reduceEqDiff, if_false, Record.get, Except.ok.injEq,
        Value.str.injEq] at this
      exact this.symm

set_option maxRecDepth 100000 in
/-- Witness of C1: the first case of `TestParse`, the map being visited in the reverse of
the header order; the redirect column holds the placeholder `-`. -/
theorem parseRecord_decodes_witness :
    ∃ rec, parseRecord (str "com,example)/ 20230731193152 https://example.com/ text/html 200 K5UZWMOAOHAFAVNO2QBMBBCMGAAC7K3J - - 1234 5678 example.warc.gz")
        [(78, 0), (98, 1), (97, 2), (109, 3), (115, 4), (107, 5), (114, 6), (77, 7), (83, 8),
          (86, 9), (103, 10)]
        [(103, 10), (86, 9), (83, 8), (77, 7), (114, 6), (107, 5), (115, 4), (109, 3), (97, 2),
          (98, 1), (78, 0)] = .ok rec ∧
      rec.MassagedURL = str "com,example)/" ∧
      rec.Timestamp = ⟨2023, 7, 31, 19, 31, 52, 0⟩ ∧
      rec.StatusCode = 200 ∧
      rec.Redirect = str "-" ∧
      rec.CompressedRecordSize = 1234 := by
  have hcodes : (Fields (str "CDX N b a m s k r M S V g")).drop 1
      = [[78], [98], [97], [109], [115], [107], [114], [77], [83], [86], [103]] := by decide
  have htoks : Fields (str "com,example)/ 20230731193152 https://example.com/ text/html 200 K5UZWMOAOHAFAVNO2QBMBBCMGAAC7K3J - - 1234 5678 example.warc.gz")
      = [str "com,example)/", str "20230731193152", str "https://example.com/",
         str "text/html", str "200", str "K5UZWMOAOHAFAVNO2QBMBBCMGAAC7K3J", str "-", str "-",
         str "1234", str "5678", str "example.warc.gz"] := by decide
  have hbound : ∀ (i : Nat) (c : GoString),
      ([[78], [98], [97], [109], [115], [107], [114], [77], [83], [86], [103]] :
        List GoString).get? i = some c → i < 11 := by
    intro i c h
    exact (List.get?_eq_some.mp h).1
  obtain ⟨rec, hrec, hall⟩ := parseRecord_decodes (str "CDX N b a m s k r M S V g")
    (str "com,example)/ 20230731193152 https://example.com/ text/html 200 K5UZWMOAOHAFAVNO2QBMBBCMGAAC7K3J - - 1234 5678 example.warc.gz")
    [(78, 0), (98, 1), (97, 2), (109, 3), (115, 4), (107, 5), (114, 6), (77, 7), (83, 8),
      (86, 9), (103, 10)]
    [(103, 10), (86, 9), (83, 8), (77, 7), (114, 6), (107, 5), (115, 4), (109, 3), (97, 2),
      (98, 1), (78, 0)]
    (by decide) (by rw [hcodes]; decide) (by rw [hcodes, htoks]; decide)
    (by
      intro i tok h1 h2
      rw [hcodes] at h1; rw [htoks] at h2
      have hi := hbound i _ h1
      interval_cases i <;> simp at h1
      simp at h2; subst h2; exact ⟨⟨2023, 7, 31, 19, 31, 52, 0⟩, by decide⟩)
    (by
      intro i tok h1 h2
      rw [hcodes] at h1; rw [htoks] at h2
      have hi := hbound i _ h1
      interval_cases i <;> simp at h1
      simp at h2; subst h2; exact ⟨200, by decide⟩)
    (by
      intro i tok h1 h2
      rw [hcodes] at h1; rw [htoks] at h2
      have hi := hbound i _ h1
      interval_cases i <;> simp at h1
      simp at h2; subst h2; exact ⟨1234, by decide⟩)
    (by
      intro i tok h1 h2
      rw [hcodes] at h1; rw [htoks] at h2
      have hi := hbound i _ h1
      interval_cases i <;> simp at h1
      simp at h2; subst h2; exact ⟨5678, by decide⟩)
    (show List.Perm _ _ from List.reverse_perm
      [(78, 0), (98, 1), (97, 2), (109, 3), (115, 4), (107, 5), (114, 6), (77, 7), (83, 8),
        (86, 9), (103, 10)])
  refine ⟨rec, hrec, ?_, ?_, ?_, ?_, ?_⟩
  · obtain ⟨tok, h0, h⟩ := hall 0
    rw [hcodes, htoks] at h0
    have := h0 (by simp)
    simp at this; subst this
    exact h.1 (by rw [hcodes]; rfl)
  · obtain ⟨tok, h0, h⟩ := hall 1
    rw [hcodes, htoks] at h0
    have := h0 (by simp)
    simp at this; subst this
    have h2 := h.2.1 (by rw [hcodes]; rfl)
    have h3 : parseTime (str "20230731193152") = .ok ⟨2023, 7, 31, 19, 31, 52, 0⟩ := by decide
    rw [h3] at h2
    simp only [Except.ok.injEq] at h2
    exact h2.symm
  · obtain ⟨tok, h0, h⟩ := hall 4
    rw [hcodes, htoks] at h0
    have := h0 (by simp)
    simp at this; subst this
    have h2 := h.2.2.2.2.1 (by rw [hcodes]; rfl)
    have h3 : Atoi (str "200") = .ok 200 := by decide
    rw [h3] at h2
    simp only [Except.ok.injEq] at h2
    exact h2.symm
  · obtain ⟨tok, h0, h⟩ := hall 6
    rw [hcodes, htoks] at h0
    have := h0 (by simp)
    simp at this; subst this
    exact h.2.2.2.2.2.2.1 (by rw [hcodes]; rfl)
  · obtain ⟨tok, h0, h⟩ := hall 8
    rw [hcodes, htoks] at h0
    have := h0 (by simp)
    simp at this; subst this
    have h2 := h.2.2.2.2.2.2.2.2.1 (by rw [hcodes]; rfl)
    have h3 : ParseInt (str "1234") = .ok 1234 := by decide
    rw [h3] at h2
    simp only [Except.ok.injEq] at h2
    exact h2.symm

/-! ## Parse -/

theorem parseLines_ok (fi : FieldIndex) (lines : List GoString)
    (orders : Nat → List (Nat × Nat)) (acc : List Record)
    (hok : ∀ i line, lines.get? i = some line →
      ∃ r, parseRecord line fi (orders i) = .ok r) :
    ∃ recs, parseLines fi lines orders acc = .ok (acc ++ recs) ∧
      recs.length = lines.length ∧
      ∀ i line, lines.get? i = some line →
        ∃ r, recs.get? i = some r ∧ parseRecord line fi (orders i) = .ok r := by
  induction lines generalizing orders acc with
  | nil => exact ⟨[], by simp [parseLines], rfl, by simp⟩
  | cons l rest ih =>
    obtain ⟨r, hr⟩ := hok 0 l rfl
    obtain ⟨recs, h1, h2, h3⟩ := ih (fun i => orders (i + 1)) (acc ++ [r])
      (fun i line hi => hok (i + 1) line (by simpa using hi))
    refine ⟨r :: recs, ?_, by simp [h2], ?_⟩
    · simp only [parseLines, hr, h1, List.append_assoc, List.singleton_append]
    · intro i line hi
      cases i with
      | zero =>
        simp only [List.get?_cons_zero, Option.some.injEq] at hi
        subst hi
        exact ⟨r, rfl, hr⟩
      | succ i => simpa using h3 i line (by simpa using hi)

theorem parseLines_error (fi : FieldIndex) (lines : List GoString)
    (orders : Nat → List (Nat × Nat)) (acc : List Record) (i : Nat) (line : GoString)
    (e : Error) (hi : lines.get? i = some line)
    (hfail : parseRecord line fi (orders i) = .error e)
    (hbefore : ∀ j l, j < i → lines.get? j = some l →
      ∃ r, parseRecord l fi (orders j) = .ok r) :
    parseLines fi lines orders acc = .error e := by
  induction lines generalizing orders acc i with
  | nil => simp at hi
  | cons l rest ih =>
    cases i with
    | zero =>
      simp only [List.get?_cons_zero, Option.some.injEq] at hi
      subst hi
      simp only [parseLines, hfail]
    | succ i =>
      obtain ⟨r, hr⟩ := hbefore 0 l (by omega) rfl
      simp only [parseLines, hr]
      exact ih (fun i => orders (i + 1)) (acc ++ [r]) i (by simpa using hi) hfail
        (fun j l2 hj hl2 => hbefore (j + 1) l2 (by omega) (by simpa using hl2))

theorem parseHeader_nil : parseHeader [] = .error .invalidHeader := by decide

/-- C4: when the scanner yields a valid header followed by `n >= 1` data lines that each
decode, and reports no read error, `Parse` succeeds with exactly `n` Records, the `i`-th of
which is the result of `parseRecord` on the `i`-th data line with the FieldIndex of the
header. -/
theorem Parse_records (header : GoString) (lines : List GoString) (fi : FieldIndex)
    (orders : Nat → List (Nat × Nat))
    (hh : parseHeader header = .ok fi)
    (hn : 1 ≤ lines.length)
    (hok : ∀ i line, lines.get? i = some line →
      ∃ r, parseRecord line fi (orders i) = .ok r) :
    ∃ records, Parse ⟨header :: lines, none⟩ orders = .ok records ∧
      records.length = lines.length ∧
      ∀ i line, lines.get? i = some line →
        ∃ r, records.get? i = some r ∧ parseRecord line fi (orders i) = .ok r := by
  obtain ⟨recs, h1, h2, h3⟩ := parseLines_ok fi lines orders [] hok
  have hne : header ≠ [] := by
    rintro rfl
    rw [parseHeader_nil] at hh
    exact absurd hh (by simp)
  refine ⟨recs, ?_, h2, h3⟩
  simp only [List.nil_append] at h1
  have hlen : ¬ recs.length = 0 := by omega
  simp only [Parse, hne, if_false, hh, h1, hlen]

/-- C5: when the header is valid and some data line fails to decode, `Parse` returns the
error of the earliest failing data line and no Records (`Except.error` is `return nil,
err`), whatever lines come before or after it and whatever the scanner reports at the
end. -/
theorem Parse_fail_fast (header : GoString) (lines : List GoString) (fi : FieldIndex)
    (orders : Nat → List (Nat × Nat)) (err : Option GoString) (i : Nat) (line : GoString)
    (e : Error)
    (hh : parseHeader header = .ok fi)
    (hi : lines.get? i = some line)
    (hfail : parseRecord line fi (orders i) = .error e)
    (hbefore : ∀ j l, j < i → lines.get? j = some l →
      ∃ r, parseRecord l fi (orders j) = .ok r) :
    Parse ⟨header :: lines, err⟩ orders = .error e := by
  have hne : header ≠ [] := by
    rintro rfl
    rw [parseHeader_nil] at hh
    exact absurd hh (by simp)
  have h1 := parseLines_error fi lines orders [] i line e hi hfail hbefore
  simp only [Parse, hne, if_false, hh, h1]

theorem exists_ok_of_isOk {ε α : Type} (x : Except ε α) (h : x.isOk = true) :
    ∃ r, x = .ok r := by
  cases x with
  | error e => simp [Except.isOk, Except.toBool] at h
  | ok r => exact ⟨r, rfl⟩

set_option maxRecDepth 100000 in
/-- Witness of C4: the case `Parse multiple records` of `TestParse`. -/
theorem Parse_records_witness :
    ∃ records, Parse ⟨[str "CDX N b a m s k r M S V g",
        str "com,example)/ 20230731193152 https://example.com/ text/html 200 K5UZWMOAOHAFAVNO2QBMBBCMGAAC7K3J - - 1234 5678 example1.warc.gz",
        str "org,example)/ 20230731193153 https://example.org/ text/plain 404 L6VZXNPAPIRGBWOP3RCNCDNDHABD8L4K - - 5678 9012 example2.warc.gz"],
        none⟩
        (fun _ => [(78, 0), (98, 1), (97, 2), (109, 3), (115, 4), (107, 5), (114, 6), (77, 7),
          (83, 8), (86, 9), (103, 10)]) = .ok records ∧
      records.length = 2 := by
  obtain ⟨records, h1, h2, _⟩ := Parse_records (str "CDX N b a m s k r M S V g")
    [str "com,example)/ 20230731193152 https://example.com/ text/html 200 K5UZWMOAOHAFAVNO2QBMBBCMGAAC7K3J - - 1234 5678 example1.warc.gz",
     str "org,example)/ 20230731193153 https://example.org/ text/plain 404 L6VZXNPAPIRGBWOP3RCNCDNDHABD8L4K - - 5678 9012 example2.warc.gz"]
    [(78, 0), (98, 1), (97, 2), (109, 3), (115, 4), (107, 5), (114, 6), (77, 7), (83, 8),
      (86, 9), (103, 10)]
    (fun _ => [(78, 0), (98, 1), (97, 2), (109, 3), (115, 4), (107, 5), (114, 6), (77, 7),
      (83, 8), (86, 9), (103, 10)])
    (by decide) (by decide)
    (by
      intro i line hi
      match i, hi with
      | 0, hi =>
        simp only [List.get?_cons_zero, Option.some.injEq] at hi
        subst hi
        exact exists_ok_of_isOk _ (by decide)
      | 1, hi =>
        simp only [List.get?_cons_succ, List.get?_cons_zero, Option.some.injEq] at hi
        subst hi
        exact exists_ok_of_isOk _ (by decide)
      | n + 2, hi => simp at hi)
  exact ⟨records, h1, h2⟩

set_option maxRecDepth 100000 in
/-- Witness of C5: three data lines, the second with the timestamp `INVALIDTIME`. -/
theorem Parse_fail_fast_witness :
    Parse ⟨[str "CDX N b", str "a 20230731193152", str "b INVALIDTIME",
        str "c 20230731193153"], none⟩ (fun _ => [(78, 0), (98, 1)])
      = .error (.invalidTimestamp
          ⟨str "20060102150405", str "INVALIDTIME", .cannotParse (str "2006")⟩) :=
  Parse_fail_fast (str "CDX N b")
    [str "a 20230731193152", str "b INVALIDTIME", str "c 20230731193153"]
    [(78, 0), (98, 1)] (fun _ => [(78, 0), (98, 1)]) none 1 (str "b INVALIDTIME") _
    (by decide) (by decide) (by decide)
    (by
      intro j l hj hl
      match j, hj, hl with
      | 0, _, hl =>
        simp only [List.get?_cons_zero, Option.some.injEq] at hl
        subst hl
        exact exists_ok_of_isOk _ (by decide))

/-! ## parseRecord: errors -/

theorem parseRecordLoop_ne_insufficient (fields : List GoString) (order : List (Nat × Nat))
    (r0 : Record) : parseRecordLoop fields order r0 ≠ .error .insufficientFields := by
  intro h
  obtain ⟨p, _, _, hc⟩ := parseRecordLoop_error fields order r0 _ h
  exact coerce_ne_insufficient _ _ hc

theorem parseRecord_insufficient (line : GoString) (fi : FieldIndex)
    (order : List (Nat × Nat)) :
    parseRecord line fi order = .error .insufficientFields ↔
      (Fields line).length < fi.length := by
  rw [parseRecord_eq]
  split
  · simp only [true_iff]; assumption
  · rename_i h
    simp only [h, iff_false]
    exact parseRecordLoop_ne_insufficient _ _ _

/-- C6: `parseRecord` fails with the insufficient-fields error exactly when the line has
fewer tokens than the FieldIndex has distinct codes, whatever the tokens are: with one
token fewer than codes it fails with this error, with exactly as many it never does. -/
theorem parseRecord_insufficient_iff (line : GoString) (fi : FieldIndex)
    (order : List (Nat × Nat)) (hv : fi.Valid) :
    (parseRecord line fi order = .error .insufficientFields ↔
      (Fields line).length < (fi.map Prod.fst).toFinset.card) ∧
    ((Fields line).length + 1 = (fi.map Prod.fst).toFinset.card →
      parseRecord line fi order = .error .insufficientFields) ∧
    ((Fields line).length = (fi.map Prod.fst).toFinset.card →
      parseRecord line fi order ≠ .error .insufficientFields) := by
  have hcard : (fi.map Prod.fst).toFinset.card = fi.length := by
    rw [List.toFinset_card_of_nodup hv, List.length_map]
  rw [hcard]
  have h := parseRecord_insufficient line fi order
  refine ⟨h, fun h1 => h.mpr (by omega), fun h1 h2 => ?_⟩
  have := h.mp h2
  omega

set_option maxRecDepth 100000 in
/-- Witness of C6: two codes and the single, malformed token `INVALIDTIME`. -/
theorem parseRecord_insufficient_iff_witness :
    (parseRecord (str "INVALIDTIME") [(98, 0), (115, 1)] [(98, 0), (115, 1)]
        = .error .insufficientFields ↔
      (Fields (str "INVALIDTIME")).length <
        (([(98, 0), (115, 1)] : FieldIndex).map Prod.fst).toFinset.card) ∧
    ((Fields (str "INVALIDTIME")).length + 1 =
        (([(98, 0), (115, 1)] : FieldIndex).map Prod.fst).toFinset.card →
      parseRecord (str "INVALIDTIME") [(98, 0), (115, 1)] [(98, 0), (115, 1)]
        = .error .insufficientFields) ∧
    ((Fields (str "INVALIDTIME")).length =
        (([(98, 0), (115, 1)] : FieldIndex).map Prod.fst).toFinset.card →
      parseRecord (str "INVALIDTIME") [(98, 0), (115, 1)] [(98, 0), (115, 1)]
        ≠ .error .insufficientFields) :=
  parseRecord_insufficient_iff (str "INVALIDTIME") [(98, 0), (115, 1)] [(98, 0), (115, 1)]
    (by decide)

/-- When exactly one visited entry within the line has a token that its case rejects, the
loop returns the error of that case. -/
theorem parseRecordLoop_single_error (fields : List GoString) (order : List (Nat × Nat))
    (r0 : Record) (k i : Nat) (e : Error)
    (hmem : (k, i) ∈ order) (hi : i < fields.length)
    (hc : coerce k (fields.getD i []) = .error e)
    (hothers : ∀ p ∈ order, p ≠ (k, i) → p.2 < fields.length →
      ∃ v, coerce p.1 (fields.getD p.2 []) = .ok v) :
    parseRecordLoop fields order r0 = .error e := by
  cases h : parseRecordLoop fields order r0 with
  | ok r =>
    obtain ⟨v, hv⟩ := (parseRecordLoop_ok_iff fields order r0).mp ⟨r, h⟩ (k, i) hmem hi
    rw [hc] at hv
    exact absurd hv (by simp)
  | error e2 =>
    obtain ⟨p, hp, hp2, hp3⟩ := parseRecordLoop_error fields order r0 e2 h
    by_cases hpe : p = (k, i)
    · subst hpe
      rw [hc] at hp3
      simp only [Except.error.injEq] at hp3
      rw [hp3]
    · obtain ⟨v, hv⟩ := hothers p hp hpe hp2
      rw [hp3] at hv
      exact absurd hv (by simp)

theorem getD_of_get? (fields : List GoString) (i : Nat) (tok : GoString)
    (h : fields.get? i = some tok) : i < fields.length ∧ fields.getD i [] = tok := by
  obtain ⟨h1, h2⟩ := List.get?_eq_some.mp h
  refine ⟨h1, ?_⟩
  rw [List.getD_eq_getElem?_getD, List.getElem?_eq_getElem h1]
  exact h2

theorem get?_of_lt (fields : List GoString) (i : Nat) (h : i < fields.length) :
    fields.get? i = some (fields.getD i []) := by
  rw [List.getD_eq_getElem?_getD, List.get?_eq_getElem?, List.getElem?_eq_getElem h]
  rfl

/-- The only malformed column decides the error of `parseRecord`: the column of the key
`k` holds a token that the case of `k` rejects with `e`, and the columns of the other keys
among `b`, `s`, `S`, `V` hold tokens that their cases accept. -/
theorem parseRecord_single_error (line : GoString) (fi : FieldIndex)
    (order : List (Nat × Nat)) (hv : fi.Valid) (ho : fi.IsRange order)
    (hlen : fi.len ≤ (Fields line).length) (k i : Nat) (tok : GoString) (e : Error)
    (hk : fi.get? k = some i) (htok : (Fields line).get? i = some tok)
    (hc : coerce k tok = .error e)
    (hothers : ∀ k2 j t, k2 ≠ k → fi.get? k2 = some j → (Fields line).get? j = some t →
      ∃ v, coerce k2 t = .ok v) :
    parseRecord line fi order = .error e := by
  obtain ⟨hi, hgd⟩ := getD_of_get? _ _ _ htok
  rw [parseRecord_eq, if_neg (by unfold FieldIndex.len at hlen; omega)]
  apply parseRecordLoop_single_error _ _ _ k i e ((IsRange_mem fi order hv ho k i).mpr hk) hi
    (by rw [hgd]; exact hc)
  rintro ⟨k2, j⟩ hp hne hj
  simp only at hj ⊢
  have hk2 := (IsRange_mem fi order hv ho k2 j).mp hp
  have hkk : k2 ≠ k := by
    rintro rfl
    rw [hk] at hk2
    simp only [Option.some.injEq] at hk2
    exact hne (by rw [hk2])
  exact hothers k2 j _ hkk hk2 (get?_of_lt _ _ hj)

theorem coerce_ok_of (k : Nat) (t : GoString)
    (hb : k = 98 → ∃ x, parseTime t = .ok x) (hs : k = 115 → ∃ n, Atoi t = .ok n)
    (hS : k = 83 → ∃ n, ParseInt t = .ok n) (hV : k = 86 → ∃ n, ParseInt t = .ok n) :
    ∃ v, coerce k t = .ok v := by
  by_cases h98 : k = 98
  · obtain ⟨x, hx⟩ := hb h98
    subst h98
    exact ⟨.time x, by simp only [coerce, if_true, hx]⟩
  by_cases h115 : k = 115
  · obtain ⟨x, hx⟩ := hs h115
    subst h115
    exact ⟨.int x, by simp only [coerce, Nat.reduceEqDiff, if_true, if_false, hx]⟩
  by_cases h83 : k = 83
  · obtain ⟨x, hx⟩ := hS h83
    subst h83
    exact ⟨.int x, by simp only [coerce, Nat.reduceEqDiff, if_true, if_false, hx]⟩
  by_cases h86 : k = 86
  · obtain ⟨x, hx⟩ := hV h86
    subst h86
    exact ⟨.int x, by simp only [coerce, Nat.reduceEqDiff, if_true, if_false, hx]⟩
  exact ⟨.str t, by simp only [coerce, h98, h115, h83, h86, if_false]⟩

/-- C7: on a line with enough tokens in which exactly one of the declared columns `b`,
`s`, `S`, `V` holds a token that does not parse while the others parse, `parseRecord`
fails, for every order in which the map is visited, with the error of that column wrapped
around the parse error of that token: invalid timestamp for `b`, invalid status code for
`s`, invalid compressed record size for `S`, invalid compressed arc offset for `V`. -/
theorem parseRecord_specific_error (line : GoString) (fi : FieldIndex)
    (order : List (Nat × Nat)) (hv : fi.Valid) (ho : fi.IsRange order)
    (hlen : fi.len ≤ (Fields line).length) :
    (∀ i tok e, fi.get? 98 = some i → (Fields line).get? i = some tok →
      parseTime tok = .error e →
      (∀ j t, fi.get? 115 = some j → (Fields line).get? j = some t → ∃ n, Atoi t = .ok n) →
      (∀ j t, fi.get? 83 = some j → (Fields line).get? j = some t → ∃ n, ParseInt t = .ok n) →
      (∀ j t, fi.get? 86 = some j → (Fields line).get? j = some t → ∃ n, ParseInt t = .ok n) →
      parseRecord line fi order = .error (.invalidTimestamp e)) ∧
    (∀ i tok e, fi.get? 115 = some i → (Fields line).get? i = some tok →
      Atoi tok = .error e →
      (∀ j t, fi.get? 98 = some j → (Fields line).get? j = some t → ∃ x, parseTime t = .ok x) →
      (∀ j t, fi.get? 83 = some j → (Fields line).get? j = some t → ∃ n, ParseInt t = .ok n) →
      (∀ j t, fi.get? 86 = some j → (Fields line).get? j = some t → ∃ n, ParseInt t = .ok n) →
      parseRecord line fi order = .error (.invalidStatusCode e)) ∧
    (∀ i tok e, fi.get? 83 = some i → (Fields line).get? i = some tok →
      ParseInt tok = .error e →
      (∀ j t, fi.get? 98 = some j → (Fields line).get? j = some t → ∃ x, parseTime t = .ok x) →
      (∀ j t, fi.get? 115 = some j → (Fields line).get? j = some t → ∃ n, Atoi t = .ok n) →
      (∀ j t, fi.get? 86 = some j → (Fields line).get? j = some t → ∃ n, ParseInt t = .ok n) →
      parseRecord line fi order = .error (.invalidCompressedRecordSize e)) ∧
    (∀ i tok e, fi.get? 86 = some i → (Fields line).get? i = some tok →
      ParseInt tok = .error e →
      (∀ j t, fi.get? 98 = some j → (Fields line).get? j = some t → ∃ x, parseTime t = .ok x) →
      (∀ j t, fi.get? 115 = some j → (Fields line).get? j = some t → ∃ n, Atoi t = .ok n) →
      (∀ j t, fi.get? 83 = some j → (Fields line).get? j = some t → ∃ n, ParseInt t = .ok n) →
      parseRecord line fi order = .error (.invalidCompressedArcOffset e)) := by
  refine ⟨?_, ?_, ?_, ?_⟩
  · intro i tok e hk htok hp hs hS hV
    apply parseRecord_single_error line fi order hv ho hlen 98 i tok _ hk htok
      (by simp only [coerce, if_true, hp])
    intro k2 j t hne hk2 ht
    exact coerce_ok_of k2 t (fun h => absurd h hne) (fun h => hs j t (h ▸ hk2) ht)
      (fun h => hS j t (h ▸ hk2) ht) (fun h => hV j t (h ▸ hk2) ht)
  · intro i tok e hk htok hp hb hS hV
    apply parseRecord_single_error line fi order hv ho hlen 115 i tok _ hk htok
      (by simp only [coerce, Nat.reduceEqDiff, if_true, if_false, hp])
    intro k2 j t hne hk2 ht
    exact coerce_ok_of k2 t (fun h => hb j t (h ▸ hk2) ht) (fun h => absurd h hne)
      (fun h => hS j t (h ▸ hk2) ht) (fun h => hV j t (h ▸ hk2) ht)
  · intro i tok e hk htok hp hb hs hV
    apply parseRecord_single_error line fi order hv ho hlen 83 i tok _ hk htok
      (by simp only [coerce, Nat.reduceEqDiff, if_true, if_false, hp])
    intro k2 j t hne hk2 ht
    exact coerce_ok_of k2 t (fun h => hb j t (h ▸ hk2) ht) (fun h => hs j t (h ▸ hk2) ht)
      (fun h => absurd h hne) (fun h => hV j t (h ▸ hk2) ht)
  · intro i tok e hk htok hp hb hs hS
    apply parseRecord_single_error line fi order hv ho hlen 86 i tok _ hk htok
      (by simp only [coerce, Nat.reduceEqDiff, if_true, if_false, hp])
    intro k2 j t hne hk2 ht
    exact coerce_ok_of k2 t (fun h => hb j t (h ▸ hk2) ht) (fun h => hs j t (h ▸ hk2) ht)
      (fun h => hS j t (h ▸ hk2) ht) (fun h => absurd h hne)

set_option maxRecDepth 100000 in
/-- Witness of C7: the case `Invalid compressed record size` of `TestParse`, the map being
visited in the reverse of the header order. -/
theorem parseRecord_specific_error_witness :
    parseRecord (str "com,example)/ 20230731193152 https://example.com/ text/html 200 K5UZWMOAOHAFAVNO2QBMBBCMGAAC7K3J - - INVALID 5678 example.warc.gz")
        [(78, 0), (98, 1), (97, 2), (109, 3), (115, 4), (107, 5), (114, 6), (77, 7), (83, 8),
          (86, 9), (103, 10)]
        [(103, 10), (86, 9), (83, 8), (77, 7), (114, 6), (107, 5), (115, 4), (109, 3), (97, 2),
          (98, 1), (78, 0)]
      = .error (.invalidCompressedRecordSize ⟨str "ParseInt", str "INVALID", .ErrSyntax⟩) := by
  have htoks : Fields (str "com,example)/ 20230731193152 https://example.com/ text/html 200 K5UZWMOAOHAFAVNO2QBMBBCMGAAC7K3J - - INVALID 5678 example.warc.gz")
      = [str "com,example)/", str "20230731193152", str "https://example.com/",
         str "text/html", str "200", str "K5UZWMOAOHAFAVNO2QBMBBCMGAAC7K3J", str "-", str "-",
         str "INVALID", str "5678", str "example.warc.gz"] := by decide
  refine (parseRecord_specific_error _ _ _ (by decide)
    (show List.Perm _ _ from List.reverse_perm
      [(78, 0), (98, 1), (97, 2), (109, 3), (115, 4), (107, 5), (114, 6), (77, 7), (83, 8),
        (86, 9), (103, 10)])
    (by rw [htoks]; decide)).2.2.1 8 (str "INVALID") _ (by decide) (by rw [htoks]; decide)
    (by decide) ?_ ?_ ?_
  · intro j t hj ht
    have hj2 : j = 1 := by
      simp only [FieldIndex.get?, Nat.reduceEqDiff, if_true, if_false, Option.some.injEq] at hj
      exact hj.symm
    subst hj2
    rw [htoks] at ht
    simp only [List.get?_cons_succ, List.get?_cons_zero, Option.some.injEq] at ht
    subst ht
    exact exists_ok_of_isOk _ (by decide)
  · intro j t hj ht
    have hj2 : j = 4 := by
      simp only [FieldIndex.get?, Nat.reduceEqDiff, if_true, if_false, Option.some.injEq] at hj
      exact hj.symm
    subst hj2
    rw [htoks] at ht
    simp only [List.get?_cons_succ, List.get?_cons_zero, Option.some.injEq] at ht
    subst ht
    exact exists_ok_of_isOk _ (by decide)
  · intro j t hj ht
    have hj2 : j = 9 := by
      simp only [FieldIndex.get?, Nat.reduceEqDiff, if_true, if_false, Option.some.injEq] at hj
      exact hj.symm
    subst hj2
    rw [htoks] at ht
    simp only [List.get?_cons_succ, List.get?_cons_zero, Option.some.injEq] at ht
    subst ht
    exact exists_ok_of_isOk _ (by decide)

/-! ## parseRecord: the attributes that stay zero -/

theorem Record.isZeroAt_iff (r : Record) (a : Attribute) :
    r.IsZeroAt a ↔ r.get a = ({} : Record).get a := by
  cases a <;> simp only [Record.IsZeroAt, Record.get, Value.str.injEq, Value.time.injEq,
    Value.int.injEq]

theorem parseRecord_zero (line : GoString) (fi : FieldIndex) (order : List (Nat × Nat))
    (rec : Record) (ho : fi.IsRange order) (h : parseRecord line fi order = .ok rec)
    (a : Attribute) (ha : ∀ c, a.code = some c → fi.get? c = none) : rec.IsZeroAt a := by
  rw [Record.isZeroAt_iff]
  rw [parseRecord_eq] at h
  split at h
  · exact absurd h (by simp)
  · apply parseRecordLoop_frame _ _ _ _ a h
    rintro ⟨k, i⟩ hp _ hc
    have hnone := ha k hc
    have hk : k ∈ fi.map Prod.fst := List.mem_map_of_mem Prod.fst (ho.mem_iff.mp hp)
    rw [← FieldIndex.get?_isSome, hnone] at hk
    exact absurd hk (by simp)

theorem FieldIndex.length_set (fi : FieldIndex) (key v : Nat)
    (h : key ∉ fi.map Prod.fst) : (fi.set key v).len = fi.len + 1 := by
  have hkeys := FieldIndex.keys_set fi key v
  rw [if_neg h] at hkeys
  have := congrArg List.length hkeys
  simpa [FieldIndex.len] using this

/-- The number of optional attributes that no case of the switch assigns. -/
theorem unwired_optional_card :
    (Finset.univ.filter
      (fun a : Attribute => a.isOptional = true ∧ a.code = none)).card = 32 := by
  decide

/-- C10, as stated, fails on the number of unwired optional attributes: `Record` has 32 of
them, not 21. -/
theorem unwired_optional_not_21 :
    (Finset.univ.filter
      (fun a : Attribute => a.isOptional = true ∧ a.code = none)).card ≠ 21 := by
  decide

/-- C10, amended: in a Record that `parseRecord` returns, every attribute other than
those bound to a recognized code present in the FieldIndex has the zero value of its
type. So the attributes of recognized codes that the FieldIndex lacks stay zero, and the
32 optional attributes that no case assigns stay zero whatever the FieldIndex declares;
a code that is new to the FieldIndex still raises the required number of tokens by
one. -/
theorem parseRecord_frame (line : GoString) (fi : FieldIndex) (order : List (Nat × Nat))
    (rec : Record) (ho : fi.IsRange order) (h : parseRecord line fi order = .ok rec) :
    (∀ a : Attribute, (∀ c, a.code = some c → fi.get? c = none) → rec.IsZeroAt a) ∧
    (∀ a : Attribute, a.code = none → rec.IsZeroAt a) ∧
    (Finset.univ.filter
      (fun a : Attribute => a.isOptional = true ∧ a.code = none)).card = 32 ∧
    (∀ key i order2, key ∉ fi.map Prod.fst → (Fields line).length = fi.len →
      parseRecord line (fi.set key i) order2 = .error .insufficientFields) := by
  refine ⟨fun a ha => parseRecord_zero line fi order rec ho h a ha, ?_,
    unwired_optional_card, ?_⟩
  · intro a ha
    exact parseRecord_zero line fi order rec ho h a (by rw [ha]; intro c hc; cases hc)
  · intro key i order2 hkey hlen
    rw [parseRecord_insufficient]
    have := FieldIndex.length_set fi key i hkey
    unfold FieldIndex.len at this hlen
    omega

set_option maxRecDepth 100000 in
/-- Witness of C10: the header `CDX N A b`, whose code `A` no case assigns. -/
theorem parseRecord_frame_witness :
    (∀ a : Attribute,
      (∀ c, a.code = some c → FieldIndex.get? [(78, 0), (65, 1), (98, 2)] c = none) →
      Record.IsZeroAt
        { MassagedURL := str "u", Timestamp := ⟨2023, 7, 31, 19, 31, 52, 0⟩ } a) ∧
    (∀ a : Attribute, a.code = none →
      Record.IsZeroAt
        { MassagedURL := str "u", Timestamp := ⟨2023, 7, 31, 19, 31, 52, 0⟩ } a) ∧
    (Finset.univ.filter
      (fun a : Attribute => a.isOptional = true ∧ a.code = none)).card = 32 ∧
    (∀ key i order2, key ∉ ([(78, 0), (65, 1), (98, 2)] : FieldIndex).map Prod.fst →
      (Fields (str "u x 20230731193152")).length
        = FieldIndex.len [(78, 0), (65, 1), (98, 2)] →
      parseRecord (str "u x 20230731193152")
        (FieldIndex.set [(78, 0), (65, 1), (98, 2)] key i) order2
        = .error .insufficientFields) :=
  parseRecord_frame (str "u x 20230731193152") [(78, 0), (65, 1), (98, 2)]
    [(98, 2), (65, 1), (78, 0)]
    { MassagedURL := str "u", Timestamp := ⟨2023, 7, 31, 19, 31, 52, 0⟩ }
    (show List.Perm _ _ from List.reverse_perm [(78, 0), (65, 1), (98, 2)])
    (by decide)

/-! ## strconv.ParseInt -/

/-- The value of a digit string read with the accumulator `n`. -/
theorem foldl_digits_ge (ds : GoString) (n : Nat) :
    n ≤ ds.foldl (fun n c => n * 10 + (c - 48)) n := by
  induction ds generalizing n with
  | nil => simp
  | cons c rest ih =>
    simp only [List.foldl_cons]
    have := ih (n * 10 + (c - 48))
    omega

theorem parseUintLoop_ok (s0 ds : GoString) (n : Nat)
    (hd : ∀ c ∈ ds, 48 ≤ c ∧ c ≤ 57)
    (hv : ds.foldl (fun n c => n * 10 + (c - 48)) n ≤ 2 ^ 64 - 1) :
    parseUintLoop s0 ds n = .ok (ds.foldl (fun n c => n * 10 + (c - 48)) n) := by
  induction ds generalizing n with
  | nil => simp [parseUintLoop]
  | cons c rest ih =>
    have hc := hd c (List.mem_cons_self _ _)
    simp only [List.foldl_cons] at hv ⊢
    have hge := foldl_digits_ge rest (n * 10 + (c - 48))
    have hlt : n * 10 + (c - 48) ≤ 2 ^ 64 - 1 := le_trans hge hv
    norm_num at hlt
    have h1 : ¬ (c - 48 ≥ 10) := by omega
    have h2 : ¬ (n ≥ (2 ^ 64 - 1) / 10 + 1) := by norm_num; omega
    have h3 : n * 10 % 2 ^ 64 = n * 10 := Nat.mod_eq_of_lt (by norm_num; omega)
    have h4 : (n * 10 + (c - 48)) % 2 ^ 64 = n * 10 + (c - 48) :=
      Nat.mod_eq_of_lt (by norm_num; omega)
    have h5 : ¬ (n * 10 + (c - 48) < n * 10 ∨ n * 10 + (c - 48) > 2 ^ 64 - 1) := by
      norm_num; omega
    simp only [parseUintLoop, hc, and_self, if_true, h1, if_false, h2, h3, h4, h5]
    exact ih _ (fun c hc => hd c (List.mem_cons_of_mem _ hc)) hv

theorem parseUintLoop_range (s0 ds : GoString) (n : Nat) (hn : n ≤ 2 ^ 64 - 1)
    (hd : ∀ c ∈ ds, 48 ≤ c ∧ c ≤ 57)
    (hv : 2 ^ 64 - 1 < ds.foldl (fun n c => n * 10 + (c - 48)) n) :
    parseUintLoop s0 ds n = .error ⟨str "ParseUint", s0, .ErrRange⟩ := by
  induction ds generalizing n with
  | nil => simp only [List.foldl_nil] at hv; omega
  | cons c rest ih =>
    have hc := hd c (List.mem_cons_self _ _)
    simp only [List.foldl_cons] at hv
    have h1 : ¬ (c - 48 ≥ 10) := by omega
    norm_num at hn
    by_cases h2 : n ≥ (2 ^ 64 - 1) / 10 + 1
    · simp only [parseUintLoop, hc, and_self, if_true, h1, if_false, h2]
    · have h2b := h2
      norm_num at h2b
      have h3 : n * 10 % 2 ^ 64 = n * 10 := Nat.mod_eq_of_lt (by norm_num; omega)
      by_cases h6 : n * 10 + (c - 48) ≤ 2 ^ 64 - 1
      · have h6b := h6
        norm_num at h6b
        have h4 : (n * 10 + (c - 48)) % 2 ^ 64 = n * 10 + (c - 48) :=
          Nat.mod_eq_of_lt (by norm_num; omega)
        have h5 : ¬ (n * 10 + (c - 48) < n * 10 ∨ n * 10 + (c - 48) > 2 ^ 64 - 1) := by
          norm_num; omega
        simp only [parseUintLoop, hc, and_self, if_true, h1, if_false, h2, h3, h4, h5]
        exact ih _ h6 (fun c hc => hd c (List.mem_cons_of_mem _ hc)) hv
      · have h6b := h6
        norm_num at h6b
        have h4 : (n * 10 + (c - 48)) % 2 ^ 64 = n * 10 + (c - 48) - 2 ^ 64 := by
          rw [Nat.mod_eq_sub_mod (by norm_num; omega)]
          exact Nat.mod_eq_of_lt (by norm_num; omega)
        have h5 : (n * 10 + (c - 48) - 2 ^ 64 < n * 10 ∨
            n * 10 + (c - 48) - 2 ^ 64 > 2 ^ 64 - 1) := by
          left; norm_num; omega
        simp only [parseUintLoop, hc, and_self, if_true, h1, if_false, h2, h3, h4, h5]

theorem parseUintLoop_nondigit (s0 ds : GoString) (n : Nat)
    (hd : ¬ ∀ c ∈ ds, 48 ≤ c ∧ c ≤ 57) :
    ∃ e, parseUintLoop s0 ds n = .error e := by
  induction ds generalizing n with
  | nil => simp at hd
  | cons c rest ih =>
    by_cases hc : 48 ≤ c ∧ c ≤ 57
    · have hrest : ¬ ∀ c ∈ rest, 48 ≤ c ∧ c ≤ 57 := by
        intro h
        apply hd
        intro x hx
        rcases List.mem_cons.mp hx with rfl | hx
        · exact hc
        · exact h x hx
      have h1 : ¬ (c - 48 ≥ 10) := by omega
      simp only [parseUintLoop, hc, and_self, if_true, h1, if_false]
      split
      · exact ⟨_, rfl⟩
      · split
        · exact ⟨_, rfl⟩
        · exact ih _ hrest
    · by_cases hl : 97 ≤ lower c ∧ lower c ≤ 122
      · have h10 : lower c - 97 + 10 ≥ 10 := by omega
        simp only [parseUintLoop, hc, if_false, hl, and_self, if_true, h10]
        exact ⟨_, rfl⟩
      · simp only [parseUintLoop, hc, if_false, hl]
        exact ⟨_, rfl⟩

theorem toInt64_of_lt (v : Nat) (h : (v : Int) < 2 ^ 63) : toInt64 v = v := by
  unfold toInt64
  norm_num at h ⊢
  omega

theorem toInt64_neg (v : Nat) (h : (v : Int) ≤ 2 ^ 63) :
    toInt64 (-(toInt64 v)) = -(v : Int) := by
  unfold toInt64
  norm_num at h ⊢
  omega

theorem ParseUint_digits (ds : GoString) (hd : Spec.IsDigits ds) :
    (Spec.decimalValue ds ≤ 2 ^ 64 - 1 → ParseUint ds = .ok (Spec.decimalValue ds)) ∧
    (2 ^ 64 - 1 < Spec.decimalValue ds →
      ParseUint ds = .error ⟨str "ParseUint", ds, .ErrRange⟩) := by
  obtain ⟨hne, hall⟩ := hd
  constructor
  · intro hv
    simp only [ParseUint, hne, if_false]
    exact parseUintLoop_ok ds ds 0 hall hv
  · intro hv
    simp only [ParseUint, hne, if_false]
    exact parseUintLoop_range ds ds 0 (by norm_num) hall hv

theorem ParseUint_nondigits (ds : GoString) (hd : ¬ Spec.IsDigits ds) :
    ∃ e, ParseUint ds = .error e := by
  unfold Spec.IsDigits at hd
  by_cases hne : ds = []
  · simp only [ParseUint, hne, if_true]
    exact ⟨_, rfl⟩
  · simp only [ParseUint, hne, if_false]
    exact parseUintLoop_nondigit ds ds 0 (fun h => hd ⟨hne, h⟩)

theorem parseIntSigned_digits (s0 ds : GoString) (neg : Bool) (hd : Spec.IsDigits ds) :
    parseIntSigned s0 ds neg =
      if neg then
        if Spec.decimalValue ds ≤ 2 ^ 63 then .ok (-(Spec.decimalValue ds : Int))
        else .error ⟨str "ParseInt", s0, .ErrRange⟩
      else
        if Spec.decimalValue ds < 2 ^ 63 then .ok (Spec.decimalValue ds : Int)
        else .error ⟨str "ParseInt", s0, .ErrRange⟩ := by
  obtain ⟨hok, hrange⟩ := ParseUint_digits ds hd
  by_cases hv : Spec.decimalValue ds ≤ 2 ^ 64 - 1
  · have h1 := hok hv
    norm_num at hv
    cases neg
    · by_cases h2 : Spec.decimalValue ds < 2 ^ 63
      · have h3 : ¬ (Spec.decimalValue ds ≥ 2 ^ 63) := by omega
        have h4 := toInt64_of_lt (Spec.decimalValue ds) (by exact_mod_cast h2)
        simp only [parseIntSigned, h1, Bool.not_false, true_and, h3, if_false,
          Bool.false_eq_true, false_and, h2, if_true, h4]
      · have h3 : Spec.decimalValue ds ≥ 2 ^ 63 := by omega
        simp only [parseIntSigned, h1, Bool.not_false, true_and, h3, if_true,
          Bool.false_eq_true, if_false, h2]
    · by_cases h2 : Spec.decimalValue ds ≤ 2 ^ 63
      · have h3 : ¬ (Spec.decimalValue ds > 2 ^ 63) := by omega
        have h4 := toInt64_neg (Spec.decimalValue ds) (by exact_mod_cast h2)
        simp only [parseIntSigned, h1, Bool.not_true, Bool.false_eq_true, false_and,
          if_false, true_and, h3, if_true, h4, h2]
      · have h3 : Spec.decimalValue ds > 2 ^ 63 := by omega
        simp only [parseIntSigned, h1, Bool.not_true, Bool.false_eq_true, false_and,
          if_false, true_and, h3, if_true, h2]
  · have h1 := hrange (by omega)
    norm_num at hv
    have h2 : ¬ (Spec.decimalValue ds ≤ 2 ^ 63) := by norm_num; omega
    have h3 : ¬ (Spec.decimalValue ds < 2 ^ 63) := by norm_num; omega
    cases neg
    · simp only [parseIntSigned, h1, ne_eq, not_true_eq_false, if_false, Bool.not_false,
        true_and, ge_iff_le, Bool.false_eq_true, h3]
      norm_num
    · simp only [parseIntSigned, h1, ne_eq, not_true_eq_false, if_false, Bool.not_true,
        Bool.false_eq_true, false_and, true_and, gt_iff_lt, if_true, h2]
      norm_num

theorem parseIntSigned_nondigits (s0 ds : GoString) (neg : Bool)
    (hd : ¬ Spec.IsDigits ds) :
    ∃ k, parseIntSigned s0 ds neg = .error ⟨str "ParseInt", s0, k⟩ := by
  obtain ⟨e, he⟩ := ParseUint_nondigits ds hd
  by_cases hk : e.Err = .ErrRange
  · refine ⟨.ErrRange, ?_⟩
    cases neg
    · simp only [parseIntSigned, he, hk, ne_eq, not_true_eq_false, if_false, Bool.not_false,
        true_and, ge_iff_le]
      norm_num
    · simp only [parseIntSigned, he, hk, ne_eq, not_true_eq_false, if_false, Bool.not_true,
        Bool.false_eq_true, false_and, true_and, gt_iff_lt]
      norm_num
  · exact ⟨e.Err, by simp only [parseIntSigned, he, ne_eq, hk, not_false_eq_true, if_true]⟩

theorem ParseInt_eq (tok : GoString) (hne : tok ≠ []) :
    ParseInt tok = parseIntSigned tok (Spec.unsignedPart tok) (Spec.isNegative tok) := by
  cases tok with
  | nil => exact absurd rfl hne
  | cons c rest =>
    by_cases h43 : c = 43
    · subst h43
      simp [ParseInt, Spec.unsignedPart, Spec.isNegative]
    · by_cases h45 : c = 45
      · subst h45
        simp [ParseInt, Spec.unsignedPart, Spec.isNegative]
      · have e1 : Spec.unsignedPart (c :: rest) = c :: rest := by
          unfold Spec.unsignedPart
          split
          · rename_i h; simp only [List.cons.injEq] at h; exact absurd h.1 h43
          · rename_i h; simp only [List.cons.injEq] at h; exact absurd h.1 h45
          · rfl
        have e2 : Spec.isNegative (c :: rest) = false := by
          unfold Spec.isNegative
          split
          · rename_i h; simp only [List.cons.injEq] at h; exact absurd h.1 h45
          · rfl
        simp [ParseInt, e1, e2, h43, h45]

/-- The three outcomes of `ParseInt`: the value of a literal in range, the range error
for a literal out of range, an error for any other token. -/
theorem ParseInt_cases (tok : GoString) :
    (Spec.IsInt64Literal tok ∧ ParseInt tok = .ok (Spec.intValue tok)) ∨
    (Spec.IsSignedDecimal tok ∧ ¬ Spec.IsInt64Literal tok ∧
      ParseInt tok = .error ⟨str "ParseInt", tok, .ErrRange⟩) ∨
    (¬ Spec.IsSignedDecimal tok ∧ ∃ k, ParseInt tok = .error ⟨str "ParseInt", tok, k⟩) := by
  by_cases hne : tok = []
  · subst hne
    right; right
    exact ⟨by decide, .ErrSyntax, rfl⟩
  rw [ParseInt_eq tok hne]
  by_cases hd : Spec.IsDigits (Spec.unsignedPart tok)
  · rw [parseIntSigned_digits tok _ _ hd]
    have hnn : (0 : Int) ≤ (Spec.decimalValue (Spec.unsignedPart tok) : Int) :=
      Int.natCast_nonneg _
    cases hneg : Spec.isNegative tok
    · by_cases hv : Spec.decimalValue (Spec.unsignedPart tok) < 2 ^ 63
      · left
        have hv2 : (Spec.decimalValue (Spec.unsignedPart tok) : Int) < 2 ^ 63 := by
          exact_mod_cast hv
        refine ⟨⟨hd, ?_, ?_⟩, ?_⟩
        · simp only [Spec.intValue, hneg, Bool.false_eq_true, if_false]
          norm_num at hv2 ⊢; omega
        · simp only [Spec.intValue, hneg, Bool.false_eq_true, if_false]
          norm_num at hv2 ⊢; omega
        · simp only [Bool.false_eq_true, if_false, hv, if_true, Spec.intValue, hneg]
      · right; left
        have hv2 : ¬ (Spec.decimalValue (Spec.unsignedPart tok) : Int) < 2 ^ 63 := by
          exact_mod_cast hv
        refine ⟨hd, ?_, ?_⟩
        · rintro ⟨_, _, h3⟩
          simp only [Spec.intValue, hneg, Bool.false_eq_true, if_false] at h3
          norm_num at hv2 h3; omega
        · simp only [Bool.false_eq_true, if_false, hv]
    · by_cases hv : Spec.decimalValue (Spec.unsignedPart tok) ≤ 2 ^ 63
      · left
        have hv2 : (Spec.decimalValue (Spec.unsignedPart tok) : Int) ≤ 2 ^ 63 := by
          exact_mod_cast hv
        refine ⟨⟨hd, ?_, ?_⟩, ?_⟩
        · simp only [Spec.intValue, hneg, if_true]
          norm_num at hv2 ⊢; omega
        · simp only [Spec.intValue, hneg, if_true]
          norm_num at hv2 ⊢; omega
        · simp only [if_true, hv, Spec.intValue, hneg]
      · right; left
        have hv2 : ¬ (Spec.decimalValue (Spec.unsignedPart tok) : Int) ≤ 2 ^ 63 := by
          exact_mod_cast hv
        refine ⟨hd, ?_, ?_⟩
        · rintro ⟨_, h2, _⟩
          simp only [Spec.intValue, hneg, if_true] at h2
          norm_num at hv2 h2; omega
        · simp only [if_true, hv, if_false]
  · right; right
    exact ⟨hd, parseIntSigned_nondigits tok _ _ hd⟩

theorem ParseInt_ok_iff (tok : GoString) (v : Int) :
    ParseInt tok = .ok v ↔ Spec.IsInt64Literal tok ∧ v = Spec.intValue tok := by
  rcases ParseInt_cases tok with ⟨h1, h2⟩ | ⟨h1, h2, h3⟩ | ⟨h1, k, h3⟩
  · rw [h2]
    simp only [Except.ok.injEq, h1, true_and]
    exact eq_comm
  · rw [h3]
    simp only [reduceCtorEq, false_iff, not_and]
    exact fun h => absurd h h2
  · rw [h3]
    simp only [reduceCtorEq, false_iff, not_and]
    exact fun h => absurd h.1 h1

theorem parseRecord_single (line tok : GoString) (rest : List GoString) (key : Nat)
    (h : Fields line = tok :: rest) :
    parseRecord line [(key, 0)] [(key, 0)] =
      match assignField key tok {} with
      | .error err => .error err
      | .ok record => .ok record := by
  simp only [parseRecord, h, FieldIndex.len, List.length_cons, List.length_nil,
    parseRecordLoop, List.getD_cons_zero]
  have h1 : ¬ (rest.length + 1 < 0 + 1) := by omega
  have h2 : ¬ (0 ≥ rest.length + 1) := by omega
  simp only [h1, if_false, h2]

theorem parseRecord_int_column (line : GoString) (fi : FieldIndex)
    (order : List (Nat × Nat)) (rec : Record) (a : Attribute) (k i : Nat) (tok : GoString)
    (hv : fi.Valid) (ho : fi.IsRange order) (ha : a.code = some k)
    (hk : fi.get? k = some i) (htok : (Fields line).get? i = some tok)
    (h : parseRecord line fi order = .ok rec) :
    coerce k tok = .ok (rec.get a) := by
  obtain ⟨hi, hgd⟩ := getD_of_get? _ _ _ htok
  rw [parseRecord_eq] at h
  split at h
  · exact absurd h (by simp)
  · have := parseRecordLoop_value _ _ _ _ a k i h (IsRange_nodup fi order hv ho)
      ((IsRange_mem fi order hv ho k i).mpr hk) hi ha
    rw [hgd] at this
    exact this

/-- C9: `ParseInt` on the token of the `S` or `V` column succeeds exactly on an optional
single sign followed by one or more ASCII decimal digits whose value lies in
`[-2^63, 2^63 - 1]`; the result is that value, without wrap-around, and it is what
`parseRecord` stores in CompressedRecordSize (`S`) or CompressedArcOffset (`V`); a literal
whose value is out of range gives the range error, which `parseRecord` returns wrapped in
the invalid-integer error of the column. -/
theorem ParseInt_int64 (tok : GoString) :
    ((∃ v, ParseInt tok = .ok v) ↔ Spec.IsInt64Literal tok) ∧
    (∀ v, ParseInt tok = .ok v →
      v = Spec.intValue tok ∧ -(2 : Int) ^ 63 ≤ v ∧ v ≤ 2 ^ 63 - 1) ∧
    (Spec.IsSignedDecimal tok →
      ¬ (-(2 : Int) ^ 63 ≤ Spec.intValue tok ∧ Spec.intValue tok ≤ 2 ^ 63 - 1) →
      ParseInt tok = .error ⟨str "ParseInt", tok, .ErrRange⟩) ∧
    (∀ line rest, Fields line = tok :: rest →
      parseRecord line [(83, 0)] [(83, 0)] =
        match ParseInt tok with
        | .error err => .error (.invalidCompressedRecordSize err)
        | .ok n => .ok { CompressedRecordSize := n }) ∧
    (∀ line rest, Fields line = tok :: rest →
      parseRecord line [(86, 0)] [(86, 0)] =
        match ParseInt tok with
        | .error err => .error (.invalidCompressedArcOffset err)
        | .ok n => .ok { CompressedArcOffset := n }) ∧
    (∀ line fi order rec i, FieldIndex.Valid fi → FieldIndex.IsRange fi order →
      fi.get? 83 = some i → (Fields line).get? i = some tok →
      parseRecord line fi order = .ok rec →
      Spec.IsInt64Literal tok ∧ rec.CompressedRecordSize = Spec.intValue tok) ∧
    (∀ line fi order rec i, FieldIndex.Valid fi → FieldIndex.IsRange fi order →
      fi.get? 86 = some i → (Fields line).get? i = some tok →
      parseRecord line fi order = .ok rec →
      Spec.IsInt64Literal tok ∧ rec.CompressedArcOffset = Spec.intValue tok) := by
  refine ⟨?_, ?_, ?_, ?_, ?_, ?_, ?_⟩
  · constructor
    · rintro ⟨v, hv⟩
      exact ((ParseInt_ok_iff tok v).mp hv).1
    · intro h
      exact ⟨_, (ParseInt_ok_iff tok _).mpr ⟨h, rfl⟩⟩
  · intro v hv
    obtain ⟨h1, h2⟩ := (ParseInt_ok_iff tok v).mp hv
    subst h2
    exact ⟨rfl, h1.2⟩
  · intro hd hr
    rcases ParseInt_cases tok with ⟨h1, _⟩ | ⟨_, _, h3⟩ | ⟨h1, _⟩
    · exact absurd h1.2 hr
    · exact h3
    · exact absurd hd h1
  · intro line rest hf
    rw [parseRecord_single line tok rest 83 hf]
    simp only [assignField, Nat.reduceEqDiff, if_true, if_false]
    cases ParseInt tok <;> rfl
  · intro line rest hf
    rw [parseRecord_single line tok rest 86 hf]
    simp only [assignField, Nat.reduceEqDiff, if_true, if_false]
    cases ParseInt tok <;> rfl
  · intro line fi order rec i hv ho hk htok h
    have hc := parseRecord_int_column line fi order rec .CompressedRecordSize 83 i tok hv ho
      rfl hk htok h
    simp only [coerce, Nat.reduceEqDiff, if_true, if_false, Record.get] at hc
    split at hc
    · exact absurd hc (by simp)
    · rename_i n hn
      simp only [Except.ok.injEq, Value.int.injEq] at hc
      obtain ⟨h1, h2⟩ := (ParseInt_ok_iff tok n).mp hn
      exact ⟨h1, by rw [← hc, h2]⟩
  · intro line fi order rec i hv ho hk htok h
    have hc := parseRecord_int_column line fi order rec .CompressedArcOffset 86 i tok hv ho
      rfl hk htok h
    simp only [coerce, Nat.reduceEqDiff, if_true, if_false, Record.get] at hc
    split at hc
    · exact absurd hc (by simp)
    · rename_i n hn
      simp only [Except.ok.injEq, Value.int.injEq] at hc
      obtain ⟨h1, h2⟩ := (ParseInt_ok_iff tok n).mp hn
      exact ⟨h1, by rw [← hc, h2]⟩

/-! ## time.Parse -/

/-- Success of `parseTime`, step by step. -/
theorem parseTime_ok_iff (tok : GoString) (t : Time) :
    parseTime tok = .ok t ↔
      ∃ year month v2 day v3 hour v4 min v5 sec v6 nsec,
        4 ≤ tok.length ∧ isDigit tok 0 = true ∧ atoi (tok.take 4) = some year ∧
        getnum (tok.drop 4) true = some (month, v2) ∧ 1 ≤ month ∧ month ≤ 12 ∧
        getnum v2 true = some (day, v3) ∧
        getnum v3 false = some (hour, v4) ∧ hour < 24 ∧
        getnum v4 true = some (min, v5) ∧ min < 60 ∧
        getnum v5 true = some (sec, v6) ∧ sec < 60 ∧
        fracSecond v6 = some (nsec, []) ∧
        1 ≤ day ∧ day ≤ daysIn month year ∧
        t = Date year month day hour min sec nsec := by
  constructor
  · intro h
    unfold parseTime at h
    simp only at h
    split at h
    · exact absurd h (by simp)
    rename_i h0
    split at h
    · exact absurd h (by simp)
    rename_i year hy
    split at h
    · exact absurd h (by simp)
    rename_i month v2 hm
    split at h
    · exact absurd h (by simp)
    rename_i hmr
    split at h
    · exact absurd h (by simp)
    rename_i day v3 hd
    split at h
    · exact absurd h (by simp)
    rename_i hour v4 hh
    split at h
    · exact absurd h (by simp)
    rename_i hhr
    split at h
    · exact absurd h (by simp)
    rename_i min v5 hmi
    split at h
    · exact absurd h (by simp)
    rename_i hmir
    split at h
    · exact absurd h (by simp)
    rename_i sec v6 hs
    split at h
    · exact absurd h (by simp)
    rename_i hsr
    split at h
    · exact absurd h (by simp)
    rename_i nsec v7 hf
    split at h
    · exact absurd h (by simp)
    rename_i hv7
    split at h
    · exact absurd h (by simp)
    rename_i hdr
    simp only [Except.ok.injEq] at h
    simp only [ne_eq, not_not, List.length_eq_zero] at hv7
    subst hv7
    simp only [not_or, not_lt, Bool.not_eq_true, Bool.not_eq_false', not_le] at h0 hmr hdr hhr hmir hsr
    have h0b : isDigit tok 0 = true := by
      cases hx : isDigit tok 0
      · rw [hx] at h0; exact absurd h0.2 (by decide)
      · rfl
    exact ⟨year, month, v2, day, v3, hour, v4, min, v5, sec, v6, nsec, h0.1, h0b, hy, hm,
      by omega, by omega, hd, hh, by omega, hmi, by omega, hs, by omega, hf, by omega,
      by omega, h.symm⟩
  · rintro ⟨year, month, v2, day, v3, hour, v4, min, v5, sec, v6, nsec, h1, h2, hy, hm, hm1,
      hm2, hd, hh, hh1, hmi, hmi1, hs, hs1, hf, hd1, hd2, rfl⟩
    unfold parseTime
    have e0 : ¬ (tok.length < 4 ∨ (!isDigit tok 0) = true) := by
      simp only [h2, Bool.not_true, Bool.false_eq_true, or_false, not_lt]; exact h1
    have e1 : ¬ (month ≤ 0 ∨ 12 < month) := by omega
    have e2 : ¬ (24 ≤ hour) := by omega
    have e3 : ¬ (60 ≤ min) := by omega
    have e4 : ¬ (60 ≤ sec) := by omega
    have e5 : ¬ (day < 1 ∨ day > daysIn month year) := by omega
    simp only [e0, if_false, hy, hm, e1, hd, hh, e2, hmi, e3, hs, e4, hf, List.length_nil,
      ne_eq, not_true_eq_false, e5]
theorem isDigit_zero (a : Nat) (r : GoString) :
    isDigit (a :: r) 0 = true ↔ (48 ≤ a ∧ a ≤ 57) := by
  simp [isDigit]

theorem isDigit_one (a b : Nat) (r : GoString) :
    isDigit (a :: b :: r) 1 = true ↔ (48 ≤ b ∧ b ≤ 57) := by
  simp [isDigit]

theorem getnum_fixed_iff (s rest : GoString) (n : Nat) :
    getnum s true = some (n, rest) ↔
      ∃ a b, s = a :: b :: rest ∧ (48 ≤ a ∧ a ≤ 57) ∧ (48 ≤ b ∧ b ≤ 57) ∧
        n = (a - 48) * 10 + (b - 48) := by
  cases s with
  | nil => simp [getnum, isDigit]
  | cons a s1 =>
    cases s1 with
    | nil => simp [getnum, isDigit]
    | cons b r =>
      by_cases ha : 48 ≤ a ∧ a ≤ 57
      · by_cases hb : 48 ≤ b ∧ b ≤ 57
        · have h0 := (isDigit_zero a (b :: r)).mpr ha
          have h1 := (isDigit_one a b r).mpr hb
          simp only [getnum, h0, h1, Bool.not_true, Bool.false_eq_true, if_false,
            List.headD_cons, List.getD_cons_succ, List.getD_cons_zero, List.drop_succ_cons,
            List.drop_zero, Option.some.injEq, Prod.mk.injEq, List.cons.injEq]
          constructor
          · rintro ⟨rfl, rfl⟩
            exact ⟨a, b, ⟨rfl, rfl, rfl⟩, ha, hb, rfl⟩
          · rintro ⟨a2, b2, ⟨rfl, rfl, rfl⟩, _, _, rfl⟩
            exact ⟨rfl, rfl⟩
        · have h0 := (isDigit_zero a (b :: r)).mpr ha
          have h1 : isDigit (a :: b :: r) 1 = false := by
            cases hx : isDigit (a :: b :: r) 1
            · rfl
            · exact absurd ((isDigit_one a b r).mp hx) hb
          simp only [getnum, h0, h1, Bool.not_true, Bool.false_eq_true, if_false,
            Bool.not_false, if_true, reduceCtorEq, false_iff, not_exists, not_and,
            List.cons.injEq]
          rintro a2 b2 ⟨rfl, rfl, rfl⟩ _ hb2
          exact absurd hb2 hb
      · have h0 : isDigit (a :: b :: r) 0 = false := by
          cases hx : isDigit (a :: b :: r) 0
          · rfl
          · exact absurd ((isDigit_zero a (b :: r)).mp hx) ha
        simp only [getnum, h0, Bool.not_false, if_true, reduceCtorEq, false_iff, not_exists,
          not_and, List.cons.injEq]
        rintro a2 b2 ⟨rfl, rfl, rfl⟩ ha2
        exact absurd ha2 ha

/-- The hour is read with `fixed = false`: two digits, or one digit that no digit
follows. -/
theorem getnum_free (s rest : GoString) (n : Nat) (h : getnum s false = some (n, rest)) :
    (∃ a b, s = a :: b :: rest ∧ (48 ≤ a ∧ a ≤ 57) ∧ (48 ≤ b ∧ b ≤ 57) ∧
        n = (a - 48) * 10 + (b - 48)) ∨
    isDigit rest 0 = false := by
  cases hb : isDigit s 1
  · right
    cases s with
    | nil => simp [getnum, isDigit] at h
    | cons a s1 =>
      by_cases h0 : isDigit (a :: s1) 0 = true
      · simp only [getnum, h0, hb, Bool.not_true, Bool.false_eq_true, if_false,
          Bool.not_false, if_true, List.drop_succ_cons, List.drop_zero, Option.some.injEq,
          Prod.mk.injEq] at h
        obtain ⟨_, rfl⟩ := h
        cases s1 with
        | nil => simp [isDigit]
        | cons b r =>
          simp only [isDigit, List.get?_cons_succ, List.get?_cons_zero] at hb ⊢
          exact hb
      · simp only [Bool.not_eq_true] at h0
        simp [getnum, h0] at h
  · left
    have h2 : getnum s true = some (n, rest) := by
      by_cases h0 : isDigit s 0 = true
      · simp only [getnum, h0, hb, Bool.not_true, Bool.false_eq_true, if_false] at h ⊢
        exact h
      · simp only [Bool.not_eq_true] at h0
        simp [getnum, h0] at h
    exact (getnum_fixed_iff s rest n).mp h2

theorem getnum_fixed_none (s : GoString) (h : isDigit s 0 = false) :
    getnum s true = none := by
  simp [getnum, h]
theorem foldl_digits_lt (ds : GoString) (x : Nat) (hd : ∀ c ∈ ds, 48 ≤ c ∧ c ≤ 57) :
    ds.foldl (fun n c => n * 10 + (c - 48)) x < (x + 1) * 10 ^ ds.length := by
  induction ds generalizing x with
  | nil => simp
  | cons c rest ih =>
    have hc := hd c (List.mem_cons_self _ _)
    simp only [List.foldl_cons, List.length_cons]
    have h1 := ih (x * 10 + (c - 48)) (fun c hc => hd c (List.mem_cons_of_mem _ hc))
    have h2 : (x * 10 + (c - 48) + 1) * 10 ^ rest.length ≤ (x + 1) * 10 ^ (rest.length + 1) := by
      rw [pow_succ, ← Nat.mul_assoc, Nat.mul_comm (x + 1) (10 ^ rest.length),
        Nat.mul_comm _ (10 ^ rest.length), Nat.mul_assoc]
      apply Nat.mul_le_mul_left
      omega
    omega

theorem leadingInt_digits (ds : GoString) (x : Nat) (hd : ∀ c ∈ ds, 48 ≤ c ∧ c ≤ 57)
    (hv : ds.foldl (fun n c => n * 10 + (c - 48)) x ≤ 2 ^ 63 / 10) :
    leadingInt ds x = some (ds.foldl (fun n c => n * 10 + (c - 48)) x, []) := by
  induction ds generalizing x with
  | nil => simp [leadingInt]
  | cons c rest ih =>
    have hc := hd c (List.mem_cons_self _ _)
    simp only [List.foldl_cons] at hv ⊢
    have hge := foldl_digits_ge rest (x * 10 + (c - 48))
    norm_num at hv
    have h1 : ¬ (c < 48 ∨ c > 57) := by omega
    have h2 : ¬ (x > 2 ^ 63 / 10) := by norm_num; omega
    have h3 : x * 10 + c - 48 = x * 10 + (c - 48) := by omega
    have h4 : ¬ (x * 10 + (c - 48) > 2 ^ 63) := by norm_num; omega
    simp only [leadingInt, h1, if_false, h2, h3, h4]
    exact ih _ (fun c hc => hd c (List.mem_cons_of_mem _ hc)) (by norm_num; omega)

theorem leadingInt_nondigit (ds : GoString) (x : Nat)
    (hd : ¬ ∀ c ∈ ds, 48 ≤ c ∧ c ≤ 57) :
    leadingInt ds x = none ∨ ∃ q rem, leadingInt ds x = some (q, rem) ∧ rem ≠ [] := by
  induction ds generalizing x with
  | nil => simp at hd
  | cons c rest ih =>
    by_cases hc : 48 ≤ c ∧ c ≤ 57
    · have hrest : ¬ ∀ c ∈ rest, 48 ≤ c ∧ c ≤ 57 := by
        intro h
        apply hd
        intro y hy
        rcases List.mem_cons.mp hy with rfl | hy
        · exact hc
        · exact h y hy
      have h1 : ¬ (c < 48 ∨ c > 57) := by omega
      simp only [leadingInt, h1, if_false]
      split
      · exact Or.inl rfl
      · split
        · exact Or.inl rfl
        · exact ih _ hrest
    · have h1 : c < 48 ∨ c > 57 := by omega
      simp only [leadingInt, h1, if_true]
      exact Or.inr ⟨x, c :: rest, rfl, by simp⟩

/-- On a string of digits that starts with a digit and whose value is small, `atoi` of
package time returns the value. -/
theorem atoi_digits (ds : GoString) (hd : Spec.IsDigits ds)
    (hv : Spec.decimalValue ds ≤ 2 ^ 63 / 10) :
    atoi ds = some (Spec.decimalValue ds : Int) := by
  obtain ⟨hne, hall⟩ := hd
  cases ds with
  | nil => exact absurd rfl hne
  | cons c rest =>
    have hc := hall c (List.mem_cons_self _ _)
    have h45 : ¬ c = 45 := by omega
    have h43 : ¬ c = 43 := by omega
    have hl := leadingInt_digits (c :: rest) 0 hall hv
    have hv2 := hv
    norm_num at hv2
    have ht := toInt64_of_lt (Spec.decimalValue (c :: rest)) (by
      have : (Spec.decimalValue (c :: rest) : Int) ≤ 922337203685477580 := by
        exact_mod_cast hv2
      norm_num; omega)
    unfold Spec.decimalValue at ht hv2 ⊢
    simp only [atoi, h45, h43, decide_False, Bool.or_self, Bool.false_and, Bool.false_eq_true,
      if_false, hl, List.length_nil, gt_iff_lt, lt_self_iff_false, ht]

theorem atoi_nondigits (ds : GoString) (c : Nat) (rest : GoString) (hds : ds = c :: rest)
    (hc : 48 ≤ c ∧ c ≤ 57) (hd : ¬ ∀ c ∈ ds, 48 ≤ c ∧ c ≤ 57) : atoi ds = none := by
  subst hds
  have h45 : ¬ c = 45 := by omega
  have h43 : ¬ c = 43 := by omega
  rcases leadingInt_nondigit (c :: rest) 0 hd with h | ⟨q, rem, h, hrem⟩
  · simp only [atoi, h45, h43, decide_False, Bool.or_self, Bool.false_and,
      Bool.false_eq_true, if_false, h]
  · have : rem.length > 0 := List.length_pos.mpr hrem
    simp only [atoi, h45, h43, decide_False, Bool.or_self, Bool.false_and,
      Bool.false_eq_true, if_false, h, this, if_true]
theorem digitRun_all (r : GoString) (h : ∀ c ∈ r, 48 ≤ c ∧ c ≤ 57) :
    digitRun r = r.length := by
  induction r with
  | nil => rfl
  | cons c rest ih =>
    have hc := h c (List.mem_cons_self _ _)
    simp only [digitRun, hc, and_self, if_true, List.length_cons,
      ih (fun c hc => h c (List.mem_cons_of_mem _ hc))]

theorem digitRun_drop (r : GoString) (h : r.drop (digitRun r) = []) :
    ∀ c ∈ r, 48 ≤ c ∧ c ≤ 57 := by
  induction r with
  | nil => simp
  | cons c rest ih =>
    by_cases hc : 48 ≤ c ∧ c ≤ 57
    · simp only [digitRun, hc, and_self, if_true, List.drop_succ_cons] at h
      intro x hx
      rcases List.mem_cons.mp hx with rfl | hx
      · exact hc
      · exact ih h x hx
    · simp only [digitRun, hc, if_false, List.drop_zero] at h
      exact absurd h (by simp)

theorem nanos_lt (ds : GoString) (hd : ∀ c ∈ ds, 48 ≤ c ∧ c ≤ 57) :
    Spec.decimalValue (ds.take 9) < 10 ^ 9 := by
  have h := foldl_digits_lt (ds.take 9) 0 (fun c hc => hd c (List.mem_of_mem_take hc))
  have hl : (ds.take 9).length ≤ 9 := by simp
  have : 10 ^ (ds.take 9).length ≤ 10 ^ 9 := Nat.pow_le_pow_right (by norm_num) hl
  unfold Spec.decimalValue
  omega

theorem parseNanoseconds_digits (sep d1 : Nat) (r : GoString)
    (hsep : sep = 46 ∨ sep = 44) (hd : ∀ c ∈ d1 :: r, 48 ≤ c ∧ c ≤ 57) :
    parseNanoseconds (sep :: d1 :: r) (2 + r.length) = some (Spec.nanos (d1 :: r)) := by
  have hcp : commaOrPeriod sep = true := by
    rcases hsep with rfl | rfl <;> decide
  have hlt := nanos_lt (d1 :: r) hd
  have hdig : Spec.IsDigits ((d1 :: r).take 9) :=
    ⟨by simp, fun c hc => hd c (List.mem_of_mem_take hc)⟩
  have hat := atoi_digits _ hdig (by norm_num at hlt ⊢; omega)
  by_cases hn : 2 + r.length > 10
  · have e1 : (List.take 10 (List.take 10 (sep :: d1 :: r))).drop 1 = (d1 :: r).take 9 := by
      simp
    have e2 : ((d1 :: r).take 9).length = 9 := by
      simp only [List.length_take, List.length_cons]; omega
    simp only [parseNanoseconds, List.headD_cons, hcp, Bool.not_true, Bool.false_eq_true,
      if_false, hn, if_true, e1, hat, Int.natCast_nonneg, not_lt.mpr, Int.toNat_ofNat,
      Spec.nanos, e2]
  · have e1 : (List.take (2 + r.length) (sep :: d1 :: r)).drop 1 = (d1 :: r).take 9 := by
      have : 2 + r.length = (1 + r.length) + 1 := by omega
      rw [this, List.take_succ_cons, List.drop_succ_cons, List.drop_zero]
      rw [List.take_of_length_le (by simp; omega), List.take_of_length_le (by simp; omega)]
    have e2 : ((d1 :: r).take 9).length = r.length + 1 := by
      simp only [List.length_take, List.length_cons]; omega
    have e3 : 10 - (2 + r.length) = 9 - (r.length + 1) := by omega
    simp only [parseNanoseconds, List.headD_cons, hcp, Bool.not_true, Bool.false_eq_true,
      if_false, hn, e1, hat, Int.natCast_nonneg, not_lt.mpr, Int.toNat_ofNat,
      Spec.nanos, e2, e3]

/-- The fractional-second block leaves no text exactly when the value is empty or is a
period or comma followed by digits only. -/
theorem fracSecond_iff (v : GoString) (nsec : Nat) :
    fracSecond v = some (nsec, []) ↔
      (v = [] ∧ nsec = 0) ∨ (Spec.IsFraction v ∧ nsec = Spec.nanos (v.drop 1)) := by
  cases v with
  | nil =>
    have e : fracSecond [] = some (0, []) := by decide
    rw [e]
    simp only [Option.some.injEq, Prod.mk.injEq, and_true, true_and, Spec.IsFraction,
      false_and, or_false]
    exact eq_comm
  | cons sep v1 =>
    cases v1 with
    | nil =>
      simp only [fracSecond, List.length_cons, List.length_nil, ge_iff_le,
        Nat.reduceLeDiff, false_and, if_false, Option.some.injEq, Prod.mk.injEq,
        reduceCtorEq, and_false, Spec.IsFraction, Spec.IsDigits, ne_eq, not_true_eq_false,
        or_self]
    | cons d1 r =>
      have hlen : (sep :: d1 :: r).length ≥ 2 := by simp
      by_cases hcond : commaOrPeriod sep = true ∧ isDigit (sep :: d1 :: r) 1 = true
      · obtain ⟨hcp, hdg⟩ := hcond
        have hd1 := (isDigit_one sep d1 r).mp hdg
        have hsep : sep = 46 ∨ sep = 44 := by
          simpa [commaOrPeriod] using hcp
        by_cases hall : ∀ c ∈ r, 48 ≤ c ∧ c ≤ 57
        · have hall2 : ∀ c ∈ d1 :: r, 48 ≤ c ∧ c ≤ 57 := by
            intro c hc
            rcases List.mem_cons.mp hc with rfl | hc
            · exact hd1
            · exact hall c hc
          have hpn := parseNanoseconds_digits sep d1 r hsep hall2
          have hdrop : List.drop (2 + r.length) (sep :: d1 :: r) = [] :=
            List.drop_of_length_le (by simp; omega)
          simp only [fracSecond, hlen, List.headD_cons, hcp, hdg, and_self, if_true,
            List.drop_succ_cons, List.drop_zero, digitRun_all r hall, hpn, hdrop,
            Option.some.injEq, Prod.mk.injEq, and_true, reduceCtorEq, false_and, false_or,
            Spec.IsFraction, Spec.IsDigits, ne_eq, not_false_eq_true, true_and]
          constructor
          · intro h; exact ⟨⟨hsep, hall2⟩, h.symm⟩
          · intro h; exact h.2.symm
        · have hne : List.drop (2 + digitRun r) (sep :: d1 :: r) ≠ [] := by
            intro h
            apply hall
            apply digitRun_drop
            have : 2 + digitRun r = (digitRun r + 1) + 1 := by omega
            rw [this, List.drop_succ_cons, List.drop_succ_cons] at h
            exact h
          have hrhs : ¬ (Spec.IsFraction (sep :: d1 :: r)) := by
            rintro ⟨_, _, h⟩
            exact hall (fun c hc => h c (List.mem_cons_of_mem _ hc))
          simp only [fracSecond, hlen, List.headD_cons, hcp, hdg, and_self, if_true,
            List.drop_succ_cons, List.drop_zero, reduceCtorEq, false_and, hrhs, or_self,
            iff_false]
          cases parseNanoseconds (sep :: d1 :: r) (2 + digitRun r) with
          | none => simp
          | some x =>
            simp only [Option.some.injEq, Prod.mk.injEq, not_and]
            intro _ h
            exact hne h
      · have hrhs : ¬ (Spec.IsFraction (sep :: d1 :: r)) := by
          rintro ⟨hsep, _, h⟩
          apply hcond
          refine ⟨?_, (isDigit_one sep d1 r).mpr (h d1 (List.mem_cons_self _ _))⟩
          rcases hsep with rfl | rfl <;> decide
        have hc2 : ¬ ((sep :: d1 :: r).length ≥ 2 ∧ commaOrPeriod sep = true ∧
            isDigit (sep :: d1 :: r) 1 = true) := fun h => hcond h.2
        simp only [fracSecond, List.headD_cons, hc2, if_false, Option.some.injEq,
          Prod.mk.injEq, reduceCtorEq, and_false, false_and, hrhs, or_self]
theorem getnum_free_digits (a b : Nat) (rest : GoString) (ha : 48 ≤ a ∧ a ≤ 57)
    (hb : 48 ≤ b ∧ b ≤ 57) :
    getnum (a :: b :: rest) false = some ((a - 48) * 10 + (b - 48), rest) := by
  have h0 := (isDigit_zero a (b :: rest)).mpr ha
  have h1 := (isDigit_one a b rest).mpr hb
  simp only [getnum, h0, h1, Bool.not_true, Bool.false_eq_true, if_false,
    List.headD_cons, List.getD_cons_succ, List.getD_cons_zero, List.drop_succ_cons,
    List.drop_zero]

theorem atoi_four (a b c d : Nat) (ha : 48 ≤ a ∧ a ≤ 57) (year : Int) :
    atoi [a, b, c, d] = some year ↔
      (48 ≤ b ∧ b ≤ 57) ∧ (48 ≤ c ∧ c ≤ 57) ∧ (48 ≤ d ∧ d ≤ 57) ∧
        year = (Spec.decimalValue [a, b, c, d] : Int) := by
  by_cases hall : ∀ x ∈ [a, b, c, d], 48 ≤ x ∧ x ≤ 57
  · have hd : Spec.IsDigits [a, b, c, d] := ⟨by simp, hall⟩
    have hlt := foldl_digits_lt [a, b, c, d] 0 hall
    have hv : Spec.decimalValue [a, b, c, d] ≤ 2 ^ 63 / 10 := by
      unfold Spec.decimalValue
      norm_num at hlt ⊢
      omega
    rw [atoi_digits _ hd hv]
    simp only [List.mem_cons, List.mem_singleton, forall_eq_or_imp, forall_eq,
      List.not_mem_nil, false_implies, implies_true, and_true] at hall
    simp only [Option.some.injEq, hall.2.1, hall.2.2.1, hall.2.2.2, and_self, true_and]
    exact eq_comm
  · rw [atoi_nondigits _ a [b, c, d] rfl ha hall]
    simp only [reduceCtorEq, false_iff, not_and]
    intro hb hc hd
    exfalso
    apply hall
    simp only [List.mem_cons, List.mem_singleton, forall_eq_or_imp, forall_eq,
      List.not_mem_nil, false_implies, implies_true, and_true]
    exact ⟨ha, hb, hc, hd⟩

/-- Success of `parseTime` in terms of the bytes of the token: fourteen digits, the
ranges of the fields, and the fractional-second block on what follows. -/
theorem parseTime_bytes (tok : GoString) (t : Time) :
    parseTime tok = .ok t ↔
      ∃ a b c d e f g h i j k l m n suffix nsec,
        tok = a :: b :: c :: d :: e :: f :: g :: h :: i :: j :: k :: l :: m :: n :: suffix ∧
        (∀ x ∈ [a, b, c, d, e, f, g, h, i, j, k, l, m, n], 48 ≤ x ∧ x ≤ 57) ∧
        1 ≤ (e - 48) * 10 + (f - 48) ∧ (e - 48) * 10 + (f - 48) ≤ 12 ∧
        1 ≤ (g - 48) * 10 + (h - 48) ∧
        (g - 48) * 10 + (h - 48) ≤
          daysIn ((e - 48) * 10 + (f - 48)) (Spec.decimalValue [a, b, c, d] : Int) ∧
        (i - 48) * 10 + (j - 48) < 24 ∧ (k - 48) * 10 + (l - 48) < 60 ∧
        (m - 48) * 10 + (n - 48) < 60 ∧
        fracSecond suffix = some (nsec, []) ∧
        t = Date (Spec.decimalValue [a, b, c, d] : Int) ((e - 48) * 10 + (f - 48))
          ((g - 48) * 10 + (h - 48)) ((i - 48) * 10 + (j - 48)) ((k - 48) * 10 + (l - 48))
          ((m - 48) * 10 + (n - 48)) nsec := by
  rw [parseTime_ok_iff]
  constructor
  · rintro ⟨year, month, v2, day, v3, hour, v4, min, v5, sec, v6, nsec, hlen, hd0, hy, hm,
      hm1, hm2, hd, hh, hh1, hmi, hmi1, hs, hs1, hf, hd1, hd2, rfl⟩
    obtain ⟨a, b, c, d, v1, rfl⟩ : ∃ a b c d v1, tok = a :: b :: c :: d :: v1 := by
      rcases tok with _ | ⟨a, _ | ⟨b, _ | ⟨c, _ | ⟨d, v1⟩⟩⟩⟩
      · simp at hlen
      · simp at hlen
      · simp at hlen
      · simp at hlen
      · exact ⟨a, b, c, d, v1, rfl⟩
    have ha := (isDigit_zero a _).mp hd0
    simp only [List.take_succ_cons, List.take_zero] at hy
    obtain ⟨hb, hc, hdd, rfl⟩ := (atoi_four a b c d ha year).mp hy
    simp only [List.drop_succ_cons, List.drop_zero] at hm
    obtain ⟨e, f, rfl, he, hf2, rfl⟩ := (getnum_fixed_iff _ _ _).mp hm
    obtain ⟨g, h, rfl, hg, hh2, rfl⟩ := (getnum_fixed_iff _ _ _).mp hd
    rcases getnum_free _ _ _ hh with ⟨i, j, rfl, hi, hj, rfl⟩ | hnd
    · obtain ⟨k, l, rfl, hk, hl, rfl⟩ := (getnum_fixed_iff _ _ _).mp hmi
      obtain ⟨m, n, rfl, hm3, hn, rfl⟩ := (getnum_fixed_iff _ _ _).mp hs
      refine ⟨a, b, c, d, e, f, g, h, i, j, k, l, m, n, v6, nsec, rfl, ?_, hm1, hm2, hd1,
        hd2, hh1, hmi1, hs1, hf, rfl⟩
      simp only [List.mem_cons, List.mem_singleton, forall_eq_or_imp, forall_eq,
        List.not_mem_nil, false_implies, implies_true, and_true]
      exact ⟨ha, hb, hc, hdd, he, hf2, hg, hh2, hi, hj, hk, hl, hm3, hn⟩
    · rw [getnum_fixed_none _ hnd] at hmi
      exact absurd hmi (by simp)
  · rintro ⟨a, b, c, d, e, f, g, h, i, j, k, l, m, n, suffix, nsec, rfl, hall, hm1, hm2, hd1,
      hd2, hh1, hmi1, hs1, hf, rfl⟩
    simp only [List.mem_cons, List.mem_singleton, forall_eq_or_imp, forall_eq,
      List.not_mem_nil, false_implies, implies_true, and_true] at hall
    obtain ⟨ha, hb, hc, hdd, he, hf2, hg, hh2, hi, hj, hk, hl, hm3, hn⟩ := hall
    refine ⟨_, _, g :: h :: i :: j :: k :: l :: m :: n :: suffix, _,
      i :: j :: k :: l :: m :: n :: suffix, _, k :: l :: m :: n :: suffix, _,
      m :: n :: suffix, _, suffix, nsec, by simp, (isDigit_zero a _).mpr ha,
      (atoi_four a b c d ha _).mpr ⟨hb, hc, hdd, rfl⟩,
      (getnum_fixed_iff _ _ _).mpr ⟨e, f, rfl, he, hf2, rfl⟩, hm1, hm2,
      (getnum_fixed_iff _ _ _).mpr ⟨g, h, rfl, hg, hh2, rfl⟩,
      getnum_free_digits i j _ hi hj, hh1,
      (getnum_fixed_iff _ _ _).mpr ⟨k, l, rfl, hk, hl, rfl⟩, hmi1,
      (getnum_fixed_iff _ _ _).mpr ⟨m, n, rfl, hm3, hn, rfl⟩, hs1, hf, hd1, hd2, rfl⟩
theorem isLeap_eq (y : Nat) : isLeap (y : Int) = Spec.isLeapYear y := by
  unfold isLeap Spec.isLeapYear
  have h4 : ((y : Int) % 4 = 0) ↔ (y % 4 = 0) := by omega
  have h100 : ((y : Int) % 100 = 0) ↔ (y % 100 = 0) := by omega
  have h400 : ((y : Int) % 400 = 0) ↔ (y % 400 = 0) := by omega
  simp only [h4, h100, h400, ne_eq]

theorem daysIn_eq (y m : Nat) (h1 : 1 ≤ m) (h2 : m ≤ 12) :
    daysIn m (y : Int) = Spec.daysInMonth y m := by
  unfold daysIn Spec.daysInMonth
  rw [isLeap_eq]
  interval_cases m <;> simp [daysBefore]

theorem decimalValue_two (x y : Nat) :
    Spec.decimalValue [x, y] = (x - 48) * 10 + (y - 48) := by
  simp [Spec.decimalValue]

/-- Success of `parseTime` in the words of the specification: a compact timestamp of 14
digits, followed by nothing or by a fractional second. -/
theorem parseTime_spec (tok : GoString) (t : Time) :
    parseTime tok = .ok t ↔
      Spec.IsCompactTimestamp (tok.take 14) ∧
      ((tok.drop 14 = [] ∧ t = Spec.instant (tok.take 14)) ∨
       (Spec.IsFraction (tok.drop 14) ∧
         t = { Spec.instant (tok.take 14) with nsec := Spec.nanos (tok.drop 15) })) := by
  rw [parseTime_bytes]
  constructor
  · rintro ⟨a, b, c, d, e, f, g, h, i, j, k, l, m, n, suffix, nsec, rfl, hall, hm1, hm2, hd1,
      hd2, hh1, hmi1, hs1, hf, rfl⟩
    rw [daysIn_eq _ _ hm1 hm2] at hd2
    have htake : List.take 14 (a :: b :: c :: d :: e :: f :: g :: h :: i :: j :: k :: l :: m
        :: n :: suffix) = [a, b, c, d, e, f, g, h, i, j, k, l, m, n] := by
      simp
    have hdrop : List.drop 14 (a :: b :: c :: d :: e :: f :: g :: h :: i :: j :: k :: l :: m
        :: n :: suffix) = suffix := by
      simp
    have hdrop2 : List.drop 15 (a :: b :: c :: d :: e :: f :: g :: h :: i :: j :: k :: l :: m
        :: n :: suffix) = suffix.drop 1 := by
      simp
    rw [htake, hdrop, hdrop2]
    refine ⟨⟨rfl, hall, ?_, ?_, ?_, ?_, ?_, ?_, ?_⟩, ?_⟩
    · simpa [Spec.month, decimalValue_two] using hm1
    · simpa [Spec.month, decimalValue_two] using hm2
    · simpa [Spec.day, decimalValue_two] using hd1
    · simpa [Spec.day, Spec.month, Spec.year, decimalValue_two] using hd2
    · simp only [Spec.hour, List.drop_succ_cons, List.drop_zero, List.take_succ_cons,
        List.take_zero, decimalValue_two]; omega
    · simp only [Spec.minute, List.drop_succ_cons, List.drop_zero, List.take_succ_cons,
        List.take_zero, decimalValue_two]; omega
    · simp only [Spec.second, List.drop_succ_cons, List.drop_zero, List.take_succ_cons,
        List.take_zero, decimalValue_two]; omega
    · rcases (fracSecond_iff suffix nsec).mp hf with ⟨h1, h2⟩ | ⟨h1, h2⟩
      · left
        subst h2
        refine ⟨h1, ?_⟩
        simp [Spec.instant, Date, Spec.year, Spec.month, Spec.day, Spec.hour, Spec.minute,
          Spec.second, decimalValue_two]
      · right
        subst h2
        refine ⟨h1, ?_⟩
        simp [Spec.instant, Date, Spec.year, Spec.month, Spec.day, Spec.hour, Spec.minute,
          Spec.second, decimalValue_two]
  · rintro ⟨⟨hlen, hall, hm1, hm2, hd1, hd2, hh1, hmi1, hs1⟩, hrest⟩
    obtain ⟨a, b, c, d, e, f, g, h, i, j, k, l, m, n, suffix, rfl⟩ :
        ∃ a b c d e f g h i j k l m n suffix,
          tok = a :: b :: c :: d :: e :: f :: g :: h :: i :: j :: k :: l :: m :: n :: suffix := by
      rcases tok with _ | ⟨a, _ | ⟨b, _ | ⟨c, _ | ⟨d, _ | ⟨e, _ | ⟨f, _ | ⟨g, _ | ⟨h, _ | ⟨i,
        _ | ⟨j, _ | ⟨k, _ | ⟨l, _ | ⟨m, _ | ⟨n, suffix⟩⟩⟩⟩⟩⟩⟩⟩⟩⟩⟩⟩⟩⟩
      all_goals first
        | exact ⟨_, _, _, _, _, _, _, _, _, _, _, _, _, _, _, rfl⟩
        | (simp at hlen)
    have htake : List.take 14 (a :: b :: c :: d :: e :: f :: g :: h :: i :: j :: k :: l :: m
        :: n :: suffix) = [a, b, c, d, e, f, g, h, i, j, k, l, m, n] := by
      simp
    have hdrop : List.drop 14 (a :: b :: c :: d :: e :: f :: g :: h :: i :: j :: k :: l :: m
        :: n :: suffix) = suffix := by
      simp
    have hdrop2 : List.drop 15 (a :: b :: c :: d :: e :: f :: g :: h :: i :: j :: k :: l :: m
        :: n :: suffix) = suffix.drop 1 := by
      simp
    rw [htake] at hall hm1 hm2 hd1 hd2 hh1 hmi1 hs1 hrest
    rw [hdrop, hdrop2] at hrest
    simp only [Spec.month, Spec.day, Spec.year, Spec.hour, Spec.minute, Spec.second,
      List.drop_succ_cons, List.drop_zero, List.take_succ_cons, List.take_zero,
      decimalValue_two] at hm1 hm2 hd1 hd2 hh1 hmi1 hs1
    rw [← daysIn_eq _ _ hm1 hm2] at hd2
    have hfrac : ∃ nsec, fracSecond suffix = some (nsec, []) ∧
        t = Date (Spec.decimalValue [a, b, c, d] : Int) ((e - 48) * 10 + (f - 48))
          ((g - 48) * 10 + (h - 48)) ((i - 48) * 10 + (j - 48)) ((k - 48) * 10 + (l - 48))
          ((m - 48) * 10 + (n - 48)) nsec := by
      rcases hrest with ⟨h1, h2⟩ | ⟨h1, h2⟩
      · refine ⟨0, (fracSecond_iff suffix 0).mpr (Or.inl ⟨h1, rfl⟩), ?_⟩
        rw [h2]
        simp [Spec.instant, Date, Spec.year, Spec.month, Spec.day, Spec.hour, Spec.minute,
          Spec.second, decimalValue_two]
      · refine ⟨_, (fracSecond_iff suffix _).mpr (Or.inr ⟨h1, rfl⟩), ?_⟩
        rw [h2]
        simp [Spec.instant, Date, Spec.year, Spec.month, Spec.day, Spec.hour, Spec.minute,
          Spec.second, decimalValue_two]
    obtain ⟨nsec, hf, ht⟩ := hfrac
    exact ⟨a, b, c, d, e, f, g, h, i, j, k, l, m, n, suffix, nsec, rfl, hall, hm1, hm2, hd1,
      hd2, by omega, by omega, by omega, hf, ht⟩
theorem parseTime_error_value (tok : GoString) (e : ParseError)
    (h : parseTime tok = .error e) : e.Value = tok ∧ e.Layout = timestampLayout := by
  unfold parseTime at h
  simp only at h
  repeat' split at h
  all_goals first
    | (simp only [Except.error.injEq] at h; subst h; exact ⟨rfl, rfl⟩)
    | exact absurd h (by simp)

/-- C8, as stated, fails: the token `20230731193152.5` is not 14 digits, yet `time.Parse`
accepts it, and the Timestamp that `parseRecord` stores has a sub-second part of half a
second. -/
theorem parseTime_accepts_fraction :
    ¬ Spec.IsCompactTimestamp (str "20230731193152.5") ∧
    parseTime (str "20230731193152.5") = .ok ⟨2023, 7, 31, 19, 31, 52, 500000000⟩ ∧
    parseRecord (str "20230731193152.5") [(98, 0)] [(98, 0)]
      = .ok { Timestamp := ⟨2023, 7, 31, 19, 31, 52, 500000000⟩ } := by
  decide

/-- C8, amended: `time.Parse` accepts the token of the `b` column exactly when its first
14 bytes are ASCII decimal digits `YYYYMMDDhhmmss` denoting a valid calendar date and time
of day and the rest is empty or a fractional second (a period or comma followed by one or
more digits). The Timestamp is then that instant in UTC, with a zero sub-second part when
there is no fraction and with the fraction as nanoseconds otherwise; every other token
fails, and `parseRecord` returns the invalid-timestamp error around a parse error that
holds the token. -/
theorem parseTime_compact (tok : GoString) :
    (∀ t, parseTime tok = .ok t ↔
      Spec.IsCompactTimestamp (tok.take 14) ∧
      ((tok.drop 14 = [] ∧ t = Spec.instant (tok.take 14)) ∨
       (Spec.IsFraction (tok.drop 14) ∧
         t = { Spec.instant (tok.take 14) with nsec := Spec.nanos (tok.drop 15) }))) ∧
    (Spec.IsCompactTimestamp tok → parseTime tok = .ok (Spec.instant tok)) ∧
    (∀ e, parseTime tok = .error e → e.Value = tok) ∧
    (∀ line rest, Fields line = tok :: rest →
      parseRecord line [(98, 0)] [(98, 0)] =
        match parseTime tok with
        | .error err => .error (.invalidTimestamp err)
        | .ok t => .ok { Timestamp := t }) ∧
    parseTime (str "20230731193152") = .ok ⟨2023, 7, 31, 19, 31, 52, 0⟩ := by
  refine ⟨fun t => parseTime_spec tok t, ?_, fun e h => (parseTime_error_value tok e h).1,
    ?_, by decide⟩
  · intro h
    have hlen : tok.length = 14 := h.1
    have htake : tok.take 14 = tok := List.take_of_length_le (by omega)
    have hdrop : tok.drop 14 = [] := List.drop_of_length_le (by omega)
    rw [parseTime_spec, htake, hdrop]
    exact ⟨h, Or.inl ⟨rfl, rfl⟩⟩
  · intro line rest hf
    rw [parseRecord_single line tok rest 98 hf]
    simp only [assignField, Nat.reduceEqDiff, if_true, if_false]
    cases parseTime tok <;> rfl

/-! ## Parse: the header line and the empty results -/

/-- C12, as stated, fails: with an empty line before the header `Parse` returns the
empty-header error, while the same input without that line gives one Record. -/
theorem Parse_leading_empty_line :
    Parse ⟨[[], str "CDX N", str "x"], none⟩ (fun _ => [(78, 0)]) = .error .emptyHeaderLine ∧
    Parse ⟨[str "CDX N", str "x"], none⟩ (fun _ => [(78, 0)])
      = .ok [{ MassagedURL := str "x" }] := by
  decide

/-- C12, amended: `Parse` takes the first line of the input as the header; when that line
is empty it fails with the empty-header error, whatever lines follow, so leading empty
lines are not skipped. -/
theorem Parse_empty_first_line (lines : List GoString) (err : Option GoString)
    (orders : Nat → List (Nat × Nat)) :
    Parse ⟨[] :: lines, err⟩ orders = .error .emptyHeaderLine := by
  simp only [Parse, if_true]

theorem coerce_error (key : Nat) (value : GoString) (e : Error)
    (h : coerce key value = .error e) :
    (∃ x, e = .invalidTimestamp x) ∨ (∃ x, e = .invalidStatusCode x) ∨
    (∃ x, e = .invalidCompressedRecordSize x) ∨ (∃ x, e = .invalidCompressedArcOffset x) := by
  unfold coerce at h
  repeat' split at h
  all_goals first
    | (simp only [Except.error.injEq] at h; subst h; simp)
    | exact absurd h (by simp)

theorem parseRecord_error (line : GoString) (fi : FieldIndex) (order : List (Nat × Nat))
    (e : Error) (h : parseRecord line fi order = .error e) :
    e = .insufficientFields ∨
    (∃ x, e = .invalidTimestamp x) ∨ (∃ x, e = .invalidStatusCode x) ∨
    (∃ x, e = .invalidCompressedRecordSize x) ∨ (∃ x, e = .invalidCompressedArcOffset x) := by
  rw [parseRecord_eq] at h
  split at h
  · simp only [Except.error.injEq] at h
    exact Or.inl h.symm
  · obtain ⟨p, _, _, hc⟩ := parseRecordLoop_error _ _ _ _ h
    exact Or.inr (coerce_error _ _ _ hc)

theorem parseLines_error_kind (fi : FieldIndex) (lines : List GoString)
    (orders : Nat → List (Nat × Nat)) (acc : List Record) (e : Error)
    (h : parseLines fi lines orders acc = .error e) :
    ∃ i line, lines.get? i = some line ∧ parseRecord line fi (orders i) = .error e := by
  induction lines generalizing orders acc with
  | nil => simp [parseLines] at h
  | cons l rest ih =>
    cases hr : parseRecord l fi (orders 0) with
    | error e2 =>
      simp only [parseLines, hr, Except.error.injEq] at h
      subst h
      exact ⟨0, l, rfl, hr⟩
    | ok r =>
      simp only [parseLines, hr] at h
      obtain ⟨i, line, h1, h2⟩ := ih _ _ h
      exact ⟨i + 1, line, by simpa using h1, h2⟩

theorem parseLines_length (fi : FieldIndex) (lines : List GoString)
    (orders : Nat → List (Nat × Nat)) (acc records : List Record)
    (h : parseLines fi lines orders acc = .ok records) :
    records.length = acc.length + lines.length := by
  induction lines generalizing orders acc with
  | nil => simp only [parseLines, Except.ok.injEq] at h; subst h; simp
  | cons l rest ih =>
    cases hr : parseRecord l fi (orders 0) with
    | error e2 => simp [parseLines, hr] at h
    | ok r =>
      simp only [parseLines, hr] at h
      rw [ih _ _ h]
      simp only [List.length_append, List.length_singleton, List.length_cons,
        List.length_nil]
      omega

theorem parseHeaderLoop_error (toks : List GoString) (i : Nat) (fi0 : FieldIndex) (e : Error)
    (h : parseHeaderLoop toks i fi0 = .error e) : ∃ f, e = .invalidFieldSpecifier f := by
  induction toks generalizing i fi0 with
  | nil => simp [parseHeaderLoop] at h
  | cons t rest ih =>
    by_cases ht : t.length = 1
    · simp only [parseHeaderLoop, ht, ne_eq, not_true_eq_false, if_false] at h
      exact ih _ _ h
    · simp only [parseHeaderLoop, ht, ne_eq, not_false_eq_true, if_true,
        Except.error.injEq] at h
      exact ⟨t, h.symm⟩

theorem parseHeader_error (header : GoString) (e : Error)
    (h : parseHeader header = .error e) :
    e = .invalidHeader ∨ ∃ f, e = .invalidFieldSpecifier f := by
  unfold parseHeader at h
  simp only at h
  split at h
  · simp only [Except.error.injEq] at h
    exact Or.inl h.symm
  · exact Or.inr (parseHeaderLoop_error _ _ _ _ h)

/-- The outcomes of `Parse`, path by path. -/
theorem Parse_cases (scanner : Scanner) (orders : Nat → List (Nat × Nat)) :
    (scanner.lines = [] ∧ Parse scanner orders = .error .emptyFile) ∨
    (∃ rest, scanner.lines = [] :: rest ∧ Parse scanner orders = .error .emptyHeaderLine) ∨
    (∃ header rest e, scanner.lines = header :: rest ∧ parseHeader header = .error e ∧
      Parse scanner orders = .error e) ∨
    (∃ header rest fi e, scanner.lines = header :: rest ∧ parseHeader header = .ok fi ∧
      parseLines fi rest orders [] = .error e ∧ Parse scanner orders = .error e) ∨
    (∃ header rest fi records x, scanner.lines = header :: rest ∧
      parseHeader header = .ok fi ∧ parseLines fi rest orders [] = .ok records ∧
      scanner.err = some x ∧ Parse scanner orders = .error (.readingInput x)) ∨
    (∃ header fi, scanner.lines = [header] ∧ parseHeader header = .ok fi ∧
      scanner.err = none ∧ Parse scanner orders = .error .noRecords) ∨
    (∃ header rest fi records, scanner.lines = header :: rest ∧ rest ≠ [] ∧
      parseHeader header = .ok fi ∧ parseLines fi rest orders [] = .ok records ∧
      scanner.err = none ∧ records.length = rest.length ∧
      Parse scanner orders = .ok records) := by
  obtain ⟨lines, err⟩ := scanner
  cases lines with
  | nil => exact Or.inl ⟨rfl, rfl⟩
  | cons header rest =>
    right
    by_cases hne : header = []
    · subst hne
      exact Or.inl ⟨rest, rfl, by simp only [Parse, if_true]⟩
    right
    cases hh : parseHeader header with
    | error e =>
      exact Or.inl ⟨header, rest, e, rfl, hh, by simp only [Parse, hne, if_false, hh]⟩
    | ok fi =>
      right
      cases hl : parseLines fi rest orders [] with
      | error e =>
        exact Or.inl ⟨header, rest, fi, e, rfl, hh, hl,
          by simp only [Parse, hne, if_false, hh, hl]⟩
      | ok records =>
        right
        cases err with
        | some x =>
          exact Or.inl ⟨header, rest, fi, records, x, rfl, hh, hl, rfl,
            by simp only [Parse, hne, if_false, hh, hl]⟩
        | none =>
          right
          have hlen := parseLines_length fi rest orders [] records hl
          simp only [List.length_nil, Nat.zero_add] at hlen
          cases rest with
          | nil =>
            have h0 : records.length = 0 := by simpa using hlen
            exact Or.inl ⟨header, fi, rfl, hh, rfl,
              by simp only [Parse, hne, if_false, hh, hl, h0, if_true]⟩
          | cons l rest2 =>
            have h0 : ¬ records.length = 0 := by
              rw [hlen]; simp
            exact Or.inr ⟨header, l :: rest2, fi, records, rfl, by simp, hh, hl, rfl, hlen,
              by simp only [Parse, hne, if_false, hh, hl, h0]⟩

/-- C13: `Parse` never succeeds with an empty sequence of Records: on a valid header line
and no data lines (and no read error) it fails with the no-records error, and whenever it
succeeds the sequence has at least one Record. -/
theorem Parse_never_empty (scanner : Scanner) (orders : Nat → List (Nat × Nat)) :
    (∀ header fi, scanner = ⟨[header], none⟩ → parseHeader header = .ok fi →
      Parse scanner orders = .error .noRecords) ∧
    (∀ records, Parse scanner orders = .ok records → 1 ≤ records.length) := by
  constructor
  · rintro header fi rfl hh
    have hne : header ≠ [] := by
      rintro rfl
      rw [parseHeader_nil] at hh
      exact absurd hh (by simp)
    simp only [Parse, hne, if_false, hh, parseLines, List.length_nil, if_true]
  · intro records h
    rcases Parse_cases scanner orders with ⟨_, h2⟩ | ⟨_, _, h2⟩ | ⟨_, _, _, _, _, h2⟩ |
      ⟨_, _, _, _, _, _, _, h2⟩ | ⟨_, _, _, _, _, _, _, _, _, h2⟩ | ⟨_, _, _, _, _, h2⟩ |
      ⟨header, rest, fi, recs, _, hne, _, _, _, hlen, h2⟩
    all_goals rw [h2] at h
    all_goals first
      | (simp only [Except.ok.injEq] at h
         subst h
         rw [hlen]
         exact List.length_pos.mpr hne)
      | exact absurd h (by simp)

/-- C14: `Parse` fails with the empty-file error exactly when the scanner yields no line
at all; when it yields at least one line, every failure is another error. -/
theorem Parse_emptyFile_iff (scanner : Scanner) (orders : Nat → List (Nat × Nat)) :
    (Parse scanner orders = .error .emptyFile ↔ scanner.lines = []) ∧
    (scanner.lines ≠ [] → ∀ e, Parse scanner orders = .error e → e ≠ .emptyFile) := by
  have key : Parse scanner orders = .error .emptyFile ↔ scanner.lines = [] := by
    constructor
    · intro h
      rcases Parse_cases scanner orders with ⟨h1, _⟩ | ⟨_, _, h2⟩ | ⟨_, _, e, _, he, h2⟩ |
        ⟨_, rest, fi, e, _, _, hl, h2⟩ | ⟨_, _, _, _, _, _, _, _, _, h2⟩ |
        ⟨_, _, _, _, _, h2⟩ | ⟨_, _, _, _, _, _, _, _, _, _, h2⟩
      · exact h1
      · rw [h2] at h; exact absurd h (by simp)
      · rw [h2] at h
        simp only [Except.error.injEq] at h
        subst h
        rcases parseHeader_error _ _ he with h3 | ⟨_, h3⟩ <;> exact absurd h3 (by simp)
      · rw [h2] at h
        simp only [Except.error.injEq] at h
        subst h
        obtain ⟨i, line, _, h4⟩ := parseLines_error_kind fi rest orders [] _ hl
        rcases parseRecord_error _ _ _ _ h4 with h3 | ⟨_, h3⟩ | ⟨_, h3⟩ | ⟨_, h3⟩ | ⟨_, h3⟩ <;>
          exact absurd h3 (by simp)
      · rw [h2] at h; exact absurd h (by simp)
      · rw [h2] at h; exact absurd h (by simp)
      · rw [h2] at h; exact absurd h (by simp)
    · intro h
      simp only [Parse, h]
  refine ⟨key, ?_⟩
  rintro hne e h rfl
  exact hne (key.mp h)

/-- C17: the FieldIndex of an accepted header maps distinct codes to distinct column
positions, and every position is less than the number of code tokens of the header. -/
theorem parseHeader_injective (header : GoString) (fi : FieldIndex)
    (h : parseHeader header = .ok fi) :
    (∀ k1 k2 i, fi.get? k1 = some i → fi.get? k2 = some i → k1 = k2) ∧
    (∀ k i, fi.get? k = some i → i < ((Fields header).drop 1).length) := by
  have hspec := (parseHeader_spec header fi h).2.2
  constructor
  · intro k1 k2 i h1 h2
    have e1 := ((hspec k1 i).mp h1).1
    have e2 := ((hspec k2 i).mp h2).1
    rw [e1] at e2
    simpa using e2
  · intro k i h1
    exact (List.get?_eq_some.mp ((hspec k i).mp h1).1).1

/-- Witness of C17: the header `CDX N b N`, whose FieldIndex is `N -> 2, b -> 1`. -/
theorem parseHeader_injective_witness :
    (∀ k1 k2 i, FieldIndex.get? [(78, 2), (98, 1)] k1 = some i →
      FieldIndex.get? [(78, 2), (98, 1)] k2 = some i → k1 = k2) ∧
    (∀ k i, FieldIndex.get? [(78, 2), (98, 1)] k = some i →
      i < ((Fields (str "CDX N b N")).drop 1).length) :=
  parseHeader_injective (str "CDX N b N") [(78, 2), (98, 1)] (by decide)

/-! ## strings.Fields -/

theorem firstInfo_some (b sz lo hi : Nat) (h : firstInfo b = some (sz, lo, hi)) :
    (sz = 2 ∨ sz = 3 ∨ sz = 4) ∧ 0x80 ≤ lo := by
  unfold firstInfo at h
  repeat' split at h
  all_goals first
    | (simp only [Option.some.injEq, Prod.mk.injEq] at h
       obtain ⟨rfl, rfl, rfl⟩ := h
       exact ⟨by omega, by omega⟩)
    | exact absurd h (by simp)

/-- The width of a decoded rune is at least one byte and at most the bytes at hand. -/
theorem DecodeRuneInString_width (b : Nat) (rest : GoString) :
    1 ≤ (DecodeRuneInString (b :: rest)).2 ∧
      (DecodeRuneInString (b :: rest)).2 ≤ rest.length + 1 := by
  unfold DecodeRuneInString
  simp only
  split
  · simp
  split
  · simp
  rename_i sz lo hi hfi
  obtain ⟨hsz, _⟩ := firstInfo_some _ _ _ _ hfi
  split
  · simp
  rename_i hlen
  split
  · simp
  rename_i s1 rest1
  split
  · simp
  split
  · simp
  rename_i h2
  split
  · simp
  rename_i s2 rest2
  split
  · simp
  split
  · simp
  rename_i h3
  split
  · simp
  · rename_i s3 rest3
    split
    · simp
    · simp

/-- An ASCII byte after the string does not change the first rune. -/
theorem DecodeRuneInString_append (b w : Nat) (s tl : GoString) (hw : w < 0x80) :
    DecodeRuneInString (b :: (s ++ w :: tl)) = DecodeRuneInString (b :: s) := by
  have hcw : isCont w = false := by
    simp only [isCont, Bool.and_eq_false_imp, decide_eq_true_eq, decide_eq_false_iff_not]
    omega
  by_cases hb : b < 0x80
  · simp only [DecodeRuneInString, hb, if_true]
  cases hfi : firstInfo b with
  | none => simp only [DecodeRuneInString, hb, if_false, hfi]
  | some p =>
    obtain ⟨sz, lo, hi⟩ := p
    obtain ⟨hsz, hlo⟩ := firstInfo_some _ _ _ _ hfi
    have hwlo : w < lo := by omega
    rcases s with _ | ⟨s1, _ | ⟨s2, _ | ⟨s3, s4⟩⟩⟩
    · have h1 : ([] : GoString).length + 1 < sz := by simp; omega
      simp only [DecodeRuneInString, hb, if_false, hfi, List.nil_append, List.length_cons,
        hwlo, true_or, if_true, h1, ite_self]
    · by_cases hs1 : s1 < lo ∨ hi < s1
      · simp only [DecodeRuneInString, hb, if_false, hfi, List.cons_append, List.nil_append,
          List.length_cons, hs1, if_true, ite_self]
      · by_cases h2 : sz ≤ 2
        · have e1 : ¬ (tl.length + 1 + 1 + 1 < sz) := by omega
          have e2 : ¬ (([] : GoString).length + 1 + 1 < sz) := by simp; omega
          simp only [DecodeRuneInString, hb, if_false, hfi, List.cons_append,
            List.nil_append, List.length_cons, hs1, h2, if_true, e1, e2]
        · have e2 : (([] : GoString).length + 1 + 1 < sz) := by simp; omega
          simp only [DecodeRuneInString, hb, if_false, hfi, List.cons_append,
            List.nil_append, List.length_cons, hs1, h2, hcw, Bool.not_false, if_true, e2,
            ite_self]
    · by_cases hs1 : s1 < lo ∨ hi < s1
      · simp only [DecodeRuneInString, hb, if_false, hfi, List.cons_append, List.nil_append,
          List.length_cons, hs1, if_true, ite_self]
      · by_cases hs2 : isCont s2 = true
        · by_cases h3 : sz ≤ 3
          · have e1 : ¬ (tl.length + 1 + 1 + 1 + 1 < sz) := by omega
            have e2 : ¬ (([] : GoString).length + 1 + 1 + 1 < sz) := by simp; omega
            simp only [DecodeRuneInString, hb, if_false, hfi, List.cons_append,
              List.nil_append, List.length_cons, hs1, hs2, Bool.not_true,
              Bool.false_eq_true, h3, if_true, e1, e2]
          · have e1 : ¬ (tl.length + 1 + 1 + 1 + 1 < sz) := by omega
            have e2 : (([] : GoString).length + 1 + 1 + 1 < sz) := by simp; omega
            have h2 : ¬ sz ≤ 2 := by omega
            simp only [DecodeRuneInString, hb, if_false, hfi, List.cons_append,
              List.nil_append, List.length_cons, hs1, hs2, Bool.not_true,
              Bool.false_eq_true, h3, h2, hcw, Bool.not_false, if_true, e1, e2]
        · simp only [Bool.not_eq_true] at hs2
          have e1 : ¬ (tl.length + 1 + 1 + 1 + 1 < sz) := by omega
          by_cases h2 : sz ≤ 2
          · have e2 : ¬ (([] : GoString).length + 1 + 1 + 1 < sz) := by simp; omega
            simp only [DecodeRuneInString, hb, if_false, hfi, List.cons_append,
              List.nil_append, List.length_cons, hs1, h2, if_true, e1, e2]
          · simp only [DecodeRuneInString, hb, if_false, hfi, List.cons_append,
              List.nil_append, List.length_cons, hs1, h2, hs2, Bool.not_false, if_true, e1,
              ite_self]
    · have e1 : ¬ ((s4 ++ w :: tl).length + 1 + 1 + 1 + 1 < sz) := by omega
      have e2 : ¬ (s4.length + 1 + 1 + 1 + 1 < sz) := by omega
      simp only [DecodeRuneInString, hb, if_false, hfi, List.cons_append, List.length_cons,
        e1, e2]

theorem fieldsLoop_zero_drop (s : GoString) (d1 d2 : Bool) (cur : GoString) :
    fieldsLoop s 0 d1 cur = fieldsLoop s 0 d2 cur := by
  cases s with
  | nil => simp only [fieldsLoop]
  | cons b rest => simp only [fieldsLoop]

/-- The fields of a string that an ASCII whitespace byte follows: the fields of the string,
then those of what follows the byte. -/
theorem fieldsLoop_append (s tl : GoString) (w skip : Nat) (drop : Bool) (cur : GoString)
    (hw : w < 0x80) (hsp : IsSpace w = true) (hskip : skip ≤ s.length) :
    fieldsLoop (s ++ w :: tl) skip drop cur
      = fieldsLoop s skip drop cur ++ fieldsLoop tl 0 true [] := by
  induction s generalizing skip drop cur with
  | nil =>
    have h0 : skip = 0 := by simpa using hskip
    subst h0
    have hd : DecodeRuneInString (w :: tl) = (w, 1) := by
      simp only [DecodeRuneInString, hw, if_true]
    by_cases hc : cur = []
    · simp only [List.nil_append, fieldsLoop, hd, hsp, if_true, hc, Nat.sub_self]
    · simp only [List.nil_append, fieldsLoop, hd, hsp, if_true, hc, if_false, Nat.sub_self,
        List.singleton_append]
  | cons b rest ih =>
    cases skip with
    | succ k =>
      have hk : k ≤ rest.length := by simpa using hskip
      cases drop
      · rw [List.cons_append]
        simp only [fieldsLoop, Bool.false_eq_true, if_false]
        exact ih k false _ hk
      · rw [List.cons_append]
        simp only [fieldsLoop, if_true]
        exact ih k true _ hk
    | zero =>
      have hdec := DecodeRuneInString_append b w rest tl hw
      have hwid := (DecodeRuneInString_width b rest).2
      have hk : (DecodeRuneInString (b :: rest)).2 - 1 ≤ rest.length := by omega
      rw [List.cons_append]
      simp only [fieldsLoop, hdec]
      by_cases hs : IsSpace (DecodeRuneInString (b :: rest)).1 = true
      · by_cases hc : cur = []
        · simp only [hs, if_true, hc]
          exact ih _ true _ hk
        · simp only [hs, if_true, hc, if_false, List.cons_append]
          rw [ih _ true _ hk]
      · simp only [hs, if_false]
        exact ih _ false _ hk

theorem Fields_append (s tl : GoString) (w : Nat) (hw : w < 0x80) (hsp : IsSpace w = true) :
    Fields (s ++ w :: tl) = Fields s ++ Fields tl := by
  unfold Fields
  rw [fieldsLoop_append s tl w 0 false [] hw hsp (Nat.zero_le _)]
  rw [fieldsLoop_zero_drop tl true false]

theorem Fields_cons_space (tl : GoString) (w : Nat) (hw : w < 0x80) (hsp : IsSpace w = true) :
    Fields (w :: tl) = Fields tl := by
  have := Fields_append [] tl w hw hsp
  simpa [Fields, fieldsLoop] using this

/-- A string without a whitespace rune is one field. -/
theorem fieldsLoop_token (s : GoString) (skip : Nat) (cur : GoString)
    (h : ∀ r ∈ runesLoop s skip, IsSpace r = false) :
    fieldsLoop s skip false cur = if cur ++ s = [] then [] else [cur ++ s] := by
  induction s generalizing skip cur with
  | nil => simp only [fieldsLoop, List.append_nil]
  | cons b rest ih =>
    cases skip with
    | succ k =>
      simp only [runesLoop] at h
      simp only [fieldsLoop, Bool.false_eq_true, if_false]
      rw [ih k _ h]
      simp only [List.append_assoc, List.singleton_append]
    | zero =>
      simp only [runesLoop, List.mem_cons, forall_eq_or_imp] at h
      simp only [fieldsLoop, h.1, Bool.false_eq_true, if_false]
      rw [ih _ _ h.2]
      simp only [List.append_assoc, List.singleton_append]

theorem Fields_token (t : GoString) (h : Spec.IsToken t) : Fields t = [t] := by
  unfold Fields
  rw [fieldsLoop_token t 0 [] h.2]
  simp only [List.nil_append, h.1, if_false]

/-- A string of whitespace runes only has no field. -/
theorem fieldsLoop_blank (s : GoString) (skip : Nat) (drop : Bool)
    (hd : skip ≠ 0 → drop = true)
    (h : ∀ r ∈ runesLoop s skip, IsSpace r = true) :
    fieldsLoop s skip drop [] = [] := by
  induction s generalizing skip drop with
  | nil => simp only [fieldsLoop, if_true]
  | cons b rest ih =>
    cases skip with
    | succ k =>
      have hdrop : drop = true := hd (by omega)
      subst hdrop
      simp only [runesLoop] at h
      simp only [fieldsLoop, if_true]
      exact ih k true (fun _ => rfl) h
    | zero =>
      simp only [runesLoop, List.mem_cons, forall_eq_or_imp] at h
      simp only [fieldsLoop, h.1, if_true]
      exact ih _ true (fun _ => rfl) h.2

theorem Fields_blank (line : GoString) (h : Spec.IsBlankLine line) : Fields line = [] :=
  fieldsLoop_blank line 0 false (fun h => absurd rfl h) h

theorem Fields_blank_lead (ws x : GoString) (h : Spec.IsBlankRun ws) :
    Fields (ws ++ x) = Fields x := by
  induction ws with
  | nil => rfl
  | cons w rest ih =>
    have hw := h w (List.mem_cons_self _ _)
    have hrest : Spec.IsBlankRun rest := fun b hb => h b (List.mem_cons_of_mem _ hb)
    rw [List.cons_append]
    rcases hw with rfl | rfl
    · rw [Fields_cons_space _ 32 (by decide) (by decide)]
      exact ih hrest
    · rw [Fields_cons_space _ 9 (by decide) (by decide)]
      exact ih hrest

theorem Fields_token_blank (t ws x : GoString) (ht : Spec.IsToken t)
    (hws : Spec.IsBlankRun ws) (hne : ws ≠ []) :
    Fields (t ++ ws ++ x) = t :: Fields x := by
  cases ws with
  | nil => exact absurd rfl hne
  | cons w rest =>
    have hw := hws w (List.mem_cons_self _ _)
    have hrest : Spec.IsBlankRun rest := fun b hb => hws b (List.mem_cons_of_mem _ hb)
    have hsp : w < 0x80 ∧ IsSpace w = true := by
      rcases hw with rfl | rfl <;> decide
    rw [List.append_assoc, List.cons_append, Fields_append t _ w hsp.1 hsp.2,
      Fields_token t ht, Fields_blank_lead rest x hrest]
    rfl

theorem Fields_joinTokens (parts : List (GoString × GoString))
    (hparts : ∀ p ∈ parts, Spec.IsToken p.1 ∧ Spec.IsBlankRun p.2)
    (hsep : ∀ p ∈ parts.dropLast, p.2 ≠ []) :
    Fields (Spec.joinTokens parts) = parts.map Prod.fst := by
  induction parts with
  | nil => rfl
  | cons p rest ih =>
    obtain ⟨t, ws⟩ := p
    obtain ⟨ht, hws⟩ := hparts (t, ws) (List.mem_cons_self _ _)
    cases rest with
    | nil =>
      simp only [Spec.joinTokens, List.append_nil, List.map_cons, List.map_nil]
      by_cases hne : ws = []
      · subst hne
        rw [List.append_nil]
        exact Fields_token t ht
      · have := Fields_token_blank t ws [] ht hws hne
        rw [List.append_nil] at this
        rw [this]
        rfl
    | cons q rest2 =>
      have hne : ws ≠ [] := hsep (t, ws) (by simp [List.dropLast])
      have hrec := ih (fun p hp => hparts p (List.mem_cons_of_mem _ hp))
        (fun p hp => hsep p (by
          simp only [List.dropLast_cons₂, List.mem_cons]
          exact Or.inr hp))
      show Fields (t ++ ws ++ Spec.joinTokens (q :: rest2)) = _
      rw [Fields_token_blank t ws _ ht hws hne, hrec]
      rfl

theorem Fields_joinSpaces (tokens : List GoString) (h : ∀ t ∈ tokens, Spec.IsToken t) :
    Fields (Spec.joinSpaces tokens) = tokens := by
  induction tokens with
  | nil => rfl
  | cons t rest ih =>
    have ht := h t (List.mem_cons_self _ _)
    cases rest with
    | nil => exact Fields_token t ht
    | cons q rest2 =>
      show Fields (t ++ 32 :: Spec.joinSpaces (q :: rest2)) = _
      rw [Fields_append t _ 32 (by decide) (by decide), Fields_token t ht,
        ih (fun x hx => h x (List.mem_cons_of_mem _ hx))]
      rfl

theorem parseHeader_congr (h1 h2 : GoString) (h : Fields h1 = Fields h2) :
    parseHeader h1 = parseHeader h2 := by
  unfold parseHeader
  rw [h]

theorem parseRecord_congr (l1 l2 : GoString) (fi : FieldIndex) (order : List (Nat × Nat))
    (h : Fields l1 = Fields l2) : parseRecord l1 fi order = parseRecord l2 fi order := by
  unfold parseRecord
  rw [h]

/-- C16: `parseHeader` and `parseRecord` depend only on the tokens of their line. A line
made of non-empty whitespace-free tokens, each followed by a non-empty run of spaces and
tabs (the last run may be empty) and preceded by any run of spaces and tabs, has exactly
these tokens as fields, and so gives the same FieldIndex, and the same Record or error, as
the tokens joined with single spaces. -/
theorem Fields_whitespace_runs (lead : GoString) (parts : List (GoString × GoString))
    (hlead : Spec.IsBlankRun lead)
    (hparts : ∀ p ∈ parts, Spec.IsToken p.1 ∧ Spec.IsBlankRun p.2)
    (hsep : ∀ p ∈ parts.dropLast, p.2 ≠ []) :
    Fields (lead ++ Spec.joinTokens parts) = parts.map Prod.fst ∧
    Fields (Spec.joinSpaces (parts.map Prod.fst)) = parts.map Prod.fst ∧
    parseHeader (lead ++ Spec.joinTokens parts)
      = parseHeader (Spec.joinSpaces (parts.map Prod.fst)) ∧
    ∀ fi order, parseRecord (lead ++ Spec.joinTokens parts) fi order
      = parseRecord (Spec.joinSpaces (parts.map Prod.fst)) fi order := by
  have h1 : Fields (lead ++ Spec.joinTokens parts) = parts.map Prod.fst := by
    rw [Fields_blank_lead lead _ hlead]
    exact Fields_joinTokens parts hparts hsep
  have h2 : Fields (Spec.joinSpaces (parts.map Prod.fst)) = parts.map Prod.fst := by
    apply Fields_joinSpaces
    intro t ht
    obtain ⟨p, hp, rfl⟩ := List.mem_map.mp ht
    exact (hparts p hp).1
  exact ⟨h1, h2, parseHeader_congr _ _ (h1.trans h2.symm),
    fun fi order => parseRecord_congr _ _ fi order (h1.trans h2.symm)⟩

/-- Witness of C16: the tokens `CDX`, `N`, `b` with irregular runs of spaces and tabs. -/
theorem Fields_whitespace_runs_witness :
    Fields (str " \t" ++ Spec.joinTokens
        [(str "CDX", str "  "), (str "N", str "\t"), (str "b", str " \t ")])
      = [str "CDX", str "N", str "b"] ∧
    parseHeader (str " \t" ++ Spec.joinTokens
        [(str "CDX", str "  "), (str "N", str "\t"), (str "b", str " \t ")])
      = parseHeader (str "CDX N b") := by
  obtain ⟨h1, _, h3, _⟩ := Fields_whitespace_runs (str " \t")
    [(str "CDX", str "  "), (str "N", str "\t"), (str "b", str " \t ")]
    (by decide) (by decide) (by decide)
  exact ⟨h1, h3⟩

/-! ## Blank lines and extra tokens -/

theorem parseLines_ok_all (fi : FieldIndex) (lines : List GoString)
    (orders : Nat → List (Nat × Nat)) (acc recs : List Record)
    (h : parseLines fi lines orders acc = .ok recs) :
    ∀ i l, lines.get? i = some l → ∃ r, parseRecord l fi (orders i) = .ok r := by
  induction lines generalizing orders acc with
  | nil => intro i l hl; simp at hl
  | cons l0 rest ih =>
    cases hr : parseRecord l0 fi (orders 0) with
    | error e2 => simp [parseLines, hr] at h
    | ok r =>
      simp only [parseLines, hr] at h
      intro i l hl
      cases i with
      | zero =>
        simp only [List.get?_cons_zero, Option.some.injEq] at hl
        subst hl
        exact ⟨r, hr⟩
      | succ i => exact ih _ _ h i l (by simpa using hl)

theorem parseHeader_len_pos (header : GoString) (fi : FieldIndex)
    (h : parseHeader header = .ok fi) : 1 ≤ fi.len := by
  obtain ⟨h2, _, hl⟩ := parseHeader_ok header fi h
  have hall := (parseHeaderLoop_ok_iff _ _ _).mp ⟨fi, hl⟩
  have hne : (Fields header).drop 1 ≠ [] := by
    intro he
    have := congrArg List.length he
    simp only [List.length_drop, List.length_nil] at this
    omega
  obtain ⟨t, rest, hcons⟩ := List.exists_cons_of_ne_nil hne
  have ht : t ∈ (Fields header).drop 1 := by rw [hcons]; exact List.mem_cons_self _ _
  obtain ⟨c, rfl⟩ := List.length_eq_one.mp (hall t ht)
  have hkey := ((parseHeader_spec header fi h).2.1 c).mpr ht
  unfold FieldIndex.len
  have : 0 < (fi.map Prod.fst).length := List.length_pos_of_mem hkey
  simpa using this

/-- C18: `Parse` never succeeds when a line after the header is empty or holds whitespace
only: such a line has no token, the FieldIndex of a valid header has at least one code, so
`parseRecord` fails on the line with the insufficient-fields error. -/
theorem Parse_blank_line (scanner : Scanner) (orders : Nat → List (Nat × Nat))
    (line : GoString) (hmem : line ∈ scanner.lines.drop 1)
    (hblank : Spec.IsBlankLine line) :
    (∀ records, Parse scanner orders ≠ .ok records) ∧
    Fields line = [] ∧
    (∀ header fi order, parseHeader header = .ok fi →
      1 ≤ fi.len ∧ parseRecord line fi order = .error .insufficientFields) := by
  have hf : Fields line = [] := Fields_blank line hblank
  have hrec : ∀ header fi order, parseHeader header = .ok fi →
      1 ≤ fi.len ∧ parseRecord line fi order = .error .insufficientFields := by
    intro header fi order hh
    have hpos := parseHeader_len_pos header fi hh
    refine ⟨hpos, ?_⟩
    rw [parseRecord_insufficient, hf]
    exact hpos
  refine ⟨?_, hf, hrec⟩
  intro records h
  rcases Parse_cases scanner orders with ⟨_, h2⟩ | ⟨_, _, h2⟩ | ⟨_, _, _, _, _, h2⟩ |
    ⟨_, _, _, _, _, _, _, h2⟩ | ⟨_, _, _, _, _, _, _, _, _, h2⟩ | ⟨_, _, _, _, _, h2⟩ |
    ⟨header, rest, fi, recs, hlines, _, hh, hl, _, _, h2⟩
  all_goals rw [h2] at h
  all_goals first
    | (simp only [Except.ok.injEq] at h
       rw [hlines] at hmem
       simp only [List.drop_succ_cons, List.drop_zero] at hmem
       obtain ⟨i, hi⟩ := List.get?_of_mem hmem
       obtain ⟨r, hr⟩ := parseLines_ok_all fi rest orders [] recs hl i line hi
       rw [(hrec header fi (orders i) hh).2] at hr
       exact absurd hr (by simp))
    | exact absurd h (by simp)

/-- Witness of C18: a final line of a space and a tab after one data line. -/
theorem Parse_blank_line_witness :
    (∀ records, Parse ⟨[str "CDX N", str "x", str " \t"], none⟩ (fun _ => [(78, 0)])
      ≠ .ok records) ∧
    Fields (str " \t") = [] ∧
    (∀ header fi order, parseHeader header = .ok fi →
      1 ≤ fi.len ∧ parseRecord (str " \t") fi order = .error .insufficientFields) :=
  Parse_blank_line ⟨[str "CDX N", str "x", str " \t"], none⟩ (fun _ => [(78, 0)])
    (str " \t") (by decide) (by decide)

theorem parseRecordLoop_append (fields extra : List GoString) (order : List (Nat × Nat))
    (r : Record) (h : ∀ p ∈ order, p.2 < fields.length) :
    parseRecordLoop (fields ++ extra) order r = parseRecordLoop fields order r := by
  induction order generalizing r with
  | nil => rfl
  | cons p rest ih =>
    obtain ⟨k, i⟩ := p
    have hi : i < fields.length := h (k, i) (List.mem_cons_self _ _)
    have hrest : ∀ p ∈ rest, p.2 < fields.length := fun p hp => h p (List.mem_cons_of_mem _ hp)
    have h1 : ¬ (i ≥ (fields ++ extra).length) := by
      simp only [List.length_append]; omega
    have h2 : ¬ (i ≥ fields.length) := by omega
    have h3 : (fields ++ extra).getD i [] = fields.getD i [] := by
      rw [List.getD_eq_getElem?_getD, List.getD_eq_getElem?_getD,
        List.getElem?_append_left hi]
    simp only [parseRecordLoop, h1, h2, if_false, h3]
    cases assignField k (fields.getD i []) r with
    | error e => rfl
    | ok r2 => exact ih r2 hrest

theorem parseHeaderLoop_length_le (toks : List GoString) (i : Nat) (fi0 fi : FieldIndex)
    (h : parseHeaderLoop toks i fi0 = .ok fi) : fi.length ≤ fi0.length + toks.length := by
  induction toks generalizing i fi0 with
  | nil => simp only [parseHeaderLoop, Except.ok.injEq] at h; subst h; simp
  | cons t rest ih =>
    by_cases ht : t.length = 1
    · simp only [parseHeaderLoop, ht, ne_eq, not_true_eq_false, if_false] at h
      have h1 := ih _ _ h
      have h2 : (fi0.set (t.headD 0) i).length ≤ fi0.length + 1 := by
        have hk := congrArg List.length (FieldIndex.keys_set fi0 (t.headD 0) i)
        simp only [List.length_map] at hk
        rw [hk]
        split <;> simp
      simp only [List.length_cons]
      omega
    · simp [parseHeaderLoop, ht] at h

/-- C20: extra trailing tokens are ignored. For the FieldIndex of a header with `n` code
tokens and a line with at least `n` tokens, a line with the same tokens followed by further
ones gives the same result of `parseRecord`, Record or error; such a line arises by
appending a space and any text. -/
theorem parseRecord_extra_tokens (header line line2 : GoString) (fi : FieldIndex)
    (order : List (Nat × Nat)) (extra : List GoString)
    (hh : parseHeader header = .ok fi) (ho : fi.IsRange order)
    (hn : ((Fields header).drop 1).length ≤ (Fields line).length)
    (happ : Fields line2 = Fields line ++ extra) :
    parseRecord line2 fi order = parseRecord line fi order ∧
    ∀ text, parseRecord (line ++ 32 :: text) fi order = parseRecord line fi order := by
  have hv : fi.Valid := (parseHeader_spec header fi hh).1
  obtain ⟨_, _, hl⟩ := parseHeader_ok header fi hh
  have hlen : fi.length ≤ ((Fields header).drop 1).length := by
    simpa using parseHeaderLoop_length_le _ _ _ _ hl
  have hin : ∀ p ∈ order, p.2 < (Fields line).length := by
    rintro ⟨k, i⟩ hp
    have hk := (IsRange_mem fi order hv ho k i).mp hp
    have := (List.get?_eq_some.mp (((parseHeader_spec header fi hh).2.2 k i).mp hk).1).1
    simp only
    omega
  have key : ∀ l2 ex, Fields l2 = Fields line ++ ex →
      parseRecord l2 fi order = parseRecord line fi order := by
    intro l2 ex he
    rw [parseRecord_eq, parseRecord_eq, he]
    have h1 : ¬ ((Fields line ++ ex).length < fi.length) := by
      simp only [List.length_append]; omega
    have h2 : ¬ ((Fields line).length < fi.length) := by omega
    rw [if_neg h1, if_neg h2]
    exact parseRecordLoop_append _ _ _ _ hin
  exact ⟨key line2 extra happ,
    fun text => key _ (Fields text) (Fields_append line text 32 (by decide) (by decide))⟩

set_option maxRecDepth 100000 in
/-- Witness of C20: the header `CDX N b` and a line with a third token. -/
theorem parseRecord_extra_tokens_witness :
    parseRecord (str "x 20230731193152 extra") [(78, 0), (98, 1)] [(98, 1), (78, 0)]
      = parseRecord (str "x 20230731193152") [(78, 0), (98, 1)] [(98, 1), (78, 0)] ∧
    ∀ text, parseRecord (str "x 20230731193152" ++ 32 :: text) [(78, 0), (98, 1)]
        [(98, 1), (78, 0)]
      = parseRecord (str "x 20230731193152") [(78, 0), (98, 1)] [(98, 1), (78, 0)] :=
  parseRecord_extra_tokens (str "CDX N b") (str "x 20230731193152")
    (str "x 20230731193152 extra") [(78, 0), (98, 1)] [(98, 1), (78, 0)] [str "extra"]
    (by decide) (show List.Perm _ _ from List.reverse_perm [(78, 0), (98, 1)])
    (by decide) (by decide)

/-! ## parseRecord: the order in which the map is visited -/

/-- Two Records with the same value at every attribute are equal. -/
theorem Record.ext_get (r1 r2 : Record) (h : ∀ a : Attribute, r1.get a = r2.get a) :
    r1 = r2 := by
  cases r1
  cases r2
  simp only [Record.mk.injEq]
  have h0 := h .MassagedURL
  have h1 := h .Timestamp
  have h2 := h .OriginalURL
  have h3 := h .MIMEType
  have h4 := h .StatusCode
  have h5 := h .NewStyleChecksum
  have h6 := h .Redirect
  have h7 := h .MetaTags
  have h8 := h .CompressedRecordSize
  have h9 := h .CompressedArcOffset
  have h10 := h .Filename
  have h11 := h .CanonizedURL
  have h12 := h .NewsGroup
  have h13 := h .RulespaceCategory
  have h14 := h .CompressedDatOffset
  have h15 := h .CanonizedFrame
  have h16 := h .LanguageDescription
  have h17 := h .CanonizedHost
  have h18 := h .CanonizedImage
  have h19 := h .CanonizedJumpPoint
  have h20 := h .FBISChangedThing
  have h21 := h .CanonizedLink
  have h22 := h .CanonizedPath
  have h23 := h .LanguageString
  have h24 := h .CanonizedRedirect
  have h25 := h .Uniqueness
  have h26 := h .CanonizedURLOtherHref
  have h27 := h .CanonizedURLOtherSrc
  have h28 := h .CanonizedURLScript
  have h29 := h .OldStyleChecksum
  have h30 := h .UncompressedDatOffset
  have h31 := h .IP
  have h32 := h .Frame
  have h33 := h .OriginalHost
  have h34 := h .Image
  have h35 := h .OriginalJumpPoint
  have h36 := h .Link
  have h37 := h .ArcDocumentLength
  have h38 := h .Port
  have h39 := h .OriginalPath
  have h40 := h .Title
  have h41 := h .UncompressedArcOffset
  have h42 := h .URLOtherHref
  have h43 := h .URLOtherSrc
  have h44 := h .URLScript
  simp only [Record.get, Value.str.injEq, Value.time.injEq, Value.int.injEq] at h0 h1 h2 h3 h4 h5 h6 h7 h8 h9 h10 h11 h12 h13 h14
  simp only [Record.get, Value.str.injEq, Value.time.injEq, Value.int.injEq] at h15 h16 h17 h18 h19 h20 h21 h22 h23 h24 h25 h26 h27 h28 h29
  simp only [Record.get, Value.str.injEq, Value.time.injEq, Value.int.injEq] at h30 h31 h32 h33 h34 h35 h36 h37 h38 h39 h40 h41 h42 h43 h44
  exact ⟨h0, h1, h2, h3, h4, h5, h6, h7, h8, h9, h10, h11, h12, h13, h14, h15, h16, h17, h18, h19, h20, h21, h22, h23, h24, h25, h26, h27, h28, h29, h30, h31, h32, h33, h34, h35, h36, h37, h38, h39, h40, h41, h42, h43, h44⟩

/-- On success the Record does not depend on the order in which the map is visited. -/
theorem parseRecord_ok_perm (line : GoString) (fi : FieldIndex) (o1 o2 : List (Nat × Nat))
    (hv : fi.Valid) (h1 : fi.IsRange o1) (h2 : fi.IsRange o2) (r : Record)
    (h : parseRecord line fi o1 = .ok r) : parseRecord line fi o2 = .ok r := by
  rw [parseRecord_eq] at h ⊢
  split at h
  · exact absurd h (by simp)
  rename_i hlen
  rw [if_neg hlen]
  have hmem : ∀ p, p ∈ o1 ↔ p ∈ o2 := fun p => (h1.trans h2.symm).mem_iff
  obtain ⟨r2, hr2⟩ := (parseRecordLoop_ok_iff (Fields line) o2 {}).mpr (by
    intro p hp hi
    exact (parseRecordLoop_ok_iff (Fields line) o1 {}).mp ⟨r, h⟩ p ((hmem p).mpr hp) hi)
  rw [hr2]
  congr 1
  apply Record.ext_get
  intro a
  by_cases hex : ∃ p ∈ o1, p.2 < (Fields line).length ∧ a.code = some p.1
  · obtain ⟨⟨k, i⟩, hp, hi, ha⟩ := hex
    have e1 := parseRecordLoop_value _ _ _ _ a k i h (IsRange_nodup fi o1 hv h1) hp hi ha
    have e2 := parseRecordLoop_value _ _ _ _ a k i hr2 (IsRange_nodup fi o2 hv h2)
      ((hmem (k, i)).mp hp) hi ha
    rw [e1] at e2
    simp only [Except.ok.injEq] at e2
    exact e2.symm
  · have hno : ∀ p ∈ o1, p.2 < (Fields line).length → a.code ≠ some p.1 :=
      fun p hp hi hc => hex ⟨p, hp, hi, hc⟩
    rw [parseRecordLoop_frame _ _ _ _ a hr2 (fun p hp => hno p ((hmem p).mpr hp)),
      parseRecordLoop_frame _ _ _ _ a h hno]

/-- C15, as stated, fails: with two malformed columns the error depends on the order in
which the map is visited. -/
theorem parseRecord_order_dependent :
    FieldIndex.IsRange [(98, 0), (115, 1)] [(98, 0), (115, 1)] ∧
    FieldIndex.IsRange [(98, 0), (115, 1)] [(115, 1), (98, 0)] ∧
    parseRecord (str "x y") [(98, 0), (115, 1)] [(98, 0), (115, 1)]
      = .error (.invalidTimestamp ⟨str "20060102150405", str "x", .cannotParse (str "2006")⟩) ∧
    parseRecord (str "x y") [(98, 0), (115, 1)] [(115, 1), (98, 0)]
      = .error (.invalidStatusCode ⟨str "Atoi", str "y", .ErrSyntax⟩) := by
  refine ⟨List.Perm.refl _, List.Perm.swap _ _ _, by decide, by decide⟩

/-- C15, amended: whether `parseRecord` succeeds does not depend on the order in which the
entries of the FieldIndex are visited, and on success the Record is the same for every
order, so decoding a line twice gives two equal Records. The insufficient-fields error
does not depend on the order either, and when at most one column holds a token that its
case rejects the whole outcome is the same; otherwise the error is that of one of the
rejected columns. -/
theorem parseRecord_order (line : GoString) (fi : FieldIndex) (o1 o2 : List (Nat × Nat))
    (hv : fi.Valid) (h1 : fi.IsRange o1) (h2 : fi.IsRange o2) :
    (∀ r, parseRecord line fi o1 = .ok r ↔ parseRecord line fi o2 = .ok r) ∧
    ((∃ e, parseRecord line fi o1 = .error e) ↔ (∃ e, parseRecord line fi o2 = .error e)) ∧
    (parseRecord line fi o1 = .error .insufficientFields ↔
      parseRecord line fi o2 = .error .insufficientFields) ∧
    (∀ e, parseRecord line fi o1 = .error e → e ≠ .insufficientFields →
      ∃ k i, fi.get? k = some i ∧ i < (Fields line).length ∧
        coerce k ((Fields line).getD i []) = .error e) ∧
    ((∀ k1 i1 k2 i2 e1 e2, fi.get? k1 = some i1 → fi.get? k2 = some i2 →
        i1 < (Fields line).length → i2 < (Fields line).length →
        coerce k1 ((Fields line).getD i1 []) = .error e1 →
        coerce k2 ((Fields line).getD i2 []) = .error e2 → k1 = k2) →
      parseRecord line fi o1 = parseRecord line fi o2) := by
  have hok : ∀ r, parseRecord line fi o1 = .ok r ↔ parseRecord line fi o2 = .ok r :=
    fun r => ⟨parseRecord_ok_perm line fi o1 o2 hv h1 h2 r,
      parseRecord_ok_perm line fi o2 o1 hv h2 h1 r⟩
  have hins : parseRecord line fi o1 = .error .insufficientFields ↔
      parseRecord line fi o2 = .error .insufficientFields := by
    rw [parseRecord_insufficient, parseRecord_insufficient]
  have herr : ∀ e, parseRecord line fi o1 = .error e → e ≠ .insufficientFields →
      ∃ k i, fi.get? k = some i ∧ i < (Fields line).length ∧
        coerce k ((Fields line).getD i []) = .error e := by
    intro e he hne
    rw [parseRecord_eq] at he
    split at he
    · simp only [Except.error.injEq] at he
      exact absurd he.symm hne
    · obtain ⟨⟨k, i⟩, hp, hi, hc⟩ := parseRecordLoop_error _ _ _ _ he
      exact ⟨k, i, (IsRange_mem fi o1 hv h1 k i).mp hp, hi, hc⟩
  refine ⟨hok, ?_, hins, herr, ?_⟩
  · constructor
    · rintro ⟨e, he⟩
      cases h : parseRecord line fi o2 with
      | error e2 => exact ⟨e2, rfl⟩
      | ok r => rw [(hok r).mpr h] at he; exact absurd he (by simp)
    · rintro ⟨e, he⟩
      cases h : parseRecord line fi o1 with
      | error e2 => exact ⟨e2, rfl⟩
      | ok r => rw [(hok r).mp h] at he; exact absurd he (by simp)
  · intro huniq
    cases h : parseRecord line fi o1 with
    | ok r => exact ((hok r).mp h).symm
    | error e =>
      by_cases hne : e = .insufficientFields
      · subst hne
        exact (hins.mp h).symm
      · obtain ⟨k, i, hk, hi, hc⟩ := herr e h hne
        have hlen : ¬ ((Fields line).length < fi.length) := by
          intro hlt
          have := (parseRecord_insufficient line fi o1).mpr hlt
          rw [h] at this
          simp only [Except.error.injEq] at this
          exact hne this
        symm
        rw [parseRecord_eq, if_neg hlen]
        apply parseRecordLoop_single_error _ _ _ k i e
          ((IsRange_mem fi o2 hv h2 k i).mpr hk) hi hc
        rintro ⟨k2, j⟩ hp hpne hj
        simp only at hj ⊢
        have hk2 := (IsRange_mem fi o2 hv h2 k2 j).mp hp
        cases hc2 : coerce k2 ((Fields line).getD j []) with
        | ok v => exact ⟨v, rfl⟩
        | error e2 =>
          exfalso
          have hkk := huniq k2 j k i e2 e hk2 hk hj hi hc2 hc
          subst hkk
          rw [hk] at hk2
          simp only [Option.some.injEq] at hk2
          exact hpne (by rw [hk2])

/-- Witness of C15: the header order and its reverse on a well-formed line. -/
theorem parseRecord_order_witness :
    parseRecord (str "x 20230731193152") [(78, 0), (98, 1)] [(78, 0), (98, 1)]
      = .ok { MassagedURL := str "x", Timestamp := ⟨2023, 7, 31, 19, 31, 52, 0⟩ } ∧
    parseRecord (str "x 20230731193152") [(78, 0), (98, 1)] [(98, 1), (78, 0)]
      = .ok { MassagedURL := str "x", Timestamp := ⟨2023, 7, 31, 19, 31, 52, 0⟩ } := by
  have h := (parseRecord_order (str "x 20230731193152") [(78, 0), (98, 1)]
    [(78, 0), (98, 1)] [(98, 1), (78, 0)] (by decide) (List.Perm.refl _)
    (show List.Perm _ _ from List.reverse_perm [(78, 0), (98, 1)])).1
    { MassagedURL := str "x", Timestamp := ⟨2023, 7, 31, 19, 31, 52, 0⟩ }
  have h0 : parseRecord (str "x 20230731193152") [(78, 0), (98, 1)] [(78, 0), (98, 1)]
      = .ok { MassagedURL := str "x", Timestamp := ⟨2023, 7, 31, 19, 31, 52, 0⟩ } := by
    decide
  exact ⟨h0, h.mp h0⟩

/-! ## parseRecord: headers with duplicate codes, and the placeholder -/

/-- C11, as stated, fails: the header `CDX N N b` declares `b`, the line `x y` passes the
token-count check (two tokens, two distinct codes) and decodes, but there is no token at
the column of `b` and the Timestamp is not populated. -/
theorem parseRecord_duplicate_codes :
    parseHeader (str "CDX N N b") = .ok [(78, 1), (98, 2)] ∧
    FieldIndex.len [(78, 1), (98, 2)] ≤ (Fields (str "x y")).length ∧
    (Fields (str "x y")).get? 2 = none ∧
    parseRecord (str "x y") [(78, 1), (98, 2)] [(78, 1), (98, 2)]
      = .ok { MassagedURL := str "y" } := by
  decide

/-- C11, amended: for the FieldIndex of a valid header (duplicate codes allowed) and a
line that decodes, the attribute of every recognized code of the header whose column lies
within the line is populated from the token of that column; the attribute of a code whose
column lies beyond the line stays zero, as does every attribute whose code the header
lacks. When the codes of the header are pairwise distinct, or the line has as many tokens
as the header has code tokens, every column lies within the line, so the Record has
attributes populated for exactly the codes of the header. -/
theorem parseRecord_populated (header line : GoString) (fi : FieldIndex)
    (order : List (Nat × Nat)) (rec : Record)
    (hh : parseHeader header = .ok fi) (ho : fi.IsRange order)
    (hrec : parseRecord line fi order = .ok rec) :
    (∀ a k i tok, a.code = some k → fi.get? k = some i → (Fields line).get? i = some tok →
      coerce k tok = .ok (rec.get a)) ∧
    (∀ a k i, a.code = some k → fi.get? k = some i → (Fields line).length ≤ i →
      rec.IsZeroAt a) ∧
    (∀ a, (∀ k, a.code = some k → fi.get? k = none) → rec.IsZeroAt a) ∧
    (((Fields header).drop 1).Nodup ∨
        ((Fields header).drop 1).length ≤ (Fields line).length →
      ∀ k i, fi.get? k = some i → i < (Fields line).length) := by
  have hv : fi.Valid := (parseHeader_spec header fi hh).1
  refine ⟨?_, ?_, ?_, ?_⟩
  · intro a k i tok ha hk htok
    exact parseRecord_int_column line fi order rec a k i tok hv ho ha hk htok hrec
  · intro a k i ha hk hi
    rw [Record.isZeroAt_iff]
    rw [parseRecord_eq] at hrec
    split at hrec
    · exact absurd hrec (by simp)
    · apply parseRecordLoop_frame _ _ _ _ a hrec
      rintro ⟨k2, j⟩ hp hj hc
      rw [ha] at hc
      simp only [Option.some.injEq] at hc
      subst hc
      have hk2 := (IsRange_mem fi order hv ho k j).mp hp
      rw [hk] at hk2
      simp only [Option.some.injEq] at hk2
      subst hk2
      simp only at hj
      omega
  · intro a ha
    exact parseRecord_zero line fi order rec ho hrec a ha
  · intro hcase k i hk
    have hpos := (List.get?_eq_some.mp (((parseHeader_spec header fi hh).2.2 k i).mp hk).1).1
    rcases hcase with hnd | hlen
    · have hlen2 := (parseHeader_nodup header fi hh hnd).1
      have hpass : ¬ ((Fields line).length < fi.length) := by
        intro hlt
        rw [(parseRecord_insufficient line fi order).mpr hlt] at hrec
        exact absurd hrec (by simp)
      omega
    · omega

set_option maxRecDepth 100000 in
/-- Witness of C11: the header `CDX N N b` and a line with three tokens. -/
theorem parseRecord_populated_witness :
    coerce 98 (str "20230731193152")
      = .ok (Record.get { MassagedURL := str "y", Timestamp := ⟨2023, 7, 31, 19, 31, 52, 0⟩ }
          .Timestamp) ∧
    ∀ k i, FieldIndex.get? [(78, 1), (98, 2)] k = some i →
      i < (Fields (str "x y 20230731193152")).length := by
  have h := parseRecord_populated (str "CDX N N b") (str "x y 20230731193152")
    [(78, 1), (98, 2)] [(98, 2), (78, 1)]
    { MassagedURL := str "y", Timestamp := ⟨2023, 7, 31, 19, 31, 52, 0⟩ }
    (by decide) (show List.Perm _ _ from List.reverse_perm [(78, 1), (98, 2)]) (by decide)
  exact ⟨h.1 .Timestamp 98 2 (str "20230731193152") rfl (by decide) (by decide),
    h.2.2.2 (Or.inr (by decide))⟩

/-- C19, as stated, fails: `b` is declared at column 0 and the token there is `-`, but the
error is not always the invalid-timestamp error. On the line `-` with the codes `b` and
`N`, `parseRecord` returns the insufficient-fields error; on the line `- x` with the codes
`b` and `s`, visited in the order `s`, `b`, it returns the invalid-status-code error of the
token `x`. -/
theorem parseRecord_dash_other_error :
    FieldIndex.get? [(98, 0), (78, 1)] 98 = some 0 ∧
    (Fields (str "-")).get? 0 = some (str "-") ∧
    parseRecord (str "-") [(98, 0), (78, 1)] [(98, 0), (78, 1)]
      = .error .insufficientFields ∧
    FieldIndex.get? [(98, 0), (115, 1)] 98 = some 0 ∧
    (Fields (str "- x")).get? 0 = some (str "-") ∧
    parseRecord (str "- x") [(98, 0), (115, 1)] [(115, 1), (98, 0)]
      = .error (.invalidStatusCode ⟨str "Atoi", str "x", .ErrSyntax⟩) := by
  decide

/-- C19, amended: a line whose token in a declared column `b`, `s`, `S` or `V` is the
placeholder `-` never decodes, so `Parse` rejects a file that holds such a line. When the
line has enough tokens and no other column holds a token that its case rejects, the error
is that of the column: invalid timestamp for `b`, invalid status code for `s`, invalid
compressed record size for `S`, invalid compressed arc offset for `V`. -/
theorem parseRecord_dash (line : GoString) (fi : FieldIndex) (order : List (Nat × Nat))
    (k i : Nat) (hv : fi.Valid) (ho : fi.IsRange order)
    (hk : k = 98 ∨ k = 115 ∨ k = 83 ∨ k = 86)
    (hget : fi.get? k = some i) (htok : (Fields line).get? i = some (str "-")) :
    (∃ e, parseRecord line fi order = .error e) ∧
    (∀ header lines err orders, parseHeader header = .ok fi → line ∈ lines →
      (∀ n, fi.IsRange (orders n)) →
      ∀ records, Parse ⟨header :: lines, err⟩ orders ≠ .ok records) ∧
    (∀ e, coerce k (str "-") = .error e → fi.len ≤ (Fields line).length →
      (∀ k2 j t, k2 ≠ k → fi.get? k2 = some j → (Fields line).get? j = some t →
        ∃ v, coerce k2 t = .ok v) →
      parseRecord line fi order = .error e) ∧
    coerce 98 (str "-")
      = .error (.invalidTimestamp ⟨str "20060102150405", str "-", .cannotParse (str "2006")⟩) ∧
    coerce 115 (str "-") = .error (.invalidStatusCode ⟨str "Atoi", str "-", .ErrSyntax⟩) ∧
    coerce 83 (str "-")
      = .error (.invalidCompressedRecordSize ⟨str "ParseInt", str "-", .ErrSyntax⟩) ∧
    coerce 86 (str "-")
      = .error (.invalidCompressedArcOffset ⟨str "ParseInt", str "-", .ErrSyntax⟩) := by
  have c98 : coerce 98 (str "-") = .error (.invalidTimestamp
      ⟨str "20060102150405", str "-", .cannotParse (str "2006")⟩) := by decide
  have c115 : coerce 115 (str "-")
      = .error (.invalidStatusCode ⟨str "Atoi", str "-", .ErrSyntax⟩) := by decide
  have c83 : coerce 83 (str "-")
      = .error (.invalidCompressedRecordSize ⟨str "ParseInt", str "-", .ErrSyntax⟩) := by
    decide
  have c86 : coerce 86 (str "-")
      = .error (.invalidCompressedArcOffset ⟨str "ParseInt", str "-", .ErrSyntax⟩) := by
    decide
  have hcoerce : ∃ e, coerce k (str "-") = .error e := by
    rcases hk with rfl | rfl | rfl | rfl
    · exact ⟨_, c98⟩
    · exact ⟨_, c115⟩
    · exact ⟨_, c83⟩
    · exact ⟨_, c86⟩
  obtain ⟨hi, hgd⟩ := getD_of_get? _ _ _ htok
  have hfail : ∀ order2, fi.IsRange order2 → ∃ e, parseRecord line fi order2 = .error e := by
    intro order2 ho2
    cases h : parseRecord line fi order2 with
    | error e => exact ⟨e, rfl⟩
    | ok r =>
      exfalso
      rw [parseRecord_eq] at h
      split at h
      · exact absurd h (by simp)
      · obtain ⟨v, hvv⟩ := (parseRecordLoop_ok_iff _ _ _).mp ⟨r, h⟩ (k, i)
          ((IsRange_mem fi order2 hv ho2 k i).mpr hget) hi
        simp only [hgd] at hvv
        obtain ⟨e, he⟩ := hcoerce
        rw [he] at hvv
        exact absurd hvv (by simp)
  refine ⟨hfail order ho, ?_, ?_, c98, c115, c83, c86⟩
  · intro header lines err orders hh hmem hor records hp
    rcases Parse_cases ⟨header :: lines, err⟩ orders with ⟨_, h2⟩ | ⟨_, _, h2⟩ |
      ⟨_, _, _, _, _, h2⟩ | ⟨_, _, _, _, _, _, _, h2⟩ | ⟨_, _, _, _, _, _, _, _, _, h2⟩ |
      ⟨_, _, _, _, _, h2⟩ | ⟨header2, rest, fi2, recs, hlines, _, hh2, hl, _, _, h2⟩
    all_goals rw [h2] at hp
    all_goals first
      | (simp only [Except.ok.injEq] at hp
         simp only [List.cons.injEq] at hlines
         obtain ⟨rfl, rfl⟩ := hlines
         rw [hh] at hh2
         simp only [Except.ok.injEq] at hh2
         subst hh2
         obtain ⟨n, hn⟩ := List.get?_of_mem hmem
         obtain ⟨r, hr⟩ := parseLines_ok_all fi lines orders [] recs hl n line hn
         obtain ⟨e, he⟩ := hfail (orders n) (hor n)
         rw [he] at hr
         exact absurd hr (by simp))
      | exact absurd hp (by simp)
  · intro e he hlen hothers
    exact parseRecord_single_error line fi order hv ho hlen k i (str "-") e hget htok he
      hothers

set_option maxRecDepth 100000 in
/-- Witness of C19: the redirect column may hold `-`, the status column may not. -/
theorem parseRecord_dash_witness :
    parseRecord (str "- - 1234") [(114, 0), (115, 1), (83, 2)] [(83, 2), (115, 1), (114, 0)]
      = .error (.invalidStatusCode ⟨str "Atoi", str "-", .ErrSyntax⟩) := by
  refine (parseRecord_dash (str "- - 1234") [(114, 0), (115, 1), (83, 2)]
    [(83, 2), (115, 1), (114, 0)] 115 1 (by decide)
    (show List.Perm _ _ from List.reverse_perm [(114, 0), (115, 1), (83, 2)])
    (by decide) (by decide) (by decide)).2.2.1 _ (by decide) (by decide) ?_
  have htoks : Fields (str "- - 1234") = [str "-", str "-", str "1234"] := by decide
  intro k2 j t hne hk2 ht
  rw [htoks] at ht
  by_cases h114 : k2 = 114
  · subst h114
    exact ⟨.str t, by simp only [coerce, Nat.reduceEqDiff, if_false]⟩
  · by_cases h83 : k2 = 83
    · subst h83
      have hj : j = 2 := by
        simp only [FieldIndex.get?, Nat.reduceEqDiff, if_true, if_false,
          Option.some.injEq] at hk2
        exact hk2.symm
      subst hj
      simp only [List.get?_cons_succ, List.get?_cons_zero, Option.some.injEq] at ht
      subst ht
      exact ⟨.int 1234, by decide⟩
    · exfalso
      have h1 : ¬ (114 = k2) := fun e => h114 e.symm
      have h2 : ¬ (115 = k2) := fun e => hne e.symm
      have h3 : ¬ (83 = k2) := fun e => h83 e.symm
      simp [FieldIndex.get?, h1, h2, h3] at hk2
end Gocdx
